import Mathlib

/-!
Hopefully: the module runtime.

A shallow embedding of the module runtime of the repository
(`internal/modules/manifest.go`, `installer.go`, `registry.go`, and the
handlers of the module pages in `cmd/server/main.go`) and the properties
proved about it.

Go strings are modelled by `String` (and by `List Char` where the code walks
over them); a Go `error` is modelled by its message.
-/

namespace Hopefully

/-! ## Regular expressions (the fragment of Go's `regexp` syntax used by `nameRe`) -/

/-- Syntax of the regular expressions used by the program. -/
inductive Regexp where
  /-- `^` : the beginning of the text. -/
  | beginText
  /-- `$` : the end of the text (no multi-line flag). -/
  | endText
  /-- `[a-b...]` : a character class given by its ranges. -/
  | cls (ranges : List (Char × Char))
  /-- `xy` : concatenation. -/
  | seq (a b : Regexp)
  /-- `x{min,max}` : bounded repetition. -/
  | rep (r : Regexp) (min max : Nat)

/-- Membership of a character in a class given by ranges. -/
def inRanges (ranges : List (Char × Char)) (c : Char) : Bool :=
  ranges.any (fun p => decide (p.1 ≤ c) && decide (c ≤ p.2))

/-- A position in the text: the offset reached and the text still to read. -/
abbrev Pos := Nat × List Char

/-- All the positions reachable by matching `f` between `min` and `max` times. -/
def repRests (f : Pos → List Pos) : Nat → Nat → Pos → List Pos
  | min, 0, p => if min = 0 then [p] else []
  | min, max + 1, p =>
    (if min = 0 then [p] else []) ++ (f p).flatMap (repRests f (min - 1) max)

/-- All the positions at which a match of the expression starting at `p` can end. -/
def Regexp.rests : Regexp → Pos → List Pos
  | .beginText, p => if p.1 = 0 then [p] else []
  | .endText, p => if p.2 = [] then [p] else []
  | .cls _, (_, []) => []
  | .cls rs, (n, c :: t) => if inRanges rs c then [(n + 1, t)] else []
  | .seq a b, p => (a.rests p).flatMap (fun q => b.rests q)
  | .rep r min max, p => repRests (fun q => r.rests q) min max p

/-- Go's `(*Regexp).MatchString`: does the text contain a match of the expression
(starting at any offset)? -/
def Regexp.MatchString (re : Regexp) (s : String) : Bool :=
  (List.range (s.data.length + 1)).any
    (fun k => !(re.rests (k, s.data.drop k)).isEmpty)

/-! ## manifest.go -/

/-- The class `[a-z0-9]`. -/
def clsLowerAlnum : List (Char × Char) := [('a', 'z'), ('0', '9')]

/-- The class `[a-z0-9_-]`. -/
def clsNameChar : List (Char × Char) := [('a', 'z'), ('0', '9'), ('_', '_'), ('-', '-')]

/-- `nameRe = regexp.MustCompile("^[a-z0-9][a-z0-9_-]{1,63}$")`. -/
def nameRe : Regexp :=
  .seq .beginText
    (.seq (.cls clsLowerAlnum)
      (.seq (.rep (.cls clsNameChar) 1 63) .endText))

/-- The source text of `nameRe`, as printed by `%s`. -/
def nameReString : String := "^[a-z0-9][a-z0-9_-]{1,63}$"

/-- The name grammar in the words of the specification: the first character. -/
def isNameStart (c : Char) : Prop :=
  ('a' ≤ c ∧ c ≤ 'z') ∨ ('0' ≤ c ∧ c ≤ '9')

/-- The name grammar in the words of the specification: a later character. -/
def isNameCont (c : Char) : Prop :=
  ('a' ≤ c ∧ c ≤ 'z') ∨ ('0' ≤ c ∧ c ≤ '9') ∨ c = '_' ∨ c = '-'

/-- The name grammar in the words of the specification. -/
def validName (s : String) : Prop :=
  2 ≤ s.length ∧ s.length ≤ 64 ∧
    ∃ c rest, s.data = c :: rest ∧ isNameStart c ∧ ∀ d ∈ rest, isNameCont d


instance (c : Char) : Decidable (isNameStart c) := by unfold isNameStart; infer_instance

instance (c : Char) : Decidable (isNameCont c) := by unfold isNameCont; infer_instance

/-- The menu descriptor of a manifest (`MenuItem`). -/
structure MenuItem where
  Label : String := ""
  Icon : String := ""
  Position : Int := 0
  Hidden : Bool := false
  deriving DecidableEq, Repr

/-- The package descriptor (`Manifest`). The `Env` map is kept as the list of its pairs. -/
structure Manifest where
  Name : String := ""
  Version : String := ""
  Description : String := ""
  Author : String := ""
  License : String := ""
  Repository : String := ""
  Entrypoint : String := ""
  Args : List String := []
  Env : List (String × String) := []
  Port : Int := 0
  Requires : List String := []
  Menu : MenuItem := {}
  deriving DecidableEq, Repr

/-! ## Paths (`path/filepath`, Unix flavour) and `strings`

These functions belong to the Go standard library; they are modelled from its
documentation, element by element. -/

/-- `strings.Split(s, "/")` on the characters of a string. -/
def splitSlash : List Char → List (List Char)
  | [] => [[]]
  | c :: t =>
    if c = '/' then [] :: splitSlash t
    else
      match splitSlash t with
      | [] => [[c]]
      | h :: r => (c :: h) :: r

/-- `strings.Join(elems, "/")` on lists of characters. -/
def joinSlash : List (List Char) → List Char
  | [] => []
  | [c] => c
  | c :: d :: r => c ++ '/' :: joinSlash (d :: r)

/-- The element `..`. -/
def dotdot : List Char := ['.', '.']

/-- One step of `filepath.Clean`: the state is the number of leading `..` elements kept
and the stack of the ordinary elements kept after them (the last one first). -/
def cleanStep (rooted : Bool) (st : Nat × List (List Char)) (e : List Char) :
    Nat × List (List Char) :=
  if e = [] ∨ e = ['.'] then st
  else if e = dotdot then
    match st.2 with
    | _ :: rest => (st.1, rest)
    | [] => if rooted then st else (st.1 + 1, [])
  else (st.1, e :: st.2)

/-- The elements of the cleaned path. -/
def cleanElems (rooted : Bool) (elems : List (List Char)) : List (List Char) :=
  let st := elems.foldl (cleanStep rooted) (0, [])
  List.replicate st.1 dotdot ++ st.2.reverse

/-- `filepath.Clean` on the characters of a path. -/
def cleanChars (path : List Char) : List Char :=
  match path with
  | [] => ['.']
  | c :: _ =>
    let rooted : Bool := c = '/'
    let elems := cleanElems rooted (splitSlash path)
    if rooted then '/' :: joinSlash elems
    else if elems = [] then ['.'] else joinSlash elems

/-- `filepath.Clean`. -/
def Clean (path : String) : String := ⟨cleanChars path.data⟩

/-- `filepath.Join`: the elements from the first non-empty one on are joined by the
separator and the result is cleaned; no non-empty element gives the empty path. -/
def Join (elem : List String) : String :=
  match elem.dropWhile (fun e => e = "") with
  | [] => ""
  | l => Clean ⟨joinSlash (l.map String.data)⟩

/-- The characters of a path up to its last separator, the separator included. -/
def dirChars (path : List Char) : List Char :=
  (path.reverse.dropWhile (fun c => c ≠ '/')).reverse

/-- `filepath.Dir`: everything up to the last separator, cleaned. -/
def Dir (path : String) : String := Clean ⟨dirChars path.data⟩

/-- `strings.HasPrefix`. -/
def HasPrefix (s pre : String) : Bool := pre.data.isPrefixOf s.data

/-! ## The host: what the program observes of its environment -/

/-- Observations of the environment that `manifest.go` makes. -/
structure ManifestHost where
  /-- `os.ReadFile`: the contents of the file, or nothing when the read fails. -/
  readFile : String → Option String
  /-- `json.Unmarshal` into a `Manifest`: the value, or the message of the error. -/
  unmarshal : String → Except String Manifest
  /-- The verb `%q` of `fmt`: the quoted form of a string. -/
  quote : String → String

/-- `loadManifest(dir)`: the manifest, or the message of the error returned with `nil`. -/
def loadManifest (h : ManifestHost) (dir : String) : Except String Manifest :=
  match h.readFile (Join [dir, "manifest.json"]) with
  | none => .error ("manifest.json not found in " ++ dir)
  | some data =>
    match h.unmarshal data with
    | .error e => .error ("invalid manifest.json: " ++ e)
    | .ok m =>
      if !nameRe.MatchString m.Name then
        .error ("name must match " ++ nameReString ++ ", got " ++ h.quote m.Name)
      else if m.Version = "" then
        .error "version is required"
      else .ok m


/-- A manifest used to exercise the definitions. -/
def demoManifest : Manifest :=
  { Name := "demo", Version := "1.0.0", Entrypoint := "run.sh", Port := 4001 }

/-- A host whose only readable file is `/src/manifest.json`, holding `demoManifest`. -/
def demoManifestHost : ManifestHost where
  readFile := fun p => if p = "/src/manifest.json" then some "demo" else none
  unmarshal := fun d => if d = "demo" then .ok demoManifest else .error "unexpected end of JSON input"
  quote := fun s => "\"" ++ s ++ "\""

/-! ## installer.go: archive extraction -/

/-- An effect on the file system. -/
inductive FsOp where
  /-- `os.MkdirAll(path, mode)`. -/
  | MkdirAll (path : String) (mode : Nat)
  /-- `os.OpenFile(path, O_WRONLY|O_CREATE|O_TRUNC, mode)`, when it succeeds. -/
  | OpenFile (path : String) (mode : Nat)
  /-- The bytes written to the file opened at `path`. -/
  | Write (path : String) (data : String)
  /-- `os.RemoveAll(path)`. -/
  | RemoveAll (path : String)
  /-- `os.Remove(path)`. -/
  | Remove (path : String)
  /-- `os.Chmod(path, mode)`. -/
  | Chmod (path : String) (mode : Nat)
  /-- `copyDir(src, dst)`, as far as it got. -/
  | CopyDir (src dst : String)
  deriving DecidableEq, Repr

/-- The path an effect is applied to. -/
def FsOp.path : FsOp → String
  | .MkdirAll p _ => p
  | .OpenFile p _ => p
  | .Write p _ => p
  | .RemoveAll p => p
  | .Remove p => p
  | .Chmod p _ => p
  | .CopyDir _ d => d

/-- An entry of a zip archive (`zip.File`): its name, whether `FileInfo().IsDir()` holds,
its mode, and its contents (nothing when `f.Open()` fails). -/
structure ZipFile where
  Name : String
  IsDir : Bool := false
  Mode : Nat := 0o644
  Data : Option String := some ""
  deriving DecidableEq, Repr

/-- How a call ends: normally, with an error, or in a run-time panic. -/
inductive Outcome where
  | ok
  | error (msg : String)
  | panic
  deriving DecidableEq, Repr

/-- Observations of the environment that `unzip` makes. -/
structure ZipHost where
  /-- `zip.OpenReader(src)`: the entries of the archive, or the message of the error. -/
  openReader : String → Except String (List ZipFile)
  /-- Does `os.OpenFile` for writing fail on this path, after these effects? The message
  of its error if so. -/
  openFileErr : List FsOp → String → Option String

/-- The path that `unzip` resolves an entry to. -/
def unzipPath (dst : String) (f : ZipFile) : String := Join [dst, Clean f.Name]

/-- The guard of `unzip`: the resolved path begins with the cleaned destination followed
by the separator. -/
def unzipGuard (dst : String) (f : ZipFile) : Bool :=
  HasPrefix (unzipPath dst f) (Clean dst ++ "/")

/-- The loop of `unzip` over the entries of the archive; `ops` are the effects so far. -/
def unzipFiles (h : ZipHost) (dst : String) : List ZipFile → List FsOp → List FsOp × Outcome
  | [], ops => (ops, .ok)
  | f :: rest, ops =>
    let path := unzipPath dst f
    if !unzipGuard dst f then unzipFiles h dst rest ops
    else if f.IsDir then unzipFiles h dst rest (ops ++ [.MkdirAll path f.Mode])
    else
      let ops := ops ++ [.MkdirAll (Dir path) 0o755]
      match h.openFileErr ops path with
      | some err => (ops, .error err)
      | none =>
        match f.Data with
        | none => (ops ++ [.OpenFile path f.Mode], .panic)
        | some data => unzipFiles h dst rest (ops ++ [.OpenFile path f.Mode, .Write path data])

/-- `unzip(src, dst)`: the effects on the file system, in order, and how the call ends. -/
def unzip (h : ZipHost) (src dst : String) : List FsOp × Outcome :=
  match h.openReader src with
  | .error e => ([], .error e)
  | .ok files => unzipFiles h dst files [.MkdirAll dst 0o755]

/-- An ordinary path element: not empty, not `.`, not `..`, without a separator. -/
def isNormalElem (e : List Char) : Bool :=
  e ≠ [] && e ≠ ['.'] && e ≠ dotdot && !e.contains '/'

/-- What is left of `s` after the leading `pre`, when `s` begins with it. -/
def stripLeading : List Char → List Char → Option (List Char)
  | [], s => some s
  | _ :: _, [] => none
  | a :: pre, b :: s => if a = b then stripLeading pre s else none

/-- The path `p` is a proper descendant of the directory `d`: it is `d`, a separator
(none is added after the root `/`), and one or more ordinary elements. -/
def strictlyInside (d p : String) : Bool :=
  match stripLeading (if d.data = ['/'] then ['/'] else d.data ++ ['/']) p.data with
  | none => false
  | some rest => rest ≠ [] && (splitSlash rest).all isNormalElem

/-- The last element of a path. -/
def lastElem (p : String) : List Char := ((splitSlash p.data).getLast?).getD []

/-- A host on which every archive holds the given entries and every file can be written. -/
def listZipHost (files : List ZipFile) : ZipHost where
  openReader := fun _ => .ok files
  openFileErr := fun _ _ => none

/-- How two consecutive elements of a cleaned path are related: the later one is ordinary,
or both are `..`. -/
def elemRel (a b : List Char) : Prop := isNormalElem b = true ∨ (a = dotdot ∧ b = dotdot)

/-! ## installer.go: the task and its event stream -/

/-- The levels of a log line (`LogLevel`). -/
def LvlInfo : String := "info"

/-- The level `ok`. -/
def LvlOK : String := "ok"

/-- The level `warn`. -/
def LvlWarn : String := "warn"

/-- The level `error`. -/
def LvlError : String := "error"

/-- A line of the progress log (`LogLine`); the defaults are Go's zero values. -/
structure LogLine where
  Text : String := ""
  Level : String := ""
  Done : Bool := false
  Error : Bool := false
  deriving DecidableEq, Repr

/-- The capacity of the channel of a task: `make(chan LogLine, 256)`. -/
def chanCap : Nat := 256

/-- A task (`Task`). The channel `ch` is modelled by the lines queued in it, the oldest
first, and by whether it has been closed. A send on a closed channel is a run-time panic,
which ends the program: `panicked` records it. -/
structure Task where
  ID : String
  done : Bool := false
  buf : List LogLine := []
  ch : List LogLine := []
  closed : Bool := false
  panicked : Bool := false
  deriving DecidableEq, Repr

/-- `newTask()`; the identifier is the clock reading it is printed from. -/
def newTask (id : String) : Task := { ID := id }

/-- How a call that may wait on a channel ends: it returns, or it cannot go on in the
state reached until another goroutine acts on the channel. -/
inductive Step (α : Type) where
  | returns (s : α)
  | blocks (s : α)
  deriving DecidableEq, Repr

/-- `t.log(level, text)`: the line is appended to the buffer, then offered to the channel
by a `select` with a `default` branch, so it is dropped when the channel is full. -/
def Task.log (t : Task) (level text : String) : Task :=
  let line : LogLine := { Text := text, Level := level }
  let t := { t with buf := t.buf ++ [line] }
  if t.closed then { t with panicked := true }
  else if t.ch.length < chanCap then { t with ch := t.ch ++ [line] }
  else t

/-- The final line that `t.finish(err)` builds. -/
def finalLine (err : Option String) : LogLine :=
  match err with
  | none => { Done := true }
  | some e => { Done := true, Error := true, Text := "ERROR: " ++ e, Level := LvlError }

/-- The first half of `t.finish(err)`: on an error a line is appended to the buffer; the
task is marked done. -/
def Task.finishBegin (t : Task) (err : Option String) : Task :=
  let t :=
    match err with
    | none => t
    | some _ =>
      { t with buf := t.buf ++ [({ Text := (finalLine err).Text, Level := LvlError } : LogLine)] }
  { t with done := true }

/-- The second half of `t.finish(err)`: `t.ch <- final; close(t.ch)`. The send is a plain
one: it waits while the channel is full. -/
def Task.finishSend (t : Task) (final : LogLine) : Step Task :=
  if t.closed then .returns { t with panicked := true }
  else if t.ch.length < chanCap then .returns { t with ch := t.ch ++ [final], closed := true }
  else .blocks t

/-- `t.finish(err)`. -/
def Task.finish (t : Task) (err : Option String) : Step Task :=
  (t.finishBegin err).finishSend (finalLine err)

/-- The calls `t.log` of a worker, in order. -/
def Task.logAll (t : Task) (lines : List (String × String)) : Task :=
  lines.foldl (fun t l => t.log l.1 l.2) t

/-- What `Stream` writes to the response: an event carrying a line, or a keep-alive
comment. -/
inductive Frame where
  | data (line : LogLine)
  | ping
  deriving DecidableEq, Repr

/-- Where a call of `Stream` stands. -/
inductive SubState where
  /-- Before the buffer is copied. -/
  | start
  /-- The buffer has been replayed; `t.done` is read next. -/
  | replayed
  /-- In the `select` loop. -/
  | live
  /-- `Stream` has returned. -/
  | returned
  deriving DecidableEq, Repr

/-- A subscriber: a call of `t.Stream`, with what it has written so far. -/
structure Sub where
  state : SubState := .start
  sent : List Frame := []
  deriving DecidableEq, Repr

/-- `Stream`, the replay: the buffer is copied under the lock and every line is sent. -/
def Sub.replay (t : Task) (s : Sub) : Sub :=
  match s.state with
  | .start => { state := .replayed, sent := s.sent ++ t.buf.map .data }
  | _ => s

/-- `Stream`, after the replay: `if t.done { send(LogLine{Done: true}); return }`. -/
def Sub.check (t : Task) (s : Sub) : Sub :=
  match s.state with
  | .replayed =>
    if t.done then { state := .returned, sent := s.sent ++ [.data ({ Done := true } : LogLine)] }
    else { s with state := .live }
  | _ => s

/-- `Stream`, the branch `case line, open := <-t.ch` of the loop: the oldest queued line is
taken and sent, and the call returns when it is marked done; a closed and empty channel
yields the zero line, which is sent before the call returns; an open and empty channel
makes the branch wait. -/
def Sub.recv (t : Task) (s : Sub) : Step (Task × Sub) :=
  match s.state with
  | .live =>
    match t.ch with
    | line :: rest =>
      .returns ({ t with ch := rest },
        { state := if line.Done then .returned else .live, sent := s.sent ++ [.data line] })
    | [] =>
      if t.closed then .returns (t, { state := .returned, sent := s.sent ++ [.data ({} : LogLine)] })
      else .blocks (t, s)
  | _ => .returns (t, s)

/-- `Stream`, the branch `case <-r.Context().Done()` of the loop. -/
def Sub.cancel (s : Sub) : Sub :=
  match s.state with
  | .live => { s with state := .returned }
  | _ => s

/-- `Stream`, the branch `case <-time.After(25*time.Second)` of the loop. -/
def Sub.timeout (s : Sub) : Sub :=
  match s.state with
  | .live => { s with sent := s.sent ++ [.ping] }
  | _ => s

/-- A subscriber takes from the channel until `Stream` returns or has to wait, at most
`fuel` times. -/
def Sub.drain : Nat → Task → Sub → Task × Sub
  | 0, t, s => (t, s)
  | fuel + 1, t, s =>
    match s.state with
    | .live =>
      match Sub.recv t s with
      | .returns (t', s') => Sub.drain fuel t' s'
      | .blocks (t', s') => (t', s')
    | _ => (t, s)

/-- A whole call of `Stream` on a task that no other goroutine touches meanwhile. -/
def Task.Stream (t : Task) : Task × Sub :=
  Sub.drain (t.ch.length + 1) t (Sub.check t (Sub.replay t {}))

/-- The state a call that may wait ends in. -/
def Step.state {α : Type} : Step α → α
  | .returns s => s
  | .blocks s => s

/-- The line that `t.log(level, text)` builds. -/
def mkLine (l : String × String) : LogLine := { Text := l.2, Level := l.1 }

/-- The lines appended to the buffer by `t.finish(err)`. -/
def errLines (err : Option String) : List LogLine :=
  match err with
  | none => []
  | some e => [{ Text := "ERROR: " ++ e, Level := LvlError }]

/-- What the worker and an attached subscriber do before the worker calls `finish`, in
the order in which it happens: the worker logs a line, or the subscriber gets to take
from the channel. -/
inductive Act where
  | log (level text : String)
  | recv
  deriving DecidableEq, Repr

/-- The lines logged by a sequence of actions. -/
def logsOf : List Act → List (String × String)
  | [] => []
  | .log level text :: r => (level, text) :: logsOf r
  | .recv :: r => logsOf r

/-- The task and the subscriber after a sequence of actions. A subscriber that finds the
channel empty goes on waiting. -/
def runActs : List Act → Task × Sub → Task × Sub
  | [], p => p
  | .log level text :: r, p => runActs r (p.1.log level text, p.2)
  | .recv :: r, p => runActs r (Sub.recv p.1 p.2).state

/-- A subscriber in the loop of `Stream` that has been sent, with what is still queued in
the open channel, exactly the lines of the buffer. -/
def InStep (t : Task) (s : Sub) : Prop :=
  s.state = .live ∧ t.closed = false ∧ (∀ l ∈ t.ch, l.Done = false) ∧
    s.sent ++ t.ch.map Frame.data = t.buf.map Frame.data

/-! ## registry.go -/

/-- A command about to run, or running (`exec.Cmd`): path, arguments, working directory,
environment, the file its output goes to, and the process identifier once started. -/
structure Cmd where
  Path : String := ""
  Args : List String := []
  Dir : String := ""
  Env : List String := []
  Stdout : Option String := none
  Pid : Option Nat := none
  deriving DecidableEq, Repr

/-- An installed module (`Module`); the defaults are Go's zero values. -/
structure Module where
  ID : Int := 0
  Name : String := ""
  Version : String := ""
  Description : String := ""
  Author : String := ""
  Status : String := ""
  SourceType : String := ""
  SourceURL : String := ""
  Manifest : Option Manifest := none
  ErrorLog : String := ""
  InstalledAt : String := ""
  proc : Option Cmd := none
  deriving DecidableEq, Repr

/-- A row of the table `modules` of the database. -/
structure Row where
  id : Int := 0
  name : String := ""
  version : String := "0.0.0"
  description : String := ""
  author : String := ""
  status : String := "inactive"
  source_type : String := ""
  source_url : String := ""
  manifest : String := "\x7b\x7d"
  error_log : String := ""
  installed_at : String := ""
  deriving DecidableEq, Repr

/-- A Go map with string keys, as the list of its entries: the value at a key. -/
def mapGet {α : Type} : List (String × α) → String → Option α
  | [], _ => none
  | (k', v) :: r, k => if k' = k then some v else mapGet r k

/-- `m[k] = v`. -/
def mapSet {α : Type} (m : List (String × α)) (k : String) (v : α) : List (String × α) :=
  (k, v) :: m.filter (fun p => p.1 ≠ k)

/-- `delete(m, k)`. -/
def mapDelete {α : Type} (m : List (String × α)) (k : String) : List (String × α) :=
  m.filter (fun p => p.1 ≠ k)

/-- An assignment to fields of the object that the map holds at `k`, made through a
pointer to it. -/
def mapAdjust {α : Type} (m : List (String × α)) (k : String) (f : α → α) :
    List (String × α) :=
  m.map (fun p => (p.1, if p.1 = k then f p.2 else p.2))

/-- What a call does to processes. -/
inductive ProcOp where
  /-- `cmd.Start()` succeeded. -/
  | Start (cmd : Cmd)
  /-- `Process.Kill()` followed by `Wait()`. -/
  | Kill (pid : Nat)
  /-- A command run to its end by `runLog`. -/
  | Run (dir bin : String) (args : List String)
  deriving DecidableEq, Repr

/-- The state of the program: the registry (`byName`, `dataDir`), the table `modules` and
the counter that its row identifiers are taken from, the effects so far on the file system
and on processes, and the exit watchers started and not yet run (process identifier and
module name). A pointer to a module held by the map is modelled by its key. -/
structure State where
  byName : List (String × Module) := []
  dataDir : String := ""
  rows : List Row := []
  lastId : Int := 0
  fs : List FsOp := []
  procs : List ProcOp := []
  watchers : List (Nat × String) := []
  deriving DecidableEq, Repr

/-- Observations of the environment that the registry and the installer make. Calls of
`db.DB.Exec` are taken to succeed. -/
structure Host where
  /-- What `manifest.go` observes. -/
  mh : ManifestHost
  /-- Does `os.Stat` succeed on this path, after these effects? -/
  stat : List FsOp → String → Bool
  /-- `os.Environ()`. -/
  environ : List String
  /-- The order in which `range` visits the entries of a map. -/
  rangeOrder : List (String × String) → List (String × String)
  /-- Does opening the log file of a module succeed? -/
  openLog : List FsOp → String → Bool
  /-- `cmd.Start()`: the process identifier, or the message of the error. -/
  start : Cmd → Except String Nat
  /-- Does the process exit, and its exit watcher run, during the delay that follows the
  launch? -/
  exitsDuringDelay : Nat → Bool
  /-- Does the exit watcher of a killed process run before the call that killed it goes
  on? -/
  watcherFirst : Nat → Bool
  /-- `exec.LookPath` finds the executable. -/
  lookPath : String → Bool
  /-- `copyDir(src, dst)` after these effects: the message of its error, if any. -/
  copyDirErr : List FsOp → String → String → Option String
  /-- `runLog`: the lines logged from the output of the command before the call returns,
  and the message of the error of `cmd.Wait()`, if any. The goroutine that reads the
  output is not waited for; what it logs after the call has returned is not followed. -/
  runLog : List FsOp → String → String → List String → List String × Option String
  /-- `json.Marshal` of a manifest. -/
  marshal : Manifest → String
  /-- `time.Now()`, as stored in a module. -/
  now : String
  /-- The value of `datetime('now')` in the database. -/
  dbNow : String

/-- `r.modulesDir()`. -/
def modulesDir (st : State) : String := Join [st.dataDir, "modules"]

/-- `r.moduleDir(n)`. -/
def moduleDir (st : State) (n : String) : String := Join [modulesDir st, n]

/-- `r.Get(name)`. -/
def Get (st : State) (name : String) : Option Module := mapGet st.byName name

/-- The row of the table `modules` with this name. -/
def dbGet (rows : List Row) (name : String) : Option Row := rows.find? (fun r => r.name = name)

/-- `UPDATE modules SET status=?, error_log=? WHERE name=?`. -/
def dbSetStatus (rows : List Row) (name status errorLog : String) : List Row :=
  rows.map (fun r => if r.name = name then { r with status := status, error_log := errorLog }
    else r)

/-- The exit watcher started by `startProcess(m)`, once `cmd.Wait()` has returned: if the
registry holds a module of that name whose status is `active`, the module and its row get
the status `error`. -/
def exitWatcher (st : State) (name : String) : State :=
  match mapGet st.byName name with
  | some mod =>
    if mod.Status = "active" then
      { st with
        byName := mapAdjust st.byName name (fun m =>
          { m with Status := "error", ErrorLog := "process exited unexpectedly" })
        rows := dbSetStatus st.rows name "error" "process exited unexpectedly" }
    else st
  | none => st

/-- The exit watcher that `startProcess` started for the process `pid` of the module
`name` runs, if it is still to run. -/
def runWatcher (st : State) (pid : Nat) (name : String) : State :=
  if (pid, name) ∈ st.watchers then
    exitWatcher { st with watchers := st.watchers.erase (pid, name) } name
  else st

/-- The entrypoint of a module, as `startProcess` resolves it. -/
def entryPath (st : State) (m : Module) (mf : Manifest) : String :=
  Join [moduleDir st m.Name, mf.Entrypoint]

/-- The path of the log file of a module. -/
def logPath (st : State) (m : Module) : String :=
  Join [st.dataDir, "logs", "module-" ++ m.Name ++ ".log"]

/-- The environment that `startProcess` gives the process. -/
def cmdEnv (h : Host) (st : State) (m : Module) (mf : Manifest) : List String :=
  let env := h.environ ++
    ["MODULE_NAME=" ++ m.Name,
     "MODULE_DIR=" ++ moduleDir st m.Name,
     "DATA_DIR=" ++ Join [st.dataDir, "module_data", m.Name]]
  let env := if mf.Port ≠ 0 then env ++ ["PORT=" ++ toString mf.Port] else env
  env ++ (h.rangeOrder mf.Env).map (fun kv => kv.1 ++ "=" ++ kv.2)

/-- The effects of `startProcess` on the file system before the launch. -/
def startFs (h : Host) (st : State) (m : Module) (mf : Manifest) : List FsOp :=
  let fs := st.fs ++ [.Chmod (entryPath st m mf) 0o755, .MkdirAll (Dir (logPath st m)) 0o755]
  if h.openLog fs (logPath st m) then fs ++ [.OpenFile (logPath st m) 0o644] else fs

/-- The command that `startProcess` builds. -/
def mkCmd (h : Host) (st : State) (m : Module) (mf : Manifest) : Cmd :=
  { Path := entryPath st m mf
    Args := entryPath st m mf :: mf.Args
    Dir := moduleDir st m.Name
    Env := cmdEnv h st m mf
    Stdout :=
      if h.openLog (st.fs ++ [.Chmod (entryPath st m mf) 0o755,
          .MkdirAll (Dir (logPath st m)) 0o755]) (logPath st m)
      then some (logPath st m) else none }

/-- `r.startProcess(m)`, for the module `m` that the map holds at `key`: the new state and
the message of the error returned, if any. -/
def startProcess (h : Host) (st : State) (key : String) (m : Module) : State × Option String :=
  match m.Manifest with
  | none => (st, none)
  | some mf =>
    if mf.Entrypoint = "" then (st, none)
    else if !h.stat st.fs (entryPath st m mf) then
      (st, some ("entrypoint " ++ h.mh.quote mf.Entrypoint ++ " not found"))
    else
      let cmd := mkCmd h st m mf
      let st := { st with fs := startFs h st m mf }
      match h.start cmd with
      | .error e => (st, some ("start: " ++ e))
      | .ok pid =>
        let running : Cmd := { cmd with Pid := some pid }
        let st := { st with
          procs := st.procs ++ [.Start running]
          byName := mapAdjust st.byName key (fun m => { m with proc := some running }) }
        if h.exitsDuringDelay pid then (exitWatcher st m.Name, none)
        else ({ st with watchers := st.watchers ++ [(pid, m.Name)] }, none)

/-- `r.stopProcess(m)`, for the module `m` that the map holds at `key`. -/
def stopProcess (h : Host) (st : State) (key : String) (m : Module) : State :=
  match m.proc with
  | none => st
  | some cmd =>
    match cmd.Pid with
    | none => st
    | some pid =>
      let st := { st with procs := st.procs ++ [.Kill pid] }
      let st := if h.watcherFirst pid then runWatcher st pid m.Name else st
      { st with byName := mapAdjust st.byName key (fun m => { m with proc := none }) }

/-- What `Activate` does once the process, if any, has started: the module is `active`
and its error message empty, in memory and in the database. -/
def setActive (st : State) (name : String) : State :=
  { st with
    byName := mapAdjust st.byName name (fun m => { m with Status := "active", ErrorLog := "" })
    rows := dbSetStatus st.rows name "active" "" }

/-- Does the manifest of the module declare an entrypoint? -/
def hasEntrypoint (m : Module) : Bool :=
  match m.Manifest with
  | none => false
  | some mf => mf.Entrypoint ≠ ""

/-- `r.Activate(name)`: the new state and the message of the error returned, if any. -/
def Activate (h : Host) (st : State) (name : String) : State × Option String :=
  match mapGet st.byName name with
  | none => (st, some ("module " ++ h.mh.quote name ++ " not found"))
  | some m =>
    if hasEntrypoint m then
      match startProcess h st name m with
      | (st, some err) =>
        ({ st with
            rows := dbSetStatus st.rows name "error" err
            byName := mapAdjust st.byName name (fun m =>
              { m with Status := "error", ErrorLog := err }) },
          some err)
      | (st, none) => (setActive st name, none)
    else (setActive st name, none)

/-- `r.Deactivate(name)`. -/
def Deactivate (h : Host) (st : State) (name : String) : State :=
  match mapGet st.byName name with
  | none => st
  | some m =>
    let st := stopProcess h st name m
    { st with
      byName := mapAdjust st.byName name (fun m => { m with Status := "inactive" })
      rows := st.rows.map (fun r => if r.name = name then { r with status := "inactive" } else r) }

/-! ## registry.go and installer.go: registration -/

/-- `json.Marshal(m.Manifest)`. -/
def marshalManifest (h : Host) (mf : Option Manifest) : String :=
  match mf with
  | none => "null"
  | some mf => h.marshal mf

/-- The statement `INSERT INTO modules ... ON CONFLICT(name) DO UPDATE SET ...` of
`register`: the rows and the counter of row identifiers afterwards. The column `id` is
`AUTOINCREMENT`: the statement takes the next identifier from the counter before the
conflict on the name is found, so the counter advances on both branches. -/
def dbUpsert (h : Host) (rows : List Row) (lastId : Int) (m : Module) : List Row × Int :=
  match dbGet rows m.Name with
  | some _ =>
    (rows.map (fun r =>
      if r.name = m.Name then
        { r with
          version := m.Version, description := m.Description, author := m.Author
          source_type := m.SourceType, source_url := m.SourceURL
          manifest := marshalManifest h m.Manifest, status := "inactive", error_log := "" }
      else r), lastId + 1)
  | none =>
    (rows ++ [{ id := lastId + 1, name := m.Name, version := m.Version
                description := m.Description, author := m.Author, status := "inactive"
                source_type := m.SourceType, source_url := m.SourceURL
                manifest := marshalManifest h m.Manifest, installed_at := h.dbNow }],
      lastId + 1)

/-- `r.register(m)`. -/
def register (h : Host) (st : State) (m : Module) : State :=
  let db := dbUpsert h st.rows st.lastId m
  let m : Module :=
    match dbGet db.1 m.Name with
    | some row => { m with ID := row.id }
    | none => m
  { st with rows := db.1, lastId := db.2, byName := mapSet st.byName m.Name m }

/-- The loop of `finalize` over the required executables: the task, and the first
executable that `exec.LookPath` does not find, if any. -/
def checkRequires (h : Host) : List String → Task → Task × Option String
  | [], t => (t, none)
  | dep :: rest, t =>
    if h.lookPath dep then checkRequires h rest (t.log LvlOK ("OK: " ++ dep))
    else (t, some dep)

/-- The end of `finalize`: the module is built and registered. -/
def finalizeRegister (h : Host) (st : State) (mf : Manifest) (srcType srcURL : String)
    (t : Task) : State × Task × Option String :=
  let m : Module :=
    { Name := mf.Name, Version := mf.Version, Description := mf.Description
      Author := mf.Author, SourceType := srcType, SourceURL := srcURL
      Manifest := some mf, InstalledAt := h.now }
  let st := register h st m
  let t := t.log LvlOK
    ("Модуль «" ++ mf.Name ++ "» установлен! Активируйте его на странице модулей.")
  (st, t, none)

/-- `r.finalize(ctx, src, srcType, srcURL, t)`: the new state, the task, and the message
of the error returned, if any. -/
def finalize (h : Host) (st : State) (src srcType srcURL : String) (t : Task) :
    State × Task × Option String :=
  match loadManifest h.mh src with
  | .error e => (st, t, some e)
  | .ok mf =>
    let t := t.log LvlInfo
      ("Модуль: " ++ mf.Name ++ " v" ++ mf.Version ++ " — " ++ mf.Description)
    match checkRequires h mf.Requires t with
    | (t, some dep) =>
      (st, t, some ("требуется " ++ h.mh.quote dep ++ ", но не найден в PATH"))
    | (t, none) =>
      let dst := moduleDir st mf.Name
      let p : State × Task :=
        match Get st mf.Name with
        | some old =>
          let t := t.log LvlWarn "Обновление существующего модуля"
          let st := stopProcess h st mf.Name old
          ({ st with fs := st.fs ++ [.RemoveAll dst] }, t)
        | none => (st, t)
      let t := p.2.log LvlInfo "Копирование файлов..."
      let cerr := h.copyDirErr p.1.fs src dst
      let st : State := { p.1 with fs := p.1.fs ++ [.CopyDir src dst] }
      match cerr with
      | some e => (st, t, some ("copy: " ++ e))
      | none =>
        let installSh := Join [dst, "install.sh"]
        if h.stat st.fs installSh then
          let t := t.log LvlInfo "Запуск install.sh..."
          let st : State := { st with fs := st.fs ++ [.Chmod installSh 0o755] }
          let out := h.runLog st.fs dst "bash" [installSh]
          let t := out.1.foldl (fun t s => t.log LvlInfo ("  " ++ s)) t
          let st : State := { st with procs := st.procs ++ [.Run dst "bash" [installSh]] }
          match out.2 with
          | some e => (st, t, some ("install.sh: " ++ e))
          | none =>
            finalizeRegister h st mf srcType srcURL (t.log LvlOK "install.sh выполнен")
        else finalizeRegister h st mf srcType srcURL t

/-- A host on which the entrypoint of the module `demo` exists and starts as process 7,
which exits during the delay that follows the launch. -/
def demoHost : Host where
  mh := demoManifestHost
  stat := fun _ p => p = "/data/modules/demo/run.sh"
  environ := ["PATH=/usr/bin"]
  rangeOrder := fun l => l
  openLog := fun _ _ => true
  start := fun _ => .ok 7
  exitsDuringDelay := fun _ => true
  watcherFirst := fun _ => false
  lookPath := fun _ => true
  copyDirErr := fun _ _ _ => none
  runLog := fun _ _ _ _ => ([], none)
  marshal := fun _ => "\x7b\"name\":\"demo\"\x7d"
  now := "2024-01-01 00:00:00"
  dbNow := "2024-01-01 00:00:00"

/-- The module `demo`, inactive. -/
def demoModule : Module :=
  { ID := 1
    Name := "demo"
    Version := "1.0.0"
    Status := "inactive"
    SourceType := "zip"
    Manifest := some demoManifest }

/-- The row of the module `demo`. -/
def demoRow : Row :=
  { id := 1
    name := "demo"
    version := "1.0.0"
    status := "inactive"
    source_type := "zip" }

/-- A registry holding the module `demo`, inactive. -/
def demoState : State :=
  { dataDir := "/data"
    byName := [("demo", demoModule)]
    rows := [demoRow]
    lastId := 1 }

/-! ## registry.go: listing, deletion -/

/-- Go's `<` on strings, on their characters: the first difference decides, and a proper
leading part comes first. (Go compares bytes; UTF-8 keeps the order of the characters.) -/
def lessChars : List Char → List Char → Bool
  | _, [] => false
  | [], _ :: _ => true
  | a :: s, b :: t => if a < b then true else if a = b then lessChars s t else false

/-- Go's `<` on strings. -/
def strLess (s t : String) : Bool := lessChars s.data t.data

/-- `sort.Slice(x, less)`: a sort by insertion. Go does not promise the order of elements
that compare equal; here they keep their order. -/
def sortSlice {α : Type} (less : α → α → Bool) (l : List α) : List α :=
  l.insertionSort (fun a b => less b a = false)

/-- `r.All()`: the modules of the map, sorted by name. -/
def All (st : State) : List Module :=
  sortSlice (fun a b => strLess a.Name b.Name) (st.byName.map (fun p => p.2))

/-- An entry of the navigation menu (`NavItem`). -/
structure NavItem where
  Name : String := ""
  Label : String := ""
  Icon : String := ""
  Href : String := ""
  Position : Int := 0
  deriving DecidableEq, Repr

/-- The body of the loop of `NavItems`: the entry made for a module, if any. -/
def navItemOf (m : Module) : Option NavItem :=
  match m.Manifest with
  | none => none
  | some mf =>
    if m.Status ≠ "active" ∨ mf.Menu.Hidden = true then none
    else
      let label := mf.Menu.Label
      let label := if label = "" then m.Description else label
      let label := if label = "" then m.Name else label
      let icon := mf.Menu.Icon
      let icon := if icon = "" then "package" else icon
      some { Name := m.Name, Label := label, Icon := icon, Href := "/modules/" ++ m.Name,
             Position := mf.Menu.Position }

/-- The comparison that `NavItems` sorts by. -/
def navLess (a b : NavItem) : Bool :=
  if a.Position ≠ b.Position then decide (a.Position < b.Position)
  else strLess a.Name b.Name

/-- `r.NavItems()`. The map is visited in the order of its entries, which is any order. -/
def NavItems (st : State) : List NavItem :=
  sortSlice navLess (st.byName.filterMap (fun p => navItemOf p.2))

/-- `r.Delete(name)`: the new state and the message of the error of `os.RemoveAll`, which
`rmErr` gives from the effects so far and the path. -/
def Delete (h : Host) (rmErr : List FsOp → String → Option String) (st : State)
    (name : String) : State × Option String :=
  let st := Deactivate h st name
  let st : State := { st with
    byName := mapDelete st.byName name
    rows := st.rows.filter (fun r => r.name ≠ name) }
  ({ st with fs := st.fs ++ [.RemoveAll (moduleDir st name)] },
    rmErr st.fs (moduleDir st name))

/-- The key of an entry `KEY=VALUE` of an environment: what stands before the first `=`. -/
def envKey (entry : String) : List Char := entry.data.takeWhile (fun c => c ≠ '=')

/-- The value that an environment list gives a key: that of the last entry with this key,
as `os/exec` keeps it when a key is repeated. -/
def envLookup (env : List String) (k : String) : Option String :=
  (env.reverse.find? (fun e => e.data.contains '=' && envKey e = k.data)).map
    (fun e => ⟨(e.data.dropWhile (fun c => c ≠ '=')).tail⟩)

/-- Every module of the map is stored under its own name, as `register` and `LoadFromDB`
store it. -/
def WellKeyed (l : List (String × Module)) : Prop := ∀ p ∈ l, p.2.Name = p.1

/-! ## More values to exercise the definitions -/

/-- A manifest that requires three executables. -/
def depManifest : Manifest :=
  { Name := "demo", Version := "1.0.0", Requires := ["git", "ffmpeg", "jq"] }

/-- A host on which `/src/manifest.json` holds `depManifest` and only `git` is found on
the search path. -/
def depHost : Host :=
  { demoHost with
    mh := { demoManifestHost with unmarshal := fun _ => .ok depManifest }
    lookPath := fun d => d = "git" }

/-- A registry holding the module `demo`, active. -/
def demoActive : State :=
  { dataDir := "/data"
    byName := [("demo", { demoModule with Status := "active" })]
    rows := [{ demoRow with status := "active" }]
    lastId := 1 }

/-- A host on which no entrypoint exists. -/
def missingHost : Host := { demoHost with stat := fun _ _ => false }

/-- The empty registry. -/
def emptyState : State := { dataDir := "/data" }

/-- A manifest with two environment entries, one of them with `=` in its key. -/
def envManifest : Manifest :=
  { Name := "demo", Version := "1.0.0", Entrypoint := "run.sh", Env := [("A", "1"), ("A=B", "2")] }

/-! ## manifest.go and installer.go: locating the manifest, the two install workflows -/

/-- An entry of a directory listing (`os.DirEntry`). -/
structure DirEntry where
  Name : String
  IsDir : Bool := false
  deriving DecidableEq, Repr

/-- Observations of the file system that `findManifestDir` makes. -/
structure DirHost where
  /-- Does `os.Stat` succeed on this path? -/
  stat : String → Bool
  /-- `os.ReadDir`: the entries of the directory in the order of the listing, or the
  message of the error. -/
  readDir : String → Except String (List DirEntry)

/-- The loop of `findManifestDir` over the entries of the root. -/
def findInEntries (d : DirHost) (root : String) : List DirEntry → Except String String
  | [] => .error "manifest.json not found"
  | e :: rest =>
    if e.IsDir && d.stat (Join [Join [root, e.Name], "manifest.json"]) then
      .ok (Join [root, e.Name])
    else findInEntries d root rest

/-- `findManifestDir(root)`: the directory found, or the message of the error. -/
def findManifestDir (d : DirHost) (root : String) : Except String String :=
  if d.stat (Join [root, "manifest.json"]) then .ok root
  else
    match d.readDir root with
    | .error e => .error e
    | .ok entries => findInEntries d root entries

/-- `strings.TrimSuffix`. -/
def TrimSuffix (s suffix : String) : String :=
  if suffix.data.reverse.isPrefixOf s.data.reverse then
    ⟨(s.data.reverse.drop suffix.data.length).reverse⟩
  else s

/-- `strings.TrimPrefix`. -/
def TrimPrefix (s pre : String) : String :=
  match stripLeading pre.data s.data with
  | some rest => ⟨rest⟩
  | none => s

/-- `filepath.Base`: the last element of the path, trailing separators removed first; `.`
for the empty path and `/` for a path of separators only. -/
def Base (path : String) : String :=
  if path = "" then "."
  else
    let stripped := (path.data.reverse.dropWhile (fun c => c = '/')).reverse
    let last := (stripped.reverse.takeWhile (fun c => c ≠ '/')).reverse
    if last = [] then "/" else ⟨last⟩

/-- The end of an install worker: `t.finish(err)`, then the deferred removals, which run
once `finish` has returned. -/
def finishThen (st : State) (t : Task) (err : Option String) (deferred : List FsOp) :
    State × Step Task :=
  match t.finish err with
  | .returns t => ({ st with fs := st.fs ++ deferred }, .returns t)
  | .blocks t => (st, .blocks t)

/-- The worker of `r.InstallZip(ctx, zipPath)` on the task it has made: the new state and
the task at the end of the worker. -/
def InstallZip (h : Host) (z : ZipHost) (d : DirHost) (st : State) (zipPath id : String) :
    State × Step Task :=
  let t := (newTask id).log LvlInfo "Распаковка архива..."
  let tmp := zipPath ++ "_dir"
  let deferred : List FsOp := [.RemoveAll tmp, .Remove zipPath]
  let u := unzip z zipPath tmp
  let st : State := { st with fs := st.fs ++ u.1 }
  match u.2 with
  | .error e => finishThen st t (some ("unzip: " ++ e)) deferred
  | .panic => ({ st with fs := st.fs ++ deferred }, .returns { t with panicked := true })
  | .ok =>
    let t := t.log LvlOK "Распаковано"
    match findManifestDir d tmp with
    | .error e => finishThen st t (some e) deferred
    | .ok src =>
      match finalize h st src "zip" "" t with
      | (st, t, some e) => finishThen st t (some e) deferred
      | (st, t, none) => finishThen st t none deferred

/-- The directory that `InstallGitHub` clones into; `tempDir` is `os.TempDir()`. -/
def cloneDir (tempDir repoURL : String) : String :=
  Join [tempDir, "hf_clone_" ++ Base (TrimSuffix repoURL ".git")]

/-- The worker of `r.InstallGitHub(ctx, repoURL)` on the task it has made; `tempDir` is
`os.TempDir()`. -/
def InstallGitHub (h : Host) (tempDir : String) (st : State) (repoURL id : String) :
    State × Step Task :=
  let t := (newTask id).log LvlInfo ("Клонирование: " ++ repoURL)
  let tmp := cloneDir tempDir repoURL
  let deferred : List FsOp := [.RemoveAll tmp]
  let out := h.runLog st.fs "" "git" ["clone", "--depth=1", repoURL, tmp]
  let t := out.1.foldl (fun t s => t.log LvlInfo ("  " ++ s)) t
  let st : State :=
    { st with procs := st.procs ++ [.Run "" "git" ["clone", "--depth=1", repoURL, tmp]] }
  match out.2 with
  | some e => finishThen st t (some ("git clone: " ++ e)) deferred
  | none =>
    let t := t.log LvlOK "Клонировано"
    match finalize h st tmp "github" repoURL t with
    | (st, t, some e) => finishThen st t (some e) deferred
    | (st, t, none) => finishThen st t none deferred

/-! ## main.go: the proxy to a module -/

/-- `strings.Trim(s, "/")` on the characters of a string. -/
def trimSlashes (s : List Char) : List Char :=
  ((s.dropWhile (fun c => c = '/')).reverse.dropWhile (fun c => c = '/')).reverse

/-- `pathSeg(path, idx)`. -/
def pathSeg (path : String) (idx : Nat) : String :=
  match (splitSlash (trimSlashes path.data)).get? idx with
  | some part => ⟨part⟩
  | none => ""

/-- What `moduleProxy` does with a request: it answers 503 `module unavailable`, or 502
`module has no HTTP port`, or it forwards the request to the target resolved. -/
inductive ProxyResult where
  | unavailable
  | noPort
  | target (url : String)
  deriving DecidableEq, Repr

/-- `moduleProxy(w, r)`, up to the target it resolves, for the path `r.URL.Path` and the
query `r.URL.RawQuery`. -/
def moduleProxy (st : State) (path rawQuery : String) : ProxyResult :=
  let name := pathSeg path 2
  match Get st name with
  | none => .unavailable
  | some mod =>
    if mod.Status ≠ "active" then .unavailable
    else
      match mod.Manifest with
      | none => .noPort
      | some mf =>
        if mf.Port = 0 then .noPort
        else
          let subPath := TrimPrefix path ("/module-proxy/" ++ name)
          let subPath := if subPath = "" then "/" else subPath
          let target := "http://127.0.0.1:" ++ toString mf.Port ++ subPath
          .target (if rawQuery ≠ "" then target ++ "?" ++ rawQuery else target)

/-- A file system holding an unpacked tree whose `manifest.json` is in the directory
`mod` under the root `/tmp/t`, and nowhere else. -/
def subdirHost : DirHost where
  stat := fun p => p = "/tmp/t/mod/manifest.json"
  readDir := fun p =>
    if p = "/tmp/t" then .ok [{ Name := "README.md" }, { Name := "docs", IsDir := true },
      { Name := "mod", IsDir := true }]
    else .error ("open " ++ p ++ ": no such file or directory")

/-! ## db.go and registry.go: the cold start -/

/-- `DB.SetMaxOpenConns(1)` in `db.Init`: the pool of the database has one connection. -/
def maxOpenConns : Nat := 1

/-- Can `db.DB.Exec` get a connection while `held` connections are in use? If not it
waits for one to be released. -/
def connFree (held : Nat) : Bool := held < maxOpenConns

/-- The module that `LoadFromDB` builds from a row: `rows.Scan`, then `json.Unmarshal` of
the manifest column, kept only when it succeeds. The time of installation is kept in the
form read. -/
def loadModule (h : Host) (row : Row) : Module :=
  { ID := row.id
    Name := row.name
    Version := row.version
    Description := row.description
    Author := row.author
    Status := row.status
    SourceType := row.source_type
    SourceURL := row.source_url
    Manifest :=
      match h.mh.unmarshal row.manifest with
      | .ok mf => some mf
      | .error _ => none
    ErrorLog := row.error_log
    InstalledAt := row.installed_at }

/-- The loop of `LoadFromDB` over the rows of the query, which hold `held` connections of
the pool while they are open. The exit watcher of a process started here needs a
connection too, and holds the lock of the registry while it waits for one: the watcher is
left to run after the loop, so a process that exits while the rows are open is not
followed. -/
def loadRows (h : Host) (held : Nat) : List Row → State → Step State
  | [], st => .returns st
  | row :: rest, st =>
    let m := loadModule h row
    let st : State := { st with byName := mapSet st.byName m.Name m }
    if m.Status = "active" then
      match startProcess { h with exitsDuringDelay := fun _ => false } st m.Name m with
      | (st, some err) =>
        let st : State := { st with
          byName := mapAdjust st.byName m.Name (fun x =>
            { x with Status := "error", ErrorLog := err }) }
        if connFree held then
          loadRows h held rest { st with rows := dbSetStatus st.rows m.Name "error" err }
        else .blocks st
      | (st, none) => loadRows h held rest st
    else loadRows h held rest st

/-- `r.LoadFromDB()`: the rows of `SELECT ... FROM modules ORDER BY name` are open, on the
one connection of the pool, while the loop runs. -/
def LoadFromDB (h : Host) (st : State) : Step State :=
  loadRows h 1 (sortSlice (fun a b => strLess a.name b.name) st.rows) st

/-- A database holding two modules persisted as active, `alpha` and `beta`, and an empty
registry. -/
def coldState : State :=
  { dataDir := "/data"
    rows := [{ demoRow with id := 2, name := "beta", status := "active", manifest := "demo" },
             { demoRow with id := 1, name := "alpha", status := "active", manifest := "demo" }]
    lastId := 2 }

/-! ## The handlers of the module pages (`cmd/server/main.go`) -/

/-- `strings.HasSuffix`. -/
def HasSuffix (s suf : String) : Bool := suf.data.reverse.isPrefixOf s.data.reverse

/-- `modules.GetTask(id)`; `tasks` is the map `taskMap`. -/
def GetTask (tasks : List (String × Task)) (id : String) : Option Task := mapGet tasks id

/-- The address that `moduleInstallGitHub` and `moduleInstallZip` write into the page for
the task they have started: `/modules/install/%s/stream`, printed with `task.ID`. -/
def streamURL (id : String) : String := "/modules/install/" ++ id ++ "/stream"

/-- The identifier that `moduleInstallStream` takes from the path of the request. -/
def streamTaskID (path : String) : String := pathSeg path 3

/-- `moduleInstallStream(w, r)` for the path `r.URL.Path`: `none` is the answer 404
`task not found`, otherwise the task found is streamed. -/
def moduleInstallStream (tasks : List (String × Task)) (path : String) :
    Option (Task × Sub) :=
  match GetTask tasks (streamTaskID path) with
  | none => none
  | some t => some t.Stream

/-- `moduleActivate(w, r)` for the path `r.URL.Path`: the new state, and the message of
the answer 500 when `Activate` fails. -/
def moduleActivate (h : Host) (st : State) (path : String) : State × Option String :=
  Activate h st (pathSeg path 2)

/-- `moduleDeactivate(w, r)` for the path `r.URL.Path`. -/
def moduleDeactivate (h : Host) (st : State) (path : String) : State :=
  Deactivate h st (pathSeg path 2)

/-- `moduleDelete(w, r)` for the path `r.URL.Path`; the error of `Delete` is dropped. -/
def moduleDelete (h : Host) (rmErr : List FsOp → String → Option String) (st : State)
    (path : String) : State :=
  (Delete h rmErr st (pathSeg path 2)).1

/-- The handlers that the function registered for `/modules/` chooses from. -/
inductive ModulesHandler where
  | activate
  | deactivate
  | delete
  | view
  deriving DecidableEq, Repr

/-- The `switch` of the handler registered for `/modules/` in `newRouter`, for the method
and the path of the request. -/
def modulesSwitch (method path : String) : ModulesHandler :=
  if HasSuffix path "/activate" then .activate
  else if HasSuffix path "/deactivate" then .deactivate
  else if method = "DELETE" ∨ HasSuffix path "/delete" then .delete
  else .view

/-- The handler registered for `/modules/install/` in `newRouter`: whether it calls
`moduleInstallStream`. -/
def installSwitch (path : String) : Bool := HasSuffix path "/stream"

/-! Properties: lemmas first, then the claims. -/

theorem inRanges_lowerAlnum (c : Char) : inRanges clsLowerAlnum c = true ↔ isNameStart c := by
  simp [inRanges, clsLowerAlnum, isNameStart]

theorem inRanges_nameChar (c : Char) : inRanges clsNameChar c = true ↔ isNameCont c := by
  simp only [inRanges, clsNameChar, isNameCont, List.any_cons, List.any_nil, Bool.or_false,
    Bool.or_eq_true, Bool.and_eq_true, decide_eq_true_eq]
  constructor
  · rintro (h | h | h | h)
    · exact Or.inl h
    · exact Or.inr (Or.inl h)
    · exact Or.inr (Or.inr (Or.inl (le_antisymm h.2 h.1)))
    · exact Or.inr (Or.inr (Or.inr (le_antisymm h.2 h.1)))
  · rintro (h | h | h | h)
    · exact Or.inl h
    · exact Or.inr (Or.inl h)
    · exact Or.inr (Or.inr (Or.inl ⟨h ▸ le_refl _, h ▸ le_refl _⟩))
    · exact Or.inr (Or.inr (Or.inr ⟨h ▸ le_refl _, h ▸ le_refl _⟩))

/-- A bounded repetition of a class reaches the end of the text exactly when the text
left has a length within the bounds and all of it is in the class. -/
theorem repRests_cls_end (rs : List (Char × Char)) (max : Nat) :
    ∀ (min n : Nat) (l : List Char),
      (∃ q, (q, []) ∈ repRests (fun p => (Regexp.cls rs).rests p) min max (n, l)) ↔
        (min ≤ l.length ∧ l.length ≤ max ∧ ∀ c ∈ l, inRanges rs c = true) := by
  induction max with
  | zero =>
    intro min n l
    cases l with
    | nil => by_cases hm : min = 0 <;> simp [repRests, hm]
    | cons c t => by_cases hm : min = 0 <;> simp [repRests, hm]
  | succ max ih =>
    intro min n l
    cases l with
    | nil =>
      by_cases hm : min = 0
      · simp [repRests, hm, Regexp.rests]
      · simp [repRests, hm, Regexp.rests]
    | cons c t =>
      have hhead : ∀ q : Nat, ¬ ((q, ([] : List Char)) ∈
          (if min = 0 then [((n, c :: t) : Pos)] else [])) := by
        intro q; by_cases hm : min = 0 <;> simp [hm]
      by_cases hc : inRanges rs c = true
      · have := ih (min - 1) (n + 1) t
        simp only [repRests, Regexp.rests, hc, if_true, List.mem_append, List.flatMap_cons,
          List.flatMap_nil, List.append_nil, hhead, false_or]
        rw [this]
        simp only [List.length_cons, List.mem_cons, forall_eq_or_imp, hc, true_and]
        constructor
        · rintro ⟨h1, h2, h3⟩; exact ⟨by omega, by omega, h3⟩
        · rintro ⟨h1, h2, h3⟩; exact ⟨by omega, by omega, h3⟩
      · simp only [repRests, Regexp.rests, hc, List.mem_append, List.flatMap_nil,
          hhead, false_or, List.not_mem_nil, exists_false, false_iff]
        simp [hc]

/-- Where a match of `nameRe` can start, and on what text. -/
theorem nameRe_rests_ne_nil (k : Nat) (l : List Char) :
    nameRe.rests (k, l) ≠ [] ↔
      (k = 0 ∧ ∃ c t, l = c :: t ∧ inRanges clsLowerAlnum c = true ∧
        1 ≤ t.length ∧ t.length ≤ 63 ∧ ∀ d ∈ t, inRanges clsNameChar d = true) := by
  by_cases hk : k = 0
  · subst hk
    cases l with
    | nil => simp [nameRe, Regexp.rests]
    | cons c t =>
      by_cases hc : inRanges clsLowerAlnum c = true
      · have h := repRests_cls_end clsNameChar 63 1 1 t
        have hne : (List.flatMap (repRests (fun q => (Regexp.cls clsNameChar).rests q) 1 63 (1, t))
            (fun q => if q.2 = [] then [q] else [])) ≠ [] ↔
            ∃ q, (q, []) ∈ repRests (fun p => (Regexp.cls clsNameChar).rests p) 1 63 (1, t) := by
          constructor
          · intro hne
            obtain ⟨x, hx⟩ := List.exists_mem_of_ne_nil _ hne
            obtain ⟨⟨a, b⟩, hmem, hx⟩ := List.mem_flatMap.1 hx
            by_cases hb : b = []
            · subst hb; exact ⟨a, hmem⟩
            · simp [hb] at hx
          · rintro ⟨q, hq⟩
            have hmem : ((q, []) : Pos) ∈ List.flatMap
                (repRests (fun q => (Regexp.cls clsNameChar).rests q) 1 63 (1, t))
                (fun q => if q.2 = [] then [q] else []) :=
              List.mem_flatMap.2 ⟨(q, []), hq, by simp⟩
            exact List.ne_nil_of_mem hmem
        simp only [nameRe, Regexp.rests, if_true, List.flatMap_cons, List.flatMap_nil,
          List.append_nil, hc, zero_add, true_and]
        rw [hne, h]
        constructor
        · rintro ⟨h1, h2, h3⟩; exact ⟨c, t, rfl, hc, h1, h2, h3⟩
        · rintro ⟨c1, t1, heq, -, h1, h2, h3⟩
          obtain ⟨-, rfl⟩ := List.cons.inj heq
          exact ⟨h1, h2, h3⟩
      · simp [nameRe, Regexp.rests, hc]
  · simp [nameRe, Regexp.rests, hk]

/-- The matcher run on `nameRe` agrees with the grammar as the specification words it. -/
theorem nameRe_MatchString_iff (s : String) : nameRe.MatchString s = true ↔ validName s := by
  unfold Regexp.MatchString validName
  simp only [List.any_eq_true, List.mem_range, Bool.not_eq_true', List.isEmpty_eq_false]
  constructor
  · rintro ⟨k, -, hk⟩
    obtain ⟨rfl, c, t, hl, hc, h1, h2, h3⟩ := (nameRe_rests_ne_nil k _).1 hk
    simp only [List.drop_zero] at hl
    have hlen : s.length = t.length + 1 := by
      show s.data.length = _
      rw [hl]; rfl
    refine ⟨by omega, by omega, c, t, hl, (inRanges_lowerAlnum c).1 hc, ?_⟩
    intro d hd
    exact (inRanges_nameChar d).1 (h3 d hd)
  · rintro ⟨h1, h2, c, t, hl, hc, h3⟩
    have hlen : s.length = t.length + 1 := by
      show s.data.length = _
      rw [hl]; rfl
    refine ⟨0, by omega, (nameRe_rests_ne_nil 0 _).2 ⟨rfl, c, t, by simpa using hl,
      (inRanges_lowerAlnum c).2 hc, by omega, by omega, ?_⟩⟩
    intro d hd
    exact (inRanges_nameChar d).2 (h3 d hd)

/-! ## Paths: splitting and joining -/

theorem splitSlash_ne_nil (l : List Char) : splitSlash l ≠ [] := by
  cases l with
  | nil => simp [splitSlash]
  | cons c t =>
    unfold splitSlash
    by_cases hc : c = '/'
    · simp [hc]
    · simp only [hc, if_false]
      cases splitSlash t <;> simp

theorem splitSlash_append (a b : List Char) :
    splitSlash (a ++ '/' :: b) = splitSlash a ++ splitSlash b := by
  induction a with
  | nil => simp [splitSlash]
  | cons c t ih =>
    by_cases hc : c = '/'
    · simp [splitSlash, hc, ih]
    · simp only [List.cons_append, splitSlash, hc, if_false, List.append_eq]
      rw [ih]
      cases hs : splitSlash t with
      | nil => exact absurd hs (splitSlash_ne_nil t)
      | cons h r => simp

theorem splitSlash_of_slashFree (e : List Char) (h : '/' ∉ e) : splitSlash e = [e] := by
  induction e with
  | nil => simp [splitSlash]
  | cons c t ih =>
    have hc : c ≠ '/' := fun hc => h (hc ▸ List.mem_cons_self _ _)
    have ht : '/' ∉ t := fun ht => h (List.mem_cons_of_mem _ ht)
    simp [splitSlash, hc, ih ht]

theorem splitSlash_slashFree (l : List Char) : ∀ e ∈ splitSlash l, '/' ∉ e := by
  induction l with
  | nil => simp [splitSlash]
  | cons c t ih =>
    by_cases hc : c = '/'
    · simp only [splitSlash, hc, if_true, List.mem_cons]
      rintro e (rfl | he)
      · simp
      · exact ih e he
    · simp only [splitSlash, hc, if_false]
      cases hs : splitSlash t with
      | nil => exact absurd hs (splitSlash_ne_nil t)
      | cons h r =>
        rw [hs] at ih
        rintro e he
        rcases List.mem_cons.1 he with rfl | he
        · intro hmem
          rcases List.mem_cons.1 hmem with h1 | h1
          · exact hc h1.symm
          · exact ih h (List.mem_cons_self _ _) h1
        · exact ih e (List.mem_cons_of_mem _ he)

theorem splitSlash_joinSlash (es : List (List Char)) (hne : es ≠ [])
    (hfree : ∀ e ∈ es, '/' ∉ e) : splitSlash (joinSlash es) = es := by
  induction es with
  | nil => exact absurd rfl hne
  | cons e r ih =>
    cases r with
    | nil => simpa [joinSlash] using splitSlash_of_slashFree e (hfree e (List.mem_cons_self _ _))
    | cons d r =>
      have h1 := splitSlash_of_slashFree e (hfree e (List.mem_cons_self _ _))
      have h2 := ih (by simp) (fun x hx => hfree x (List.mem_cons_of_mem _ hx))
      simp only [joinSlash, splitSlash_append, h1, h2, List.singleton_append]

theorem joinSlash_append (xs ys : List (List Char)) (hx : xs ≠ []) (hy : ys ≠ []) :
    joinSlash (xs ++ ys) = joinSlash xs ++ '/' :: joinSlash ys := by
  induction xs with
  | nil => exact absurd rfl hx
  | cons e r ih =>
    cases r with
    | nil =>
      cases ys with
      | nil => exact absurd rfl hy
      | cons y ys => simp [joinSlash]
    | cons d r =>
      have := ih (by simp)
      simp only [List.cons_append] at this
      simp only [List.cons_append, joinSlash, List.append_assoc, List.append_eq, this]

theorem joinSlash_ne_nil (es : List (List Char)) (hne : es ≠ []) (h : ∀ e ∈ es, e ≠ []) :
    joinSlash es ≠ [] := by
  cases es with
  | nil => exact absurd rfl hne
  | cons e r =>
    cases r with
    | nil => simpa [joinSlash] using h e (List.mem_cons_self _ _)
    | cons d r => simp [joinSlash]

theorem stripLeading_append (pre r : List Char) : stripLeading pre (pre ++ r) = some r := by
  induction pre with
  | nil => simp [stripLeading]
  | cons a pre ih => simp [stripLeading, ih]

theorem isNormalElem_iff (e : List Char) :
    isNormalElem e = true ↔ (e ≠ [] ∧ e ≠ ['.'] ∧ e ≠ dotdot ∧ '/' ∉ e) := by
  simp [isNormalElem, and_assoc]


/-! ## Paths: the shape of a cleaned path -/

theorem cleanStep_inv (rooted : Bool) (st : Nat × List (List Char)) (e : List Char)
    (hst : ∀ x ∈ st.2, isNormalElem x = true) (hk : rooted = true → st.1 = 0)
    (he : '/' ∉ e) :
    (∀ x ∈ (cleanStep rooted st e).2, isNormalElem x = true) ∧
      (rooted = true → (cleanStep rooted st e).1 = 0) := by
  unfold cleanStep
  by_cases h1 : e = [] ∨ e = ['.']
  · simp only [h1, if_true]; exact ⟨hst, hk⟩
  · simp only [h1, if_false]
    by_cases h2 : e = dotdot
    · simp only [h2, if_true]
      obtain ⟨k, stack⟩ := st
      cases stack with
      | nil =>
        cases rooted with
        | true => exact ⟨hst, hk⟩
        | false => simp
      | cons top rest =>
        exact ⟨fun x hx => hst x (List.mem_cons_of_mem _ hx), hk⟩
    · simp only [h2, if_false]
      refine ⟨?_, hk⟩
      intro x hx
      rcases List.mem_cons.1 hx with rfl | hx
      · rw [isNormalElem_iff]
        exact ⟨fun h => h1 (Or.inl h), fun h => h1 (Or.inr h), h2, he⟩
      · exact hst x hx

theorem foldl_cleanStep_inv (rooted : Bool) (elems : List (List Char)) :
    ∀ (st : Nat × List (List Char)), (∀ x ∈ st.2, isNormalElem x = true) →
      (rooted = true → st.1 = 0) → (∀ e ∈ elems, '/' ∉ e) →
      (∀ x ∈ (elems.foldl (cleanStep rooted) st).2, isNormalElem x = true) ∧
        (rooted = true → (elems.foldl (cleanStep rooted) st).1 = 0) := by
  induction elems with
  | nil => intro st hst hk _; exact ⟨hst, hk⟩
  | cons e r ih =>
    intro st hst hk he
    have h := cleanStep_inv rooted st e hst hk (he e (List.mem_cons_self _ _))
    exact ih _ h.1 h.2 (fun x hx => he x (List.mem_cons_of_mem _ hx))

/-- The elements of a cleaned path: some `..` (none when the path is rooted), then
ordinary elements only. -/
theorem cleanElems_form (rooted : Bool) (elems : List (List Char))
    (h : ∀ e ∈ elems, '/' ∉ e) :
    ∃ k ns, cleanElems rooted elems = List.replicate k dotdot ++ ns ∧
      (∀ x ∈ ns, isNormalElem x = true) ∧ (rooted = true → k = 0) := by
  have hinv := foldl_cleanStep_inv rooted elems (0, []) (by simp) (fun _ => rfl) h
  refine ⟨_, _, rfl, ?_, hinv.2⟩
  intro x hx
  exact hinv.1 x (List.mem_reverse.1 hx)

theorem chain_of_normal (a : List Char) (ns : List (List Char))
    (h : ∀ x ∈ ns, isNormalElem x = true) : List.Chain elemRel a ns := by
  induction ns generalizing a with
  | nil => exact List.Chain.nil
  | cons n r ih =>
    exact List.Chain.cons (Or.inl (h n (List.mem_cons_self _ _)))
      (ih n (fun x hx => h x (List.mem_cons_of_mem _ hx)))

theorem chain_replicate_append (k : Nat) (ns : List (List Char))
    (h : ∀ x ∈ ns, isNormalElem x = true) :
    List.Chain' elemRel (List.replicate k dotdot ++ ns) := by
  induction k with
  | zero =>
    cases ns with
    | nil => exact List.chain'_nil
    | cons n r => exact chain_of_normal n r (fun x hx => h x (List.mem_cons_of_mem _ hx))
  | succ k ih =>
    rw [List.replicate_succ, List.cons_append]
    cases k with
    | zero => exact chain_of_normal dotdot ns h
    | succ k =>
      rw [List.replicate_succ, List.cons_append] at ih ⊢
      exact List.Chain'.cons (Or.inr ⟨rfl, rfl⟩) ih

theorem normal_slashFree (x : List Char) (h : isNormalElem x = true) : '/' ∉ x :=
  ((isNormalElem_iff x).1 h).2.2.2

theorem normal_ne_nil (x : List Char) (h : isNormalElem x = true) : x ≠ [] :=
  ((isNormalElem_iff x).1 h).1

/-- The shape of a cleaned path, read off its elements. -/
theorem splitSlash_cleanChars (path : List Char) :
    splitSlash (cleanChars path) = [[], []] ∨
      List.Chain' elemRel (splitSlash (cleanChars path)) := by
  cases path with
  | nil => right; simp [cleanChars, splitSlash]
  | cons c t =>
    obtain ⟨k, ns, hform, hns, hk⟩ :=
      cleanElems_form (decide (c = '/')) (splitSlash (c :: t)) (splitSlash_slashFree _)
    have hfree : ∀ e ∈ List.replicate k dotdot ++ ns, '/' ∉ e := by
      intro e he
      rcases List.mem_append.1 he with he | he
      · rw [List.eq_of_mem_replicate he]; decide
      · exact normal_slashFree e (hns e he)
    by_cases hc : c = '/'
    · have hk0 : k = 0 := hk (by simp [hc])
      subst hk0
      simp only [List.replicate_zero, List.nil_append] at hform hfree
      simp only [cleanChars, hc, decide_True, if_true]
      simp only [hc, decide_True] at hform
      rw [hform]
      cases ns with
      | nil => left; simp [joinSlash, splitSlash]
      | cons n r =>
        right
        have : splitSlash ('/' :: joinSlash (n :: r)) = [] :: (n :: r) := by
          have := splitSlash_append [] (joinSlash (n :: r))
          simp only [List.nil_append] at this
          rw [this, splitSlash_joinSlash _ (by simp) hfree]
          simp [splitSlash]
        rw [this]
        exact chain_of_normal [] (n :: r) hns
    · right
      simp only [cleanChars, hc, decide_False, if_false]
      simp only [hc, decide_False] at hform
      rw [hform]
      by_cases hnil : List.replicate k dotdot ++ ns = []
      · simp [hnil, splitSlash]
      · simp only [hnil, if_false, Bool.false_eq_true]
        rw [splitSlash_joinSlash _ hnil hfree]
        exact chain_replicate_append k ns hns

theorem cleanChars_ne_nil (path : List Char) : cleanChars path ≠ [] := by
  cases path with
  | nil => simp [cleanChars]
  | cons c t =>
    obtain ⟨k, ns, hform, hns, -⟩ :=
      cleanElems_form (decide (c = '/')) (splitSlash (c :: t)) (splitSlash_slashFree _)
    by_cases hc : c = '/'
    · simp [cleanChars, hc]
    · simp only [cleanChars, hc, decide_False, if_false, Bool.false_eq_true]
      simp only [hc, decide_False] at hform
      rw [hform]
      by_cases hnil : List.replicate k dotdot ++ ns = []
      · simp [hnil]
      · simp only [hnil, if_false]
        apply joinSlash_ne_nil _ hnil
        intro e he
        rcases List.mem_append.1 he with he | he
        · rw [List.eq_of_mem_replicate he]; decide
        · exact normal_ne_nil e (hns e he)


/-! ## Paths: what the guard of `unzip` ensures -/

theorem splitSlash_eq_singleton_nil (l : List Char) (h : splitSlash l = [[]]) : l = [] := by
  cases l with
  | nil => rfl
  | cons c t =>
    exfalso
    by_cases hc : c = '/'
    · simp only [splitSlash, hc, if_true, List.cons.injEq, true_and] at h
      exact splitSlash_ne_nil t h
    · simp only [splitSlash, hc, if_false] at h
      cases hs : splitSlash t with
      | nil => exact splitSlash_ne_nil t hs
      | cons x r => rw [hs] at h; simp at h

theorem chain_append_normal (rs : List (List Char)) :
    ∀ (xs : List (List Char)) (a : List Char), List.Chain' elemRel (xs ++ rs) →
      xs.getLast? = some a → a ≠ dotdot → ∀ e ∈ rs, isNormalElem e = true := by
  induction rs with
  | nil => intro _ _ _ _ _ e he; simp at he
  | cons r rs ih =>
    intro xs a hchain hlast ha e he
    have hrel : elemRel a r := by
      have := (List.chain'_append.1 hchain).2.2 a (by simp [hlast]) r (by simp)
      exact this
    have hr : isNormalElem r = true := by
      rcases hrel with h | ⟨h, -⟩
      · exact h
      · exact absurd h ha
    rcases List.mem_cons.1 he with rfl | he
    · exact hr
    · have hchain2 : List.Chain' elemRel ((xs ++ [r]) ++ rs) := by simpa using hchain
      exact ih (xs ++ [r]) r hchain2 (by simp) ((isNormalElem_iff r).1 hr).2.2.1 e he

/-- What a cleaned path that begins with the cleaned destination `D` and a separator looks
like, when `D` does not end in `..`: `D`, the separator, and ordinary elements. -/
theorem prefix_decomp (dpath ppath : List Char)
    (hlast : ((splitSlash (cleanChars dpath)).getLast?).getD [] ≠ dotdot)
    (hpre : (cleanChars dpath ++ ['/']) <+: cleanChars ppath) :
    ∃ r, cleanChars ppath = cleanChars dpath ++ '/' :: r ∧ r ≠ [] ∧
      (∀ e ∈ splitSlash r, isNormalElem e = true) ∧ cleanChars dpath ≠ ['/'] := by
  obtain ⟨r, hr⟩ := hpre
  have hP : cleanChars ppath = cleanChars dpath ++ '/' :: r := by
    rw [← hr]; simp
  have hsplit : splitSlash (cleanChars ppath) =
      splitSlash (cleanChars dpath) ++ splitSlash r := by
    rw [hP, splitSlash_append]
  obtain ⟨a, ha⟩ : ∃ a, (splitSlash (cleanChars dpath)).getLast? = some a :=
    ⟨_, List.getLast?_eq_getLast _ (splitSlash_ne_nil _)⟩
  have ha' : a ≠ dotdot := by
    rw [ha] at hlast; simpa using hlast
  rcases splitSlash_cleanChars ppath with h | h
  · exfalso
    rw [hsplit] at h
    have h1 : (splitSlash (cleanChars dpath)).length = 1 := by
      have hlen := congrArg List.length h
      have hd := List.length_pos.2 (splitSlash_ne_nil (cleanChars dpath))
      have hrr := List.length_pos.2 (splitSlash_ne_nil r)
      simp only [List.length_append, List.length_cons, List.length_nil] at hlen
      omega
    obtain ⟨x, hx⟩ := List.length_eq_one.1 h1
    rw [hx] at h
    simp only [List.singleton_append, List.cons.injEq] at h
    rw [h.1] at hx
    exact cleanChars_ne_nil dpath (splitSlash_eq_singleton_nil _ hx)
  · rw [hsplit] at h
    have hall := chain_append_normal (splitSlash r) _ a h ha ha'
    have hrne : r ≠ [] := by
      rintro rfl
      have := hall [] (by simp [splitSlash])
      simp [isNormalElem] at this
    have hroot : cleanChars dpath ≠ ['/'] := by
      intro hroot
      rw [hroot] at h
      have h2 : splitSlash ['/'] = [[], []] := by simp [splitSlash]
      rw [h2] at h
      have hrel : elemRel [] [] := by
        have := List.chain'_append.1 h
        have h3 := this.1
        simp only [List.chain'_cons, List.chain'_singleton, and_true] at h3
        exact h3
      rcases hrel with h4 | ⟨h4, -⟩
      · simp [isNormalElem] at h4
      · exact absurd h4 (by decide)
    exact ⟨r, hP, hrne, hall, hroot⟩

theorem strictlyInside_of_decomp (d r : List Char) (hroot : d ≠ ['/']) (hrne : r ≠ [])
    (hall : ∀ e ∈ splitSlash r, isNormalElem e = true) :
    strictlyInside ⟨d⟩ ⟨d ++ '/' :: r⟩ = true := by
  unfold strictlyInside
  simp only [hroot, if_false]
  have : d ++ '/' :: r = (d ++ ['/']) ++ r := by simp
  rw [this, stripLeading_append]
  simp only [Bool.and_eq_true, decide_eq_true_eq, List.all_eq_true]
  exact ⟨hrne, hall⟩

/-- The guard of `unzip` on cleaned paths: when the cleaned destination `D` does not end
in `..`, a cleaned path that begins with `D` and a separator is a proper descendant of
`D`. -/
theorem inside_of_prefix (dpath ppath : List Char)
    (hlast : ((splitSlash (cleanChars dpath)).getLast?).getD [] ≠ dotdot)
    (hpre : (cleanChars dpath ++ ['/']) <+: cleanChars ppath) :
    strictlyInside ⟨cleanChars dpath⟩ ⟨cleanChars ppath⟩ = true := by
  obtain ⟨r, hP, hrne, hall, hroot⟩ := prefix_decomp dpath ppath hlast hpre
  rw [hP]
  exact strictlyInside_of_decomp _ r hroot hrne hall

theorem Clean_data (p : String) : (Clean p).data = cleanChars p.data := rfl

theorem Clean_ne_empty (p : String) : Clean p ≠ "" := by
  intro h
  have := congrArg String.data h
  exact cleanChars_ne_nil p.data this

theorem Join_two_data (dst n : String) (hn : n ≠ "") :
    ∃ q, (Join [dst, n]).data = cleanChars q := by
  unfold Join
  by_cases hd : dst = ""
  · simp only [hd, List.dropWhile_cons, decide_True, if_true, hn, decide_False, if_false,
      List.dropWhile_nil]
    exact ⟨_, rfl⟩
  · simp only [List.dropWhile_cons, hd, decide_False, if_false]
    exact ⟨_, rfl⟩

/-- The guard of `unzip` does its work: when the cleaned destination does not end in `..`,
an entry that passes the guard resolves to a proper descendant of the destination. -/
theorem unzipGuard_inside (dst : String) (f : ZipFile)
    (hlast : lastElem (Clean dst) ≠ dotdot) (hg : unzipGuard dst f = true) :
    strictlyInside (Clean dst) (unzipPath dst f) = true := by
  obtain ⟨q, hq⟩ := Join_two_data dst (Clean f.Name) (Clean_ne_empty _)
  have hpre : (cleanChars dst.data ++ ['/']) <+: cleanChars q := by
    unfold unzipGuard HasPrefix at hg
    rw [List.isPrefixOf_iff_prefix] at hg
    unfold unzipPath at hg
    rw [hq] at hg
    simpa [Clean_data] using hg
  have := inside_of_prefix dst.data q hlast hpre
  have e1 : Clean dst = ⟨cleanChars dst.data⟩ := rfl
  have e2 : unzipPath dst f = ⟨cleanChars q⟩ := by
    unfold unzipPath
    rw [← hq]
  rw [e1, e2]
  exact this


/-! ## Paths: the parent directory of a resolved entry -/

/-- The three shapes of a cleaned path. -/
theorem cleanChars_cases (path : List Char) :
    (∃ ns, (∀ x ∈ ns, isNormalElem x = true) ∧ cleanChars path = '/' :: joinSlash ns) ∨
    cleanChars path = ['.'] ∨
    (∃ k ns, (∀ x ∈ ns, isNormalElem x = true) ∧ List.replicate k dotdot ++ ns ≠ [] ∧
      cleanChars path = joinSlash (List.replicate k dotdot ++ ns)) := by
  cases path with
  | nil => right; left; rfl
  | cons c t =>
    obtain ⟨k, ns, hform, hns, hk⟩ :=
      cleanElems_form (decide (c = '/')) (splitSlash (c :: t)) (splitSlash_slashFree _)
    by_cases hc : c = '/'
    · left
      have hk0 : k = 0 := hk (by simp [hc])
      subst hk0
      refine ⟨ns, hns, ?_⟩
      simp only [hc, decide_True] at hform
      simp only [cleanChars, hc, decide_True, if_true, hform, List.replicate_zero,
        List.nil_append]
    · right
      simp only [hc, decide_False] at hform
      by_cases hnil : List.replicate k dotdot ++ ns = []
      · left
        simp only [cleanChars, hc, decide_False, hform, hnil, if_true, if_false,
          Bool.false_eq_true]
      · right
        refine ⟨k, ns, hns, hnil, ?_⟩
        simp only [cleanChars, hc, decide_False, hform, hnil, if_false, Bool.false_eq_true]

theorem replicate_append_slashFree (k : Nat) (ns : List (List Char))
    (hns : ∀ x ∈ ns, isNormalElem x = true) :
    ∀ e ∈ List.replicate k dotdot ++ ns, '/' ∉ e := by
  intro e he
  rcases List.mem_append.1 he with he | he
  · rw [List.eq_of_mem_replicate he]; decide
  · exact normal_slashFree e (hns e he)

theorem joinSlash_splitSlash (l : List Char) : joinSlash (splitSlash l) = l := by
  induction l with
  | nil => rfl
  | cons c t ih =>
    by_cases hc : c = '/'
    · simp only [splitSlash, hc, if_true]
      cases hs : splitSlash t with
      | nil => exact absurd hs (splitSlash_ne_nil t)
      | cons x r => rw [hs] at ih; simp [joinSlash, ih]
    · simp only [splitSlash, hc, if_false]
      cases hs : splitSlash t with
      | nil => exact absurd hs (splitSlash_ne_nil t)
      | cons x r =>
        rw [hs] at ih
        cases r with
        | nil => simp only [joinSlash] at ih ⊢; rw [ih]
        | cons y r => simp only [joinSlash, List.cons_append] at ih ⊢; rw [ih]

theorem dropWhile_to_slash (x y : List Char) (h : '/' ∉ x) :
    (x ++ '/' :: y).dropWhile (fun c => c ≠ '/') = '/' :: y := by
  induction x with
  | nil => simp [List.dropWhile]
  | cons a x ih =>
    have ha : a ≠ '/' := fun ha => h (ha ▸ List.mem_cons_self _ _)
    have hx : '/' ∉ x := fun hx => h (List.mem_cons_of_mem _ hx)
    have := ih hx
    simp only [List.cons_append, List.dropWhile, ha, ne_eq, not_false_eq_true, decide_True]
    exact this

theorem dirChars_append (a b : List Char) (h : '/' ∉ b) :
    dirChars (a ++ '/' :: b) = a ++ ['/'] := by
  unfold dirChars
  have : (a ++ '/' :: b).reverse = b.reverse ++ '/' :: a.reverse := by simp
  rw [this, dropWhile_to_slash _ _ (by simpa using h)]
  simp

theorem cleanStep_nil (rooted : Bool) (st : Nat × List (List Char)) :
    cleanStep rooted st [] = st := by
  simp [cleanStep]

theorem cleanStep_normal (rooted : Bool) (st : Nat × List (List Char)) (e : List Char)
    (he : isNormalElem e = true) : cleanStep rooted st e = (st.1, e :: st.2) := by
  obtain ⟨h1, h2, h3, -⟩ := (isNormalElem_iff e).1 he
  simp [cleanStep, h1, h2, h3]

theorem foldl_cleanStep_normals (rooted : Bool) (ns : List (List Char)) :
    ∀ (st : Nat × List (List Char)), (∀ x ∈ ns, isNormalElem x = true) →
      ns.foldl (cleanStep rooted) st = (st.1, ns.reverse ++ st.2) := by
  induction ns with
  | nil => intro st _; rfl
  | cons n r ih =>
    intro st h
    rw [List.foldl_cons, cleanStep_normal rooted st n (h n (List.mem_cons_self _ _)),
      ih _ (fun x hx => h x (List.mem_cons_of_mem _ hx))]
    simp

theorem foldl_cleanStep_dotdots (k : Nat) : ∀ j : Nat,
    (List.replicate k dotdot).foldl (cleanStep false) (j, []) = (j + k, []) := by
  induction k with
  | zero => intro j; rfl
  | succ k ih =>
    intro j
    rw [List.replicate_succ, List.foldl_cons]
    have : cleanStep false (j, []) dotdot = (j + 1, []) := by
      simp [cleanStep, dotdot]
    rw [this, ih]
    congr 1
    omega

theorem cleanChars_cons (c : Char) (t : List Char) :
    cleanChars (c :: t) =
      if c = '/' then '/' :: joinSlash (cleanElems true (splitSlash (c :: t)))
      else if cleanElems false (splitSlash (c :: t)) = [] then ['.']
      else joinSlash (cleanElems false (splitSlash (c :: t))) := by
  by_cases hc : c = '/' <;> simp [cleanChars, hc]

/-- Cleaning a cleaned path `D` (neither `/` nor `.`) that is followed by ordinary
elements and a trailing separator gives `D` followed by those elements. -/
theorem cleanChars_extend (dpath : List Char) (init : List (List Char))
    (hinit : ∀ x ∈ init, isNormalElem x = true)
    (hroot : cleanChars dpath ≠ ['/']) (hdot : cleanChars dpath ≠ ['.'])
    (tail : List Char)
    (hsplit : splitSlash (cleanChars dpath ++ tail) =
      splitSlash (cleanChars dpath) ++ init ++ [[]]) :
    cleanChars (cleanChars dpath ++ tail) =
      if init = [] then cleanChars dpath else cleanChars dpath ++ '/' :: joinSlash init := by
  rcases cleanChars_cases dpath with ⟨ns, hns, hD⟩ | hD | ⟨k, ns, hns, hne, hD⟩
  · -- rooted
    have hnsne : ns ≠ [] := by
      rintro rfl
      exact hroot (by simpa [joinSlash] using hD)
    have hfree : ∀ e ∈ ns, '/' ∉ e := fun e he => normal_slashFree e (hns e he)
    have hsD : splitSlash (cleanChars dpath) = [] :: ns := by
      rw [hD]
      have := splitSlash_append [] (joinSlash ns)
      simp only [List.nil_append] at this
      rw [this, splitSlash_joinSlash _ hnsne hfree]
      simp [splitSlash]
    rw [hsD] at hsplit
    rw [hD] at hsplit ⊢
    rw [List.cons_append, cleanChars_cons]
    rw [List.cons_append] at hsplit
    simp only [if_true, hsplit]
    have hel : cleanElems true ([] :: ns ++ init ++ [[]]) = ns ++ init := by
      unfold cleanElems
      have hall : ∀ x ∈ ns ++ init, isNormalElem x = true := by
        intro x hx
        rcases List.mem_append.1 hx with hx | hx
        · exact hns x hx
        · exact hinit x hx
      have e1 : ([] :: ns ++ init ++ [[]] : List (List Char)) = [] :: ((ns ++ init) ++ [[]]) := by
        simp
      rw [e1, List.foldl_cons, cleanStep_nil, List.foldl_append,
        foldl_cleanStep_normals true (ns ++ init) _ hall]
      simp [cleanStep_nil]
    rw [hel]
    by_cases hi : init = []
    · simp [hi]
    · simp only [hi, if_false]
      rw [joinSlash_append ns init hnsne hi]
      simp
  · exact absurd hD hdot
  · -- not rooted
    have hfree := replicate_append_slashFree k ns hns
    have hsD : splitSlash (cleanChars dpath) = List.replicate k dotdot ++ ns := by
      rw [hD, splitSlash_joinSlash _ hne hfree]
    rw [hsD] at hsplit
    obtain ⟨c, t, hct⟩ : ∃ c t, cleanChars dpath = c :: t := by
      cases h : cleanChars dpath with
      | nil => exact absurd h (cleanChars_ne_nil dpath)
      | cons c t => exact ⟨c, t, rfl⟩
    have hc : c ≠ '/' := by
      intro hc
      have h1 : splitSlash (cleanChars dpath) = [] :: splitSlash t := by
        rw [hct, hc]; simp [splitSlash]
      rw [hsD] at h1
      have hmem : ([] : List Char) ∈ List.replicate k dotdot ++ ns := by
        rw [h1]; exact List.mem_cons_self _ _
      rcases List.mem_append.1 hmem with h2 | h2
      · exact absurd (List.eq_of_mem_replicate h2) (by decide)
      · exact normal_ne_nil _ (hns _ h2) rfl
    have hel : cleanElems false (List.replicate k dotdot ++ ns ++ init ++ [[]]) =
        (List.replicate k dotdot ++ ns) ++ init := by
      unfold cleanElems
      rw [List.foldl_append, List.foldl_append, List.foldl_append, foldl_cleanStep_dotdots,
        foldl_cleanStep_normals false ns _ hns, foldl_cleanStep_normals false init _ hinit]
      simp [cleanStep_nil]
    rw [hct] at hsplit ⊢
    rw [List.cons_append, cleanChars_cons]
    rw [List.cons_append] at hsplit
    simp only [hc, if_false, hsplit, hel]
    have hne2 : (List.replicate k dotdot ++ ns) ++ init ≠ [] := by
      intro h
      exact hne (List.append_eq_nil.1 h).1
    simp only [hne2, if_false]
    rw [← hct, hD]
    by_cases hi : init = []
    · simp [hi]
    · simp only [hi, if_false]
      rw [joinSlash_append _ init hne hi]

theorem prefix_not_dot (dpath ppath r : List Char)
    (hP : cleanChars ppath = cleanChars dpath ++ '/' :: r) : cleanChars dpath ≠ ['.'] := by
  intro hD
  rw [hD] at hP
  rcases cleanChars_cases ppath with ⟨ns, -, h⟩ | h | ⟨k, ns, hns, hne, h⟩
  · rw [h] at hP; simp at hP
  · rw [h] at hP; simp at hP
  · have hs : splitSlash (cleanChars ppath) = List.replicate k dotdot ++ ns := by
      rw [h, splitSlash_joinSlash _ hne (replicate_append_slashFree k ns hns)]
    have hs2 : splitSlash (cleanChars ppath) = ['.'] :: splitSlash r := by
      rw [hP]
      rw [splitSlash_append]
      simp [splitSlash]
    rw [hs] at hs2
    have hmem : ['.'] ∈ List.replicate k dotdot ++ ns := by
      rw [hs2]; exact List.mem_cons_self _ _
    rcases List.mem_append.1 hmem with h2 | h2
    · exact absurd (List.eq_of_mem_replicate h2) (by decide)
    · have := hns _ h2
      simp [isNormalElem] at this

/-- The parent directory of a path that passes the guard of `unzip` is the cleaned
destination or a proper descendant of it. -/
theorem dir_of_prefix (dpath ppath : List Char)
    (hlast : ((splitSlash (cleanChars dpath)).getLast?).getD [] ≠ dotdot)
    (hpre : (cleanChars dpath ++ ['/']) <+: cleanChars ppath) :
    cleanChars (dirChars (cleanChars ppath)) = cleanChars dpath ∨
      strictlyInside ⟨cleanChars dpath⟩ ⟨cleanChars (dirChars (cleanChars ppath))⟩ = true := by
  obtain ⟨r, hP, hrne, hall, hroot⟩ := prefix_decomp dpath ppath hlast hpre
  have hdot := prefix_not_dot dpath ppath r hP
  have hrel : splitSlash r ≠ [] := splitSlash_ne_nil r
  have hdecomp : (splitSlash r).dropLast ++ [(splitSlash r).getLast hrel] = splitSlash r :=
    List.dropLast_append_getLast hrel
  have hinit : ∀ x ∈ (splitSlash r).dropLast, isNormalElem x = true :=
    fun x hx => hall x (List.mem_of_mem_dropLast hx)
  have hlst : '/' ∉ (splitSlash r).getLast hrel :=
    normal_slashFree _ (hall _ (List.getLast_mem hrel))
  have hr : r = joinSlash ((splitSlash r).dropLast ++ [(splitSlash r).getLast hrel]) := by
    rw [hdecomp, joinSlash_splitSlash]
  generalize (splitSlash r).dropLast = init at hdecomp hinit hr
  generalize (splitSlash r).getLast hrel = lst at hdecomp hlst hr
  by_cases hi : init = []
  · left
    subst hi
    simp only [List.nil_append, joinSlash] at hr
    have hdir : dirChars (cleanChars ppath) = cleanChars dpath ++ ['/'] := by
      rw [hP, hr]
      exact dirChars_append _ _ hlst
    rw [hdir]
    have hsplit : splitSlash (cleanChars dpath ++ ['/']) =
        splitSlash (cleanChars dpath) ++ [] ++ [[]] := by
      rw [splitSlash_append]; simp [splitSlash]
    have := cleanChars_extend dpath [] (by simp) hroot hdot ['/'] hsplit
    simpa using this
  · right
    rw [joinSlash_append init [lst] hi (by simp)] at hr
    simp only [joinSlash] at hr
    have hdir : dirChars (cleanChars ppath) =
        cleanChars dpath ++ ('/' :: joinSlash init ++ ['/']) := by
      rw [hP, hr]
      have e : cleanChars dpath ++ '/' :: (joinSlash init ++ '/' :: lst) =
          (cleanChars dpath ++ '/' :: joinSlash init) ++ '/' :: lst := by simp
      rw [e, dirChars_append _ _ hlst]
      simp
    rw [hdir]
    have hfree : ∀ e ∈ init, '/' ∉ e := fun e he => normal_slashFree e (hinit e he)
    have hsplit : splitSlash (cleanChars dpath ++ ('/' :: joinSlash init ++ ['/'])) =
        splitSlash (cleanChars dpath) ++ init ++ [[]] := by
      have e : cleanChars dpath ++ ('/' :: joinSlash init ++ ['/']) =
          cleanChars dpath ++ '/' :: (joinSlash init ++ '/' :: []) := by simp
      rw [e, splitSlash_append, splitSlash_append, splitSlash_joinSlash _ hi hfree]
      simp [splitSlash]
    have := cleanChars_extend dpath init hinit hroot hdot _ hsplit
    simp only [hi, if_false] at this
    rw [this]
    apply strictlyInside_of_decomp _ _ hroot
    · exact joinSlash_ne_nil _ hi (fun e he => normal_ne_nil e (hinit e he))
    · rw [splitSlash_joinSlash _ hi hfree]
      exact hinit

/-- The parent directory that `unzip` makes for a file entry that passes the guard is the
cleaned destination or a proper descendant of it. -/
theorem unzipGuard_dir (dst : String) (f : ZipFile)
    (hlast : lastElem (Clean dst) ≠ dotdot) (hg : unzipGuard dst f = true) :
    Dir (unzipPath dst f) = Clean dst ∨
      strictlyInside (Clean dst) (Dir (unzipPath dst f)) = true := by
  obtain ⟨q, hq⟩ := Join_two_data dst (Clean f.Name) (Clean_ne_empty _)
  have hpre : (cleanChars dst.data ++ ['/']) <+: cleanChars q := by
    unfold unzipGuard HasPrefix at hg
    rw [List.isPrefixOf_iff_prefix] at hg
    unfold unzipPath at hg
    rw [hq] at hg
    simpa [Clean_data] using hg
  have h := dir_of_prefix dst.data q hlast hpre
  have e1 : Clean dst = ⟨cleanChars dst.data⟩ := rfl
  have e2 : Dir (unzipPath dst f) = ⟨cleanChars (dirChars (cleanChars q))⟩ := by
    unfold unzipPath Dir
    show (⟨cleanChars (dirChars (Join [dst, Clean f.Name]).data)⟩ : String) = _
    rw [hq]
  rw [e1, e2]
  rcases h with h | h
  · left; rw [h]
  · right; exact h


/-! ## The task and its stream -/

theorem log_buf (t : Task) (level text : String) :
    (t.log level text).buf = t.buf ++ [mkLine (level, text)] := by
  unfold Task.log mkLine
  by_cases hc : t.closed = true
  · simp [hc]
  · by_cases hl : t.ch.length < chanCap <;> simp [hc, hl]

theorem logAll_buf (lines : List (String × String)) :
    ∀ t : Task, (t.logAll lines).buf = t.buf ++ lines.map mkLine := by
  induction lines with
  | nil => intro t; simp [Task.logAll]
  | cons l r ih =>
    intro t
    have := ih (t.log l.1 l.2)
    simp only [Task.logAll, List.foldl_cons] at this ⊢
    rw [this, log_buf]
    simp

theorem log_open (t : Task) (level text : String) (hc : t.closed = false) :
    (t.log level text).closed = false ∧ (t.log level text).done = t.done ∧
      (t.log level text).ch.length = min (t.ch.length + 1) (max chanCap t.ch.length) := by
  unfold Task.log
  by_cases hl : t.ch.length < chanCap
  · simp only [hc, Bool.false_eq_true, if_false, hl, if_true, List.length_append,
      List.length_singleton, true_and]
    omega
  · simp only [hc, Bool.false_eq_true, if_false, hl, true_and]
    omega

theorem logAll_open (lines : List (String × String)) :
    ∀ t : Task, t.closed = false → t.ch.length ≤ chanCap →
      (t.logAll lines).closed = false ∧ (t.logAll lines).done = t.done ∧
        (t.logAll lines).ch.length = min (t.ch.length + lines.length) chanCap := by
  induction lines with
  | nil => intro t hc hl; simpa [Task.logAll] using ⟨hc, hl⟩
  | cons l r ih =>
    intro t hc hl
    obtain ⟨h1, h2, h3⟩ := log_open t l.1 l.2 hc
    have := ih (t.log l.1 l.2) h1 (by rw [h3]; omega)
    simp only [Task.logAll, List.foldl_cons] at this ⊢
    obtain ⟨h4, h5, h6⟩ := this
    refine ⟨h4, by rw [h5, h2], ?_⟩
    rw [h6, h3, List.length_cons]
    omega

theorem finishBegin_buf (t : Task) (err : Option String) :
    (t.finishBegin err).buf = t.buf ++ errLines err ∧ (t.finishBegin err).done = true ∧
      (t.finishBegin err).ch = t.ch ∧ (t.finishBegin err).closed = t.closed := by
  cases err with
  | none => simp [Task.finishBegin, errLines]
  | some e => simp [Task.finishBegin, errLines, finalLine]

theorem finishSend_state (t : Task) (final : LogLine) :
    (t.finishSend final).state.buf = t.buf ∧ (t.finishSend final).state.done = t.done := by
  unfold Task.finishSend
  by_cases hc : t.closed = true
  · simp [hc, Step.state]
  · by_cases hl : t.ch.length < chanCap <;> simp [hc, hl, Step.state]

/-- A call of `Stream` on a task that is done replays the buffer, sends one line marked
done, and returns without touching the channel. -/
theorem Stream_done (t : Task) (hd : t.done = true) :
    t.Stream =
      (t, ⟨SubState.returned, t.buf.map Frame.data ++ [Frame.data { Done := true }]⟩) := by
  unfold Task.Stream Sub.replay Sub.check
  simp only [hd, if_true, List.nil_append]
  unfold Sub.drain
  rfl

theorem log_inStep (t : Task) (s : Sub) (level text : String) (h : InStep t s)
    (hroom : t.ch.length < chanCap) :
    InStep (t.log level text) s ∧ (t.log level text).ch.length = t.ch.length + 1 ∧
      (t.log level text).done = t.done := by
  obtain ⟨h1, h2, h3, h4⟩ := h
  have e : t.log level text =
      { t with buf := t.buf ++ [mkLine (level, text)], ch := t.ch ++ [mkLine (level, text)] } := by
    unfold Task.log mkLine
    simp [h2, hroom]
  rw [e]
  refine ⟨⟨h1, h2, ?_, ?_⟩, ?_, rfl⟩
  · intro l hl
    rcases List.mem_append.1 hl with hl | hl
    · exact h3 l hl
    · rw [List.mem_singleton] at hl; rw [hl]; rfl
  · show s.sent ++ (t.ch ++ [mkLine (level, text)]).map Frame.data =
      (t.buf ++ [mkLine (level, text)]).map Frame.data
    simp only [List.map_append, ← List.append_assoc, h4]
  · show (t.ch ++ [mkLine (level, text)]).length = t.ch.length + 1
    simp

theorem recv_inStep (t : Task) (s : Sub) (h : InStep t s) :
    InStep (Sub.recv t s).state.1 (Sub.recv t s).state.2 ∧
      (Sub.recv t s).state.1.ch.length ≤ t.ch.length ∧
      (Sub.recv t s).state.1.buf = t.buf ∧ (Sub.recv t s).state.1.done = t.done := by
  obtain ⟨h1, h2, h3, h4⟩ := h
  cases hch : t.ch with
  | nil =>
    have e : Sub.recv t s = .blocks (t, s) := by
      unfold Sub.recv
      simp [h1, hch, h2]
    rw [e]
    exact ⟨⟨h1, h2, h3, h4⟩, le_of_eq (by simp [Step.state, hch]), rfl, rfl⟩
  | cons x rest =>
    have hx : x.Done = false := h3 x (by rw [hch]; exact List.mem_cons_self _ _)
    have e : Sub.recv t s =
        .returns ({ t with ch := rest }, ⟨.live, s.sent ++ [Frame.data x]⟩) := by
      unfold Sub.recv
      simp [h1, hch, hx]
    rw [e]
    refine ⟨⟨rfl, h2, ?_, ?_⟩, ?_, rfl, rfl⟩
    · intro l hl
      exact h3 l (by rw [hch]; exact List.mem_cons_of_mem _ hl)
    · show (s.sent ++ [Frame.data x]) ++ rest.map Frame.data = t.buf.map Frame.data
      rw [hch] at h4
      simpa using h4
    · show rest.length ≤ (x :: rest).length
      simp

theorem runActs_inStep (acts : List Act) :
    ∀ (t : Task) (s : Sub), InStep t s → t.ch.length + (logsOf acts).length < chanCap →
      InStep (runActs acts (t, s)).1 (runActs acts (t, s)).2 ∧
        (runActs acts (t, s)).1.buf = t.buf ++ (logsOf acts).map mkLine ∧
        (runActs acts (t, s)).1.ch.length ≤ t.ch.length + (logsOf acts).length ∧
        (runActs acts (t, s)).1.done = t.done := by
  induction acts with
  | nil => intro t s h _; exact ⟨h, by simp [runActs, logsOf], by simp [runActs], rfl⟩
  | cons a r ih =>
    intro t s h hlen
    cases a with
    | log level text =>
      simp only [logsOf, List.length_cons] at hlen
      obtain ⟨g1, g2, g3⟩ := log_inStep t s level text h (by omega)
      obtain ⟨k1, k2, k3, k4⟩ := ih (t.log level text) s g1 (by rw [g2]; omega)
      simp only [runActs, logsOf, List.map_cons, List.length_cons]
      refine ⟨k1, ?_, by rw [g2] at k3; omega, by rw [k4, g3]⟩
      rw [k2, log_buf]
      simp
    | recv =>
      simp only [logsOf] at hlen
      obtain ⟨g1, g2, g3, g4⟩ := recv_inStep t s h
      obtain ⟨k1, k2, k3, k4⟩ := ih _ _ g1 (by omega)
      simp only [Prod.mk.eta] at k1 k2 k3 k4
      simp only [runActs, logsOf]
      exact ⟨k1, by rw [k2, g3], by omega, by rw [k4, g4]⟩

/-- A subscriber in the loop, once the final line is queued last in the channel, is sent
what is queued and returns. -/
theorem drain_final (pre : List LogLine) :
    ∀ (fuel : Nat) (t : Task) (s : Sub) (fin : LogLine), s.state = .live →
      (∀ l ∈ pre, l.Done = false) → t.ch = pre ++ [fin] → fin.Done = true →
      pre.length + 1 ≤ fuel →
      (Sub.drain fuel t s).2 = ⟨.returned, s.sent ++ (pre ++ [fin]).map Frame.data⟩ := by
  induction pre with
  | nil =>
    intro fuel t s fin hs _ hch hfin hfuel
    obtain ⟨n, rfl⟩ : ∃ n, fuel = n + 1 := ⟨fuel - 1, by simp at hfuel; omega⟩
    simp only [List.nil_append] at hch
    unfold Sub.drain
    simp only [hs, Sub.recv, hch, hfin, if_true]
    cases n <;> simp [Sub.drain]
  | cons x pre ih =>
    intro fuel t s fin hs hpre hch hfin hfuel
    obtain ⟨n, rfl⟩ : ∃ n, fuel = n + 1 := ⟨fuel - 1, by simp at hfuel; omega⟩
    have hx : x.Done = false := hpre x (List.mem_cons_self _ _)
    unfold Sub.drain
    simp only [hs, Sub.recv, hch, List.cons_append, hx, Bool.false_eq_true, if_false]
    rw [ih n _ _ fin rfl (fun l hl => hpre l (List.mem_cons_of_mem _ hl)) rfl hfin
      (by simp at hfuel; omega)]
    simp

/-- With room in the open channel, every logged line is appended to the buffer and queued
in the channel. -/
theorem logAll_room (lines : List (String × String)) :
    ∀ t : Task, t.closed = false → t.ch.length + lines.length ≤ chanCap →
      (t.logAll lines).buf = t.buf ++ lines.map mkLine ∧
      (t.logAll lines).ch = t.ch ++ lines.map mkLine ∧
      (t.logAll lines).closed = false ∧ (t.logAll lines).done = t.done := by
  induction lines with
  | nil => intro t hc _; simp [Task.logAll, hc]
  | cons l r ih =>
    intro t hc hl
    simp only [List.length_cons] at hl
    have hroom : t.ch.length < chanCap := by omega
    have e : t.log l.1 l.2 =
        { t with buf := t.buf ++ [mkLine l], ch := t.ch ++ [mkLine l] } := by
      unfold Task.log mkLine
      simp [hc, hroom]
    have hstep : (t.logAll (l :: r)) = (t.log l.1 l.2).logAll r := rfl
    obtain ⟨h1, h2, h3, h4⟩ := ih (t.log l.1 l.2) (by rw [e]; exact hc)
      (by rw [e]; simp only [List.length_append, List.length_singleton]; omega)
    rw [hstep, h1, h2, h3, h4, e]
    simp

/-- Where the two streams agree. A subscriber that has reached the `select` loop of
`Stream` before the first log call and takes from the channel between the log calls, with
no keep-alive in between, is sent, when `finish` is called without an error after fewer
than 256 log lines, exactly what a subscriber that attaches after completion is sent: the
logged lines in order, then one line marked done. -/
theorem stream_early_eq_late (id : String) (acts : List Act)
    (hlen : (logsOf acts).length < chanCap) :
    ∃ t2, (runActs acts (newTask id, Sub.check (newTask id) (Sub.replay (newTask id) {}))).1.finish
        none = .returns t2 ∧
      (Sub.drain (t2.ch.length + 1) t2
        (runActs acts (newTask id, Sub.check (newTask id) (Sub.replay (newTask id) {}))).2).2 =
          t2.Stream.2 ∧
      t2.Stream.2 = ⟨.returned,
        ((logsOf acts).map mkLine).map Frame.data ++ [Frame.data { Done := true }]⟩ := by
  have h0 : InStep (newTask id) (Sub.check (newTask id) (Sub.replay (newTask id) {})) := by
    refine ⟨rfl, rfl, ?_, rfl⟩
    intro l hl
    simp [newTask] at hl
  have hlen0 : (newTask id).ch.length + (logsOf acts).length < chanCap := by
    simpa [newTask] using hlen
  obtain ⟨⟨i1, i2, i3, i4⟩, hbuf, hch, hdone⟩ := runActs_inStep acts _ _ h0 hlen0
  generalize runActs acts (newTask id, Sub.check (newTask id) (Sub.replay (newTask id) {})) = p
    at i1 i2 i3 i4 hbuf hch hdone
  have hroom : p.1.ch.length < chanCap := by
    simp only [newTask, List.length_nil, zero_add] at hch
    omega
  have hfin : p.1.finish none = .returns
      { p.1 with done := true, ch := p.1.ch ++ [finalLine none], closed := true } := by
    unfold Task.finish Task.finishBegin Task.finishSend
    simp [i2, hroom]
  refine ⟨_, hfin, ?_, ?_⟩
  · rw [Stream_done _ rfl]
    rw [drain_final p.1.ch _ _ p.2 (finalLine none) i1 i3 rfl rfl (by simp)]
    show (⟨SubState.returned, p.2.sent ++ (p.1.ch ++ [finalLine none]).map Frame.data⟩ : Sub) =
      ⟨SubState.returned, p.1.buf.map Frame.data ++ [Frame.data { Done := true }]⟩
    rw [List.map_append, ← List.append_assoc, i4]
    rfl
  · rw [Stream_done _ rfl]
    show (⟨SubState.returned, p.1.buf.map Frame.data ++ [Frame.data { Done := true }]⟩ : Sub) = _
    rw [hbuf]
    simp [newTask]

/-- The agreement of the streams on two lines with a turn of the subscriber between
them. -/
theorem stream_early_eq_late_example :
    (logsOf [.log "info" "a", .recv, .log "ok" "b"]).length < chanCap ∧
    ∃ t2, (runActs [.log "info" "a", .recv, .log "ok" "b"]
        (newTask "1", Sub.check (newTask "1") (Sub.replay (newTask "1") {}))).1.finish
        none = .returns t2 ∧
      (Sub.drain (t2.ch.length + 1) t2
        (runActs [.log "info" "a", .recv, .log "ok" "b"]
          (newTask "1", Sub.check (newTask "1") (Sub.replay (newTask "1") {}))).2).2 =
          t2.Stream.2 ∧
      t2.Stream.2 = ⟨.returned,
        ((logsOf [.log "info" "a", .recv, .log "ok" "b"]).map mkLine).map Frame.data ++
          [Frame.data { Done := true }]⟩ :=
  ⟨by decide, stream_early_eq_late "1" [.log "info" "a", .recv, .log "ok" "b"] (by decide)⟩

set_option maxRecDepth 100000 in
/-- Three runs in which the streams differ. (a) When the install fails, the subscriber
attached before completion is sent one line, marked done and error, and the one attached
after completion two: the error text without the marks, then a line marked done without
the error mark.
(b) A subscriber that attaches after the first line is sent that line twice, from the
buffer and from the channel. (c) With 257 lines logged before the subscriber takes any,
the last line is dropped from the channel: the early subscriber is sent 257 events, the
late one 258. -/
theorem stream_examples :
    ((newTask "1").finish (some "boom") = .returns
        ((newTask "1").finish (some "boom")).state ∧
      (Sub.drain 2 ((newTask "1").finish (some "boom")).state
          (Sub.check (newTask "1") (Sub.replay (newTask "1") {}))).2 =
        ⟨.returned,
          [.data { Text := "ERROR: boom", Level := "error", Done := true, Error := true }]⟩ ∧
      ((newTask "1").finish (some "boom")).state.Stream.2 =
        ⟨.returned, [.data { Text := "ERROR: boom", Level := "error" },
          .data { Done := true }]⟩) ∧
    ((Sub.drain 3 (((newTask "1").log "info" "a").finish none).state
          (Sub.check ((newTask "1").log "info" "a")
            (Sub.replay ((newTask "1").log "info" "a") {}))).2 =
        ⟨.returned, [.data { Text := "a", Level := "info" },
          .data { Text := "a", Level := "info" }, .data { Done := true }]⟩ ∧
      (((newTask "1").log "info" "a").finish none).state.Stream.2 =
        ⟨.returned, [.data { Text := "a", Level := "info" }, .data { Done := true }]⟩) ∧
    ((Sub.drain 2
          ((Sub.drain 257
            (((newTask "1").logAll (List.replicate 257 ("info", "x"))).finishBegin none)
            (Sub.check (newTask "1") (Sub.replay (newTask "1") {}))).1.finishSend
              (finalLine none)).state
          (Sub.drain 257
            (((newTask "1").logAll (List.replicate 257 ("info", "x"))).finishBegin none)
            (Sub.check (newTask "1") (Sub.replay (newTask "1") {}))).2).2.sent.length = 257 ∧
      (((newTask "1").logAll (List.replicate 257 ("info", "x"))).finishBegin
        none).Stream.2.sent.length = 258) := by
  decide


/-! ## The registry -/

theorem mapGet_mapAdjust {α : Type} (m : List (String × α)) (k : String) (f : α → α)
    (k' : String) :
    mapGet (mapAdjust m k f) k' = if k' = k then (mapGet m k').map f else mapGet m k' := by
  induction m with
  | nil => simp [mapAdjust, mapGet]
  | cons p r ih =>
    obtain ⟨a, v⟩ := p
    unfold mapAdjust at ih ⊢
    simp only [List.map_cons, mapGet]
    by_cases hk : a = k'
    · subst hk
      by_cases hak : a = k <;> simp [hak]
    · simp only [hk, if_false, ih]

theorem mapGet_mapSet {α : Type} (m : List (String × α)) (k : String) (v : α) (k' : String) :
    mapGet (mapSet m k v) k' = if k' = k then some v else mapGet m k' := by
  unfold mapSet
  by_cases hk : k' = k
  · subst hk; simp [mapGet]
  · have hk2 : ¬ k = k' := fun h => hk h.symm
    simp only [mapGet, hk2, if_false, hk]
    induction m with
    | nil => simp [mapGet]
    | cons p r ih =>
      obtain ⟨a, w⟩ := p
      simp only [ne_eq, decide_not] at ih
      by_cases hak : a = k
      · subst hak
        simp [List.filter, mapGet, hk2, ih]
      · by_cases hak' : a = k'
        · subst hak'; simp [List.filter, hak, mapGet]
        · simp [List.filter, hak, mapGet, hak', ih]

/-- The exit watcher touches the module of its own name only, and keeps it in the map. -/
theorem exitWatcher_get (st : State) (n k : String) :
    mapGet (exitWatcher st n).byName k =
      if k = n then
        (mapGet st.byName k).map (fun m =>
          if m.Status = "active" then
            { m with Status := "error", ErrorLog := "process exited unexpectedly" }
          else m)
      else mapGet st.byName k := by
  unfold exitWatcher
  cases hg : mapGet st.byName n with
  | none =>
    by_cases hk : k = n
    · subst hk; simp [hg]
    · simp [hk]
  | some mod =>
    by_cases hs : mod.Status = "active"
    · simp only [hs, if_true, mapGet_mapAdjust]
      by_cases hk : k = n
      · subst hk; simp [hg, hs]
      · simp [hk]
    · simp only [hs, if_false]
      by_cases hk : k = n
      · subst hk; simp [hg, hs]
      · simp [hk]

theorem exitWatcher_isSome (st : State) (n k : String) :
    (mapGet (exitWatcher st n).byName k).isSome = (mapGet st.byName k).isSome := by
  rw [exitWatcher_get]
  by_cases hk : k = n
  · simp only [hk, if_true]
    cases mapGet st.byName n <;> rfl
  · simp [hk]

/-- `startProcess` keeps every module in the map and leaves alone the modules other than
the one it is called on. -/
theorem startProcess_frame (h : Host) (st : State) (key : String) (m : Module) :
    (∀ k, (mapGet (startProcess h st key m).1.byName k).isSome = (mapGet st.byName k).isSome) ∧
    (∀ k, k ≠ key → k ≠ m.Name →
      mapGet (startProcess h st key m).1.byName k = mapGet st.byName k) := by
  unfold startProcess
  cases hm : m.Manifest with
  | none => exact ⟨fun _ => rfl, fun _ _ _ => rfl⟩
  | some mf =>
    simp only
    by_cases he : mf.Entrypoint = ""
    · simp [he]
    · simp only [he, if_false]
      cases hs : h.stat st.fs (entryPath st m mf) with
      | false => exact ⟨fun _ => rfl, fun _ _ _ => rfl⟩
      | true =>
        simp only [Bool.not_true, Bool.false_eq_true, if_false]
        cases hst : h.start (mkCmd h st m mf) with
        | error e => exact ⟨fun _ => rfl, fun _ _ _ => rfl⟩
        | ok pid =>
          simp only
          by_cases hx : h.exitsDuringDelay pid = true
          · simp only [hx, if_true]
            constructor
            · intro k
              rw [exitWatcher_isSome, mapGet_mapAdjust]
              by_cases hk : k = key
              · simp only [hk, if_true]; cases mapGet st.byName key <;> rfl
              · simp [hk]
            · intro k hk1 hk2
              rw [exitWatcher_get]
              simp only [hk2, if_false, mapGet_mapAdjust, hk1]
          · simp only [hx, if_false, Bool.false_eq_true]
            constructor
            · intro k
              simp only [mapGet_mapAdjust]
              by_cases hk : k = key
              · simp only [hk, if_true]; cases mapGet st.byName key <;> rfl
              · simp [hk]
            · intro k hk1 _
              simp only [mapGet_mapAdjust, hk1, if_false]

/-- When `startProcess` returns an error, and what the error is. -/
theorem startProcess_error (h : Host) (st : State) (key : String) (m : Module)
    (mf : Manifest) (hm : m.Manifest = some mf) (he : mf.Entrypoint ≠ "") :
    ((startProcess h st key m).2 ≠ none ↔
      (h.stat st.fs (entryPath st m mf) = false ∨
        ∃ e, h.start (mkCmd h st m mf) = .error e)) ∧
    (h.stat st.fs (entryPath st m mf) = false →
      (startProcess h st key m).2 =
        some ("entrypoint " ++ h.mh.quote mf.Entrypoint ++ " not found")) ∧
    (∀ e, h.stat st.fs (entryPath st m mf) = true → h.start (mkCmd h st m mf) = .error e →
      (startProcess h st key m).2 = some ("start: " ++ e)) := by
  unfold startProcess
  simp only [hm, he, if_false]
  cases hs : h.stat st.fs (entryPath st m mf) with
  | false => simp
  | true =>
    simp only [Bool.not_true, Bool.false_eq_true, if_false]
    cases hst : h.start (mkCmd h st m mf) with
    | error e => simp
    | ok pid =>
      by_cases hx : h.exitsDuringDelay pid = true <;> simp [hx]

theorem dbGet_map_inactive (n : String) (F : Row → Row)
    (hF : ∀ r, (F r).name = r.name) (hin : ∀ r, r.name = n → (F r).status = "inactive")
    (rows : List Row) :
    ∀ r0, dbGet rows n = some r0 →
      ∃ row, dbGet (rows.map F) n = some row ∧ row.status = "inactive" := by
  induction rows with
  | nil => intro r0 h0; simp [dbGet] at h0
  | cons r rest ih =>
    intro r0 h0
    unfold dbGet at h0 ih ⊢
    by_cases hr : r.name = n
    · refine ⟨F r, ?_, hin r hr⟩
      simp [List.find?, hF, hr]
    · have h1 : List.find? (fun r => decide (r.name = n)) rest = some r0 := by
        simpa [List.find?, hr] using h0
      obtain ⟨row, hrow, hst⟩ := ih r0 h1
      refine ⟨row, ?_, hst⟩
      simp only [List.map_cons, List.find?, hF, hr, decide_False]
      exact hrow

/-- After the statement of `register` the row of the module has the status `inactive`. -/
theorem dbUpsert_inactive (h : Host) (rows : List Row) (lastId : Int) (m : Module) :
    ∃ row, dbGet (dbUpsert h rows lastId m).1 m.Name = some row ∧ row.status = "inactive" := by
  unfold dbUpsert
  cases hg : dbGet rows m.Name with
  | some r0 =>
    simp only
    apply dbGet_map_inactive m.Name _ _ _ rows r0 hg
    · intro r; by_cases hr : r.name = m.Name <;> simp [hr]
    · intro r hr; simp [hr]
  | none =>
    simp only
    unfold dbGet at hg ⊢
    rw [List.find?_append, hg]
    simp [List.find?]

/-- The module that `register` stores keeps the status it was given; its row is
`inactive`. -/
theorem register_status (h : Host) (st : State) (m : Module) :
    (∃ m', Get (register h st m) m.Name = some m' ∧ m'.Status = m.Status) ∧
    (∃ row, dbGet (register h st m).rows m.Name = some row ∧ row.status = "inactive") := by
  obtain ⟨row, hrow, hst⟩ := dbUpsert_inactive h st.rows st.lastId m
  unfold register Get
  simp only [hrow, mapGet_mapSet, if_true]
  exact ⟨⟨_, rfl, rfl⟩, ⟨row, rfl, hst⟩⟩

theorem finalizeRegister_status (h : Host) (st : State) (mf : Manifest)
    (srcType srcURL : String) (t : Task) :
    (finalizeRegister h st mf srcType srcURL t).2.2 = none ∧
    (∃ m', Get (finalizeRegister h st mf srcType srcURL t).1 mf.Name = some m' ∧
      m'.Status = "") ∧
    (∃ row, dbGet (finalizeRegister h st mf srcType srcURL t).1.rows mf.Name = some row ∧
      row.status = "inactive") := by
  unfold finalizeRegister
  exact ⟨rfl, register_status h st _⟩

/-- A call of `finalize` that returns no error ends by registering the module. -/
theorem finalize_ok (h : Host) (st : State) (src srcType srcURL : String) (t : Task)
    (mf : Manifest) (hload : loadManifest h.mh src = .ok mf)
    (hok : (finalize h st src srcType srcURL t).2.2 = none) :
    ∃ st' t', finalize h st src srcType srcURL t =
      finalizeRegister h st' mf srcType srcURL t' := by
  unfold finalize at hok ⊢
  simp only [hload] at hok ⊢
  rcases hreq : checkRequires h mf.Requires
      (t.log LvlInfo ("Модуль: " ++ mf.Name ++ " v" ++ mf.Version ++ " — " ++ mf.Description))
    with ⟨t1, dep⟩
  rw [hreq] at hok
  cases dep with
  | some d => simp at hok
  | none =>
    simp only at hok ⊢
    split at hok
    · simp at hok
    · split at hok
      · split at hok
        · simp at hok
        · rename_i hc hs _ ho
          simp only [hc, hs, if_true, ho]
          exact ⟨_, _, rfl⟩
      · rename_i hc hs
        simp only [hc, hs]
        exact ⟨_, _, rfl⟩


/-! ## The installer: required executables -/

/-- The loop over the required executables stops at the first one that is not found. -/
theorem checkRequires_missing (h : Host) (reqs : List String) :
    ∀ t : Task, (∃ d ∈ reqs, h.lookPath d = false) →
      ∃ pre dep post t', reqs = pre ++ dep :: post ∧ (∀ d ∈ pre, h.lookPath d = true) ∧
        h.lookPath dep = false ∧ checkRequires h reqs t = (t', some dep) := by
  induction reqs with
  | nil => intro t hex; obtain ⟨d, hd, -⟩ := hex; simp at hd
  | cons r rest ih =>
    intro t hex
    cases hr : h.lookPath r with
    | false =>
      exact ⟨[], r, rest, t, rfl, by simp, hr, by simp [checkRequires, hr]⟩
    | true =>
      have hex' : ∃ d ∈ rest, h.lookPath d = false := by
        obtain ⟨d, hd, hf⟩ := hex
        rcases List.mem_cons.1 hd with rfl | hd
        · rw [hr] at hf; exact absurd hf (by decide)
        · exact ⟨d, hd, hf⟩
      obtain ⟨pre, dep, post, t', h1, h2, h3, h4⟩ := ih (t.log LvlOK ("OK: " ++ r)) hex'
      refine ⟨r :: pre, dep, post, t', by rw [h1]; rfl, ?_, h3, ?_⟩
      · intro d hd
        rcases List.mem_cons.1 hd with rfl | hd
        · exact hr
        · exact h2 d hd
      · simp only [checkRequires, hr, if_true]
        exact h4


/-! ## The registry: deletion and listing -/

theorem mapGet_mem {α : Type} (l : List (String × α)) (k : String) (v : α)
    (h : mapGet l k = some v) : (k, v) ∈ l := by
  induction l with
  | nil => simp [mapGet] at h
  | cons p r ih =>
    obtain ⟨a, w⟩ := p
    by_cases ha : a = k
    · simp only [mapGet, ha, if_true, Option.some.injEq] at h
      rw [ha, h]; exact List.mem_cons_self _ _
    · simp only [mapGet, ha, if_false] at h
      exact List.mem_cons_of_mem _ (ih h)

theorem mapGet_mapDelete {α : Type} (l : List (String × α)) (k k' : String) :
    mapGet (mapDelete l k) k' = if k' = k then none else mapGet l k' := by
  unfold mapDelete
  induction l with
  | nil => simp [mapGet]
  | cons p r ih =>
    obtain ⟨a, w⟩ := p
    simp only [ne_eq, decide_not] at ih
    by_cases hk : k' = k
    · subst hk
      simp only [if_true] at ih
      by_cases ha : a = k'
      · simp [List.filter, ha, ih]
      · simp [List.filter, ha, ih, mapGet]
    · simp only [hk, if_false] at ih
      by_cases ha : a = k
      · have hk2 : ¬ k = k' := fun e => hk e.symm
        simp [List.filter, ha, hk, hk2, ih, mapGet]
      · by_cases hak : a = k'
        · simp [List.filter, ha, hk, mapGet, hak]
        · simp [List.filter, ha, hk, mapGet, hak, ih]

theorem mapAdjust_wellKeyed (l : List (String × Module)) (k : String) (f : Module → Module)
    (hf : ∀ m, (f m).Name = m.Name) (hl : WellKeyed l) : WellKeyed (mapAdjust l k f) := by
  intro p hp
  unfold mapAdjust at hp
  obtain ⟨q, hq, rfl⟩ := List.mem_map.1 hp
  by_cases hk : q.1 = k
  · simp only [hk, if_true, hf]
    rw [hl q hq, hk]
  · simp only [hk, if_false]
    exact hl q hq

theorem exitWatcher_wellKeyed (st : State) (n : String) (hl : WellKeyed st.byName) :
    WellKeyed (exitWatcher st n).byName := by
  unfold exitWatcher
  cases mapGet st.byName n with
  | none => exact hl
  | some mod =>
    by_cases hs : mod.Status = "active"
    · simp only [hs, if_true]
      exact mapAdjust_wellKeyed _ _ _ (fun _ => rfl) hl
    · simp only [hs, if_false]
      exact hl

theorem runWatcher_wellKeyed (st : State) (pid : Nat) (n : String)
    (hl : WellKeyed st.byName) : WellKeyed (runWatcher st pid n).byName := by
  unfold runWatcher
  by_cases hm : (pid, n) ∈ st.watchers
  · simp only [hm, if_true]
    exact exitWatcher_wellKeyed _ n hl
  · simp only [hm, if_false]
    exact hl

theorem runWatcher_get_ne (st : State) (pid : Nat) (n k : String) (hk : k ≠ n) :
    mapGet (runWatcher st pid n).byName k = mapGet st.byName k := by
  unfold runWatcher
  by_cases hm : (pid, n) ∈ st.watchers
  · simp only [hm, if_true, exitWatcher_get, hk, if_false]
  · simp only [hm, if_false]

/-- `stopProcess` keeps the map well keyed and leaves alone the modules other than the one
it is called on. -/
theorem stopProcess_frame (h : Host) (st : State) (key : String) (m : Module)
    (hl : WellKeyed st.byName) :
    WellKeyed (stopProcess h st key m).byName ∧
    (∀ k, k ≠ key → k ≠ m.Name →
      mapGet (stopProcess h st key m).byName k = mapGet st.byName k) := by
  unfold stopProcess
  cases hp : m.proc with
  | none => exact ⟨hl, fun _ _ _ => rfl⟩
  | some cmd =>
    simp only
    cases hq : cmd.Pid with
    | none => exact ⟨hl, fun _ _ _ => rfl⟩
    | some pid =>
      simp only
      by_cases hw : h.watcherFirst pid = true
      · simp only [hw, if_true]
        refine ⟨mapAdjust_wellKeyed _ _ _ (fun _ => rfl)
          (runWatcher_wellKeyed _ pid m.Name hl), ?_⟩
        intro k hk1 hk2
        rw [mapGet_mapAdjust]
        simp only [hk1, if_false]
        exact runWatcher_get_ne _ pid m.Name k hk2
      · simp only [hw, if_false, Bool.false_eq_true]
        refine ⟨mapAdjust_wellKeyed _ _ _ (fun _ => rfl) hl, ?_⟩
        intro k hk1 _
        rw [mapGet_mapAdjust]
        simp only [hk1, if_false]

/-- `Deactivate(name)` keeps the map well keyed and leaves the other modules alone. -/
theorem Deactivate_frame (h : Host) (st : State) (name : String)
    (hl : WellKeyed st.byName) :
    WellKeyed (Deactivate h st name).byName ∧
    (∀ k, k ≠ name → mapGet (Deactivate h st name).byName k = mapGet st.byName k) := by
  unfold Deactivate
  cases hg : mapGet st.byName name with
  | none => exact ⟨hl, fun _ _ => rfl⟩
  | some m =>
    have hname : m.Name = name := hl _ (mapGet_mem _ _ _ hg)
    obtain ⟨h1, h2⟩ := stopProcess_frame h st name m hl
    simp only
    refine ⟨mapAdjust_wellKeyed _ _ _ (fun _ => rfl) h1, ?_⟩
    intro k hk
    rw [mapGet_mapAdjust]
    simp only [hk, if_false]
    exact h2 k hk (by rw [hname]; exact hk)

theorem mem_sortSlice {α : Type} (less : α → α → Bool) (l : List α) (x : α) :
    x ∈ sortSlice less l ↔ x ∈ l :=
  (List.perm_insertionSort _ l).mem_iff

theorem navItemOf_name (m : Module) (i : NavItem) (h : navItemOf m = some i) :
    i.Name = m.Name := by
  unfold navItemOf at h
  cases hm : m.Manifest with
  | none => simp [hm] at h
  | some mf =>
    simp only [hm] at h
    split at h
    · simp at h
    · simp only [Option.some.injEq] at h
      rw [← h]


/-! ## The order of strings and of navigation entries -/

theorem lessChars_asymm : ∀ s t : List Char, lessChars s t = true → lessChars t s = false
  | _, [], h => by simp [lessChars] at h
  | [], _ :: _, _ => by simp [lessChars]
  | a :: s, b :: t, h => by
    simp only [lessChars] at h ⊢
    by_cases hab : a < b
    · have hba : ¬ b < a := not_lt.2 (le_of_lt hab)
      have hne : ¬ b = a := fun e => absurd (e ▸ hab) (lt_irrefl _)
      simp [hba, hne]
    · by_cases heq : a = b
      · subst heq
        simp only [lt_irrefl, if_false, if_true] at h ⊢
        exact lessChars_asymm s t h
      · simp [hab, heq] at h

theorem lessChars_negtrans : ∀ s t u : List Char,
    lessChars t s = false → lessChars u t = false → lessChars u s = false
  | [], _, _, _, _ => by cases ‹List Char› <;> simp [lessChars]
  | _ :: _, [], _, h1, _ => by simp [lessChars] at h1
  | _ :: _, _ :: _, [], _, h2 => by simp [lessChars] at h2
  | a :: s, b :: t, c :: u, h1, h2 => by
    simp only [lessChars] at h1 h2 ⊢
    have hba : ¬ b < a := by
      intro hlt; simp [hlt] at h1
    have hcb : ¬ c < b := by
      intro hlt; simp [hlt] at h2
    have hca : ¬ c < a := fun hlt => hba (lt_of_le_of_lt (not_lt.1 hcb) hlt)
    simp only [hca, if_false]
    by_cases heq : c = a
    · subst heq
      have hbc : b = c := le_antisymm (not_lt.1 hcb) (not_lt.1 hba)
      subst hbc
      simp only [lt_irrefl, if_false, if_true] at h1 h2 ⊢
      exact lessChars_negtrans s t u h1 h2
    · simp [heq]

theorem navLess_false_iff (a b : NavItem) :
    navLess b a = false ↔
      (a.Position < b.Position ∨
        (a.Position = b.Position ∧ strLess b.Name a.Name = false)) := by
  unfold navLess
  by_cases hp : b.Position = a.Position
  · simp [hp]
  · have hp' : ¬ a.Position = b.Position := fun e => hp e.symm
    simp only [ne_eq, hp, not_false_eq_true, if_true, decide_eq_false_iff_not, not_lt, hp',
      false_and, or_false]
    omega

theorem navLess_total (a b : NavItem) : navLess b a = false ∨ navLess a b = false := by
  rw [navLess_false_iff, navLess_false_iff]
  rcases lt_trichotomy a.Position b.Position with h | h | h
  · exact Or.inl (Or.inl h)
  · cases hs : strLess b.Name a.Name with
    | false => exact Or.inl (Or.inr ⟨h, rfl⟩)
    | true => exact Or.inr (Or.inr ⟨h.symm, lessChars_asymm _ _ hs⟩)
  · exact Or.inr (Or.inl h)

theorem navLess_trans (a b c : NavItem) (h1 : navLess b a = false)
    (h2 : navLess c b = false) : navLess c a = false := by
  rw [navLess_false_iff] at h1 h2 ⊢
  rcases h1 with h1 | ⟨h1, s1⟩
  · rcases h2 with h2 | ⟨h2, -⟩
    · exact Or.inl (by omega)
    · exact Or.inl (by omega)
  · rcases h2 with h2 | ⟨h2, s2⟩
    · exact Or.inl (by omega)
    · exact Or.inr ⟨by omega, lessChars_negtrans _ _ _ s1 s2⟩

/-- `NavItems` returns its entries sorted by position, then by name. -/
theorem NavItems_sorted (st : State) :
    List.Sorted (fun a b => a.Position < b.Position ∨
      (a.Position = b.Position ∧ strLess b.Name a.Name = false)) (NavItems st) := by
  haveI : IsTotal NavItem (fun a b => navLess b a = false) := ⟨navLess_total⟩
  haveI : IsTrans NavItem (fun a b => navLess b a = false) := ⟨navLess_trans⟩
  have h := List.sorted_insertionSort (fun a b => navLess b a = false)
    (st.byName.filterMap (fun p => navItemOf p.2))
  unfold NavItems sortSlice
  exact List.Pairwise.imp (fun {a b} hab => (navLess_false_iff a b).1 hab) h

/-- The entry that `NavItems` makes for a module, in the words of the specification. -/
theorem navItemOf_iff (m : Module) (i : NavItem) :
    navItemOf m = some i ↔
      (m.Status = "active" ∧ ∃ mf, m.Manifest = some mf ∧ mf.Menu.Hidden = false ∧
        i.Name = m.Name ∧
        i.Label = (if mf.Menu.Label ≠ "" then mf.Menu.Label
          else if m.Description ≠ "" then m.Description else m.Name) ∧
        i.Icon = (if mf.Menu.Icon ≠ "" then mf.Menu.Icon else "package") ∧
        i.Position = mf.Menu.Position ∧ i.Href = "/modules/" ++ m.Name) := by
  unfold navItemOf
  cases hm : m.Manifest with
  | none => simp
  | some mf =>
    simp only [Option.some.injEq, exists_eq_left']
    by_cases hs : m.Status = "active"
    · cases hh : mf.Menu.Hidden with
      | true => simp [hs]
      | false =>
        simp only [hs, ne_eq, not_true_eq_false, Bool.false_eq_true, or_self, if_false,
          Option.some.injEq, true_and]
        obtain ⟨n, l, ic, hr, p⟩ := i
        simp only [NavItem.mk.injEq]
        by_cases hl : mf.Menu.Label = "" <;> by_cases hd : m.Description = "" <;>
          by_cases hi : mf.Menu.Icon = "" <;> simp [hl, hd, hi] <;> tauto
    · simp [hs]


/-! ## The environment of a process -/

theorem takeWhile_to_eq (x y : List Char) (h : '=' ∉ x) :
    (x ++ '=' :: y).takeWhile (fun c => c ≠ '=') = x := by
  induction x with
  | nil => simp [List.takeWhile]
  | cons a x ih =>
    have ha : a ≠ '=' := fun e => h (e ▸ List.mem_cons_self _ _)
    have hx : '=' ∉ x := fun hx => h (List.mem_cons_of_mem _ hx)
    have := ih hx
    simp only [List.cons_append, List.takeWhile, ha, ne_eq, not_false_eq_true, decide_True]
    exact congrArg (fun l => a :: l) this

theorem dropWhile_to_eq (x y : List Char) (h : '=' ∉ x) :
    (x ++ '=' :: y).dropWhile (fun c => c ≠ '=') = '=' :: y := by
  induction x with
  | nil => simp [List.dropWhile]
  | cons a x ih =>
    have ha : a ≠ '=' := fun e => h (e ▸ List.mem_cons_self _ _)
    have hx : '=' ∉ x := fun hx => h (List.mem_cons_of_mem _ hx)
    have := ih hx
    simp only [List.cons_append, List.dropWhile, ha, ne_eq, not_false_eq_true, decide_True]
    exact this

theorem entry_data (k v : String) : (k ++ "=" ++ v).data = k.data ++ '=' :: v.data := by
  simp [String.data_append]

/-- In an environment that ends with the entries of a map none of whose keys holds `=`,
each key of the map has the value that the map gives it. -/
theorem envLookup_last (pre : List String) (entries : List (String × String))
    (hkeys : ∀ kv ∈ entries, '=' ∉ kv.1.data)
    (hmap : ∀ k v v', (k, v) ∈ entries → (k, v') ∈ entries → v = v')
    (k v : String) (hkv : (k, v) ∈ entries) :
    envLookup (pre ++ entries.map (fun kv => kv.1 ++ "=" ++ kv.2)) k = some v := by
  have hp : ∀ kv ∈ entries,
      ((kv.1 ++ "=" ++ kv.2).data.contains '=' &&
        decide (envKey (kv.1 ++ "=" ++ kv.2) = k.data)) = true → kv = (k, v) := by
    intro kv hmem hpk
    simp only [Bool.and_eq_true, decide_eq_true_eq] at hpk
    have hk1 : kv.1 = k := by
      have := hpk.2
      unfold envKey at this
      rw [entry_data, takeWhile_to_eq _ _ (hkeys kv hmem)] at this
      exact String.ext this
    have hv : kv.2 = v := by
      apply hmap k kv.2 v _ hkv
      rw [← hk1]
      exact hmem
    exact Prod.ext hk1 hv
  have hself : ((k ++ "=" ++ v).data.contains '=' &&
      decide (envKey (k ++ "=" ++ v) = k.data)) = true := by
    simp only [Bool.and_eq_true, decide_eq_true_eq]
    constructor
    · rw [entry_data]; simp
    · unfold envKey
      rw [entry_data, takeWhile_to_eq _ _ (hkeys (k, v) hkv)]
  unfold envLookup
  rw [List.reverse_append, List.find?_append]
  have hfind : List.find? (fun e => e.data.contains '=' && decide (envKey e = k.data))
      (entries.map (fun kv => kv.1 ++ "=" ++ kv.2)).reverse = some (k ++ "=" ++ v) := by
    cases hf : List.find? (fun e => e.data.contains '=' && decide (envKey e = k.data))
        (entries.map (fun kv => kv.1 ++ "=" ++ kv.2)).reverse with
    | none =>
      exfalso
      rw [List.find?_eq_none] at hf
      have hmem : k ++ "=" ++ v ∈ (entries.map (fun kv => kv.1 ++ "=" ++ kv.2)).reverse := by
        rw [List.mem_reverse]
        exact List.mem_map.2 ⟨(k, v), hkv, rfl⟩
      exact hf _ hmem hself
    | some e =>
      have hpe := List.find?_some hf
      have hmem := List.mem_of_find?_eq_some hf
      rw [List.mem_reverse] at hmem
      obtain ⟨kv, hkvm, rfl⟩ := List.mem_map.1 hmem
      have := hp kv hkvm hpe
      rw [this]
  rw [hfind]
  change some (⟨((k ++ "=" ++ v).data.dropWhile (fun c => c ≠ '=')).tail⟩ : String) = some v
  congr 1
  apply String.ext
  show (List.dropWhile (fun c => c ≠ '=') (k ++ "=" ++ v).data).tail = v.data
  rw [entry_data, dropWhile_to_eq _ _ (hkeys (k, v) hkv)]
  rfl


/-! ## Locating the manifest -/

theorem findInEntries_first (d : DirHost) (root : String) (pre : List DirEntry) :
    ∀ (e : DirEntry) (post : List DirEntry),
      (∀ x ∈ pre, x.IsDir = true →
        d.stat (Join [Join [root, x.Name], "manifest.json"]) = false) →
      e.IsDir = true → d.stat (Join [Join [root, e.Name], "manifest.json"]) = true →
      findInEntries d root (pre ++ e :: post) = .ok (Join [root, e.Name]) := by
  induction pre with
  | nil =>
    intro e post _ hd hs
    simp [findInEntries, hd, hs]
  | cons x pre ih =>
    intro e post hpre hd hs
    have hx : (x.IsDir && d.stat (Join [Join [root, x.Name], "manifest.json"])) = false := by
      cases hxd : x.IsDir with
      | false => rfl
      | true => simp [hpre x (List.mem_cons_self _ _) hxd]
    simp only [List.cons_append, findInEntries, hx, Bool.false_eq_true, if_false]
    exact ih e post (fun y hy => hpre y (List.mem_cons_of_mem _ hy)) hd hs

theorem findInEntries_not_found (d : DirHost) (root : String) (entries : List DirEntry) :
    findInEntries d root entries = .error "manifest.json not found" ↔
      ∀ e ∈ entries, e.IsDir = true →
        d.stat (Join [Join [root, e.Name], "manifest.json"]) = false := by
  induction entries with
  | nil => simp [findInEntries]
  | cons x rest ih =>
    unfold findInEntries
    cases hxd : x.IsDir with
    | false =>
      simp only [Bool.false_and, Bool.false_eq_true, if_false, ih, List.mem_cons,
        forall_eq_or_imp, hxd, false_implies, true_and]
    | true =>
      cases hs : d.stat (Join [Join [root, x.Name], "manifest.json"]) with
      | false =>
        simp only [Bool.and_false, Bool.false_eq_true, if_false, ih, List.mem_cons,
          forall_eq_or_imp, hxd, hs, true_implies, true_and]
      | true =>
        simp only [Bool.and_self, if_true, List.mem_cons, forall_eq_or_imp, hxd, hs,
          true_implies]
        constructor
        · intro hc; cases hc
        · rintro ⟨hc, -⟩; exact absurd hc (by decide)

/-! ## The path of a request -/

theorem dropWhile_slash_none (l : List Char) (c : Char) (hc : c ≠ '/') :
    (c :: l).dropWhile (fun x => x = '/') = c :: l := by
  simp [List.dropWhile, hc]

/-- The segment that `pathSeg(path, 2)` takes from a path `/<first>/<name>/<rest>` is
`<rest>`. -/
theorem pathSeg_two (first name rest : String) (hf : '/' ∉ first.data)
    (hf0 : first ≠ "") (hn : '/' ∉ name.data) (hr : '/' ∉ rest.data) (hr0 : rest ≠ "") :
    pathSeg ("/" ++ first ++ "/" ++ name ++ "/" ++ rest) 2 = rest := by
  have hdata : ("/" ++ first ++ "/" ++ name ++ "/" ++ rest).data =
      '/' :: (first.data ++ '/' :: (name.data ++ '/' :: rest.data)) := by
    simp [String.data_append]
  obtain ⟨c, fs, hfc⟩ : ∃ c fs, first.data = c :: fs := by
    cases h : first.data with
    | nil => exact absurd (String.ext h) hf0
    | cons c fs => exact ⟨c, fs, rfl⟩
  have hc : c ≠ '/' := fun e => hf (by rw [hfc, e]; exact List.mem_cons_self _ _)
  obtain ⟨body, lst, hrl⟩ : ∃ body lst, rest.data = body ++ [lst] := by
    have hne : rest.data ≠ [] := fun h => hr0 (String.ext h)
    exact ⟨_, _, (List.dropLast_append_getLast hne).symm⟩
  have hl : lst ≠ '/' := fun e => hr (by rw [hrl, e]; simp)
  have htrim : trimSlashes ("/" ++ first ++ "/" ++ name ++ "/" ++ rest).data =
      first.data ++ '/' :: (name.data ++ '/' :: rest.data) := by
    unfold trimSlashes
    rw [hdata]
    have h1 : ('/' :: (first.data ++ '/' :: (name.data ++ '/' :: rest.data))).dropWhile
        (fun x => x = '/') = first.data ++ '/' :: (name.data ++ '/' :: rest.data) := by
      rw [hfc]
      simp [List.dropWhile, hc]
    rw [h1]
    have h2 : (first.data ++ '/' :: (name.data ++ '/' :: rest.data)).reverse =
        lst :: (first.data ++ '/' :: (name.data ++ '/' :: body)).reverse := by
      rw [hrl]; simp
    rw [h2, dropWhile_slash_none _ _ hl, ← h2, List.reverse_reverse]
  unfold pathSeg
  rw [htrim, splitSlash_append, splitSlash_append, splitSlash_of_slashFree _ hf,
    splitSlash_of_slashFree _ hn, splitSlash_of_slashFree _ hr]
  rfl

/-! ## The cold start -/

/-- When `startProcess` returns an error it has changed neither the map nor the table. -/
theorem startProcess_error_state (h : Host) (st : State) (key : String) (m : Module)
    (e : String) (he : (startProcess h st key m).2 = some e) :
    (startProcess h st key m).1.byName = st.byName ∧
      (startProcess h st key m).1.rows = st.rows := by
  unfold startProcess at he ⊢
  cases hm : m.Manifest with
  | none => simp [hm] at he
  | some mf =>
    simp only [hm] at he ⊢
    by_cases hen : mf.Entrypoint = ""
    · simp [hen] at he
    · simp only [hen, if_false] at he ⊢
      cases hs : h.stat st.fs (entryPath st m mf) with
      | false => simp
      | true =>
        simp only [hs, Bool.not_true, Bool.false_eq_true, if_false] at he ⊢
        cases hst : h.start (mkCmd h st m mf) with
        | error e' => simp
        | ok pid =>
          simp only [hst] at he
          by_cases hx : h.exitsDuringDelay pid = true <;> simp [hx] at he


/-! ## The install workers -/

theorem finishThen_spec (st : State) (t : Task) (err : Option String) (deferred : List FsOp) :
    (finishThen st t err deferred).2.state = (t.finish err).state ∧
      (finishThen st t err deferred).1.byName = st.byName ∧
      (finishThen st t err deferred).1.rows = st.rows := by
  unfold finishThen
  cases t.finish err <;> exact ⟨rfl, rfl, rfl⟩

theorem finish_error_last (t : Task) (e : String) :
    (t.finish (some e)).state.buf.getLast? =
      some { Text := "ERROR: " ++ e, Level := LvlError } ∧
    (t.finish (some e)).state.done = true := by
  unfold Task.finish
  rw [(finishSend_state _ _).1, (finishSend_state _ _).2, (finishBegin_buf _ _).1]
  exact ⟨by simp [errLines], (finishBegin_buf _ _).2.1⟩

theorem finalize_no_manifest (h : Host) (st : State) (src srcType srcURL : String)
    (t : Task) (hroot : h.mh.readFile (Join [src, "manifest.json"]) = none) :
    finalize h st src srcType srcURL t = (st, t, some ("manifest.json not found in " ++ src)) := by
  unfold finalize loadManifest
  simp only [hroot]

/-! ## The handlers of the module pages -/

theorem exitWatcher_dataDir (st : State) (name : String) :
    (exitWatcher st name).dataDir = st.dataDir := by
  unfold exitWatcher
  split <;> try rfl
  split <;> rfl

theorem runWatcher_dataDir (st : State) (pid : Nat) (name : String) :
    (runWatcher st pid name).dataDir = st.dataDir := by
  unfold runWatcher
  split
  · exact exitWatcher_dataDir _ _
  · rfl

theorem stopProcess_dataDir (h : Host) (st : State) (key : String) (m : Module) :
    (stopProcess h st key m).dataDir = st.dataDir := by
  unfold stopProcess
  cases hp : m.proc with
  | none => rfl
  | some cmd =>
    cases hq : cmd.Pid with
    | none => simp only [hq]
    | some pid =>
      simp only [hq]
      by_cases hw : h.watcherFirst pid = true
      · simp only [hw, if_true]
        exact runWatcher_dataDir _ _ _
      · simp only [hw]
        rfl

/-- `Deactivate` leaves the data directory of the registry as it is. -/
theorem Deactivate_dataDir (h : Host) (st : State) (name : String) :
    (Deactivate h st name).dataDir = st.dataDir := by
  unfold Deactivate
  cases mapGet st.byName name with
  | none => rfl
  | some m => exact stopProcess_dataDir h st name m

/-- Joining a cleaned path with the empty name gives the path itself. -/
theorem Join_clean_empty (q : List Char) :
    Join [⟨cleanChars q⟩, ""] = ⟨cleanChars q⟩ := by
  have hne : (⟨cleanChars q⟩ : String) ≠ "" := fun h =>
    cleanChars_ne_nil q (congrArg String.data h)
  unfold Join
  simp only [List.dropWhile_cons, hne, decide_False, if_false]
  show Clean ⟨joinSlash [cleanChars q, []]⟩ = ⟨cleanChars q⟩
  apply String.ext
  rw [Clean_data]
  show cleanChars (joinSlash [cleanChars q, []]) = cleanChars q
  have hj : joinSlash [cleanChars q, []] = cleanChars q ++ ['/'] := by
    simp [joinSlash]
  rw [hj]
  by_cases hroot : cleanChars q = ['/']
  · rw [hroot]; decide
  by_cases hdot : cleanChars q = ['.']
  · rw [hdot]; decide
  have := cleanChars_extend q [] (by simp) hroot hdot ['/'] (by
    rw [splitSlash_append]
    simp [splitSlash])
  simpa using this

/-- The directory of the module of the empty name is the modules directory. -/
theorem moduleDir_empty (st : State) : moduleDir st "" = modulesDir st := by
  obtain ⟨q, hq⟩ := Join_two_data st.dataDir "modules" (by decide)
  have hm : modulesDir st = ⟨cleanChars q⟩ := String.ext hq
  unfold moduleDir
  rw [hm]
  exact Join_clean_empty q

theorem stripLeading_longer (l : List Char) (c : Char) :
    stripLeading (l ++ [c]) l = none := by
  induction l with
  | nil => rfl
  | cons a t ih => simp [stripLeading, ih]

/-- No path is strictly inside itself. -/
theorem strictlyInside_self (d : String) : strictlyInside d d = false := by
  unfold strictlyInside
  by_cases hd : d.data = ['/']
  · simp [hd, stripLeading]
  · simp only [hd, if_false, stripLeading_longer]

/-- The segment that `pathSeg(path, 3)` takes from a path `/<a>/<b>/<c>/<rest>` is
`<rest>`. -/
theorem pathSeg_three (a b c rest : String) (ha : '/' ∉ a.data) (ha0 : a ≠ "")
    (hb : '/' ∉ b.data) (hc : '/' ∉ c.data) (hr : '/' ∉ rest.data) (hr0 : rest ≠ "") :
    pathSeg ("/" ++ a ++ "/" ++ b ++ "/" ++ c ++ "/" ++ rest) 3 = rest := by
  have hdata : ("/" ++ a ++ "/" ++ b ++ "/" ++ c ++ "/" ++ rest).data =
      '/' :: (a.data ++ '/' :: (b.data ++ '/' :: (c.data ++ '/' :: rest.data))) := by
    simp [String.data_append]
  obtain ⟨x, xs, hax⟩ : ∃ x xs, a.data = x :: xs := by
    cases h : a.data with
    | nil => exact absurd (String.ext h) ha0
    | cons x xs => exact ⟨x, xs, rfl⟩
  have hx : x ≠ '/' := fun e => ha (by rw [hax, e]; exact List.mem_cons_self _ _)
  obtain ⟨body, lst, hrl⟩ : ∃ body lst, rest.data = body ++ [lst] := by
    have hne : rest.data ≠ [] := fun h => hr0 (String.ext h)
    exact ⟨_, _, (List.dropLast_append_getLast hne).symm⟩
  have hl : lst ≠ '/' := fun e => hr (by rw [hrl, e]; simp)
  have htrim : trimSlashes ("/" ++ a ++ "/" ++ b ++ "/" ++ c ++ "/" ++ rest).data =
      a.data ++ '/' :: (b.data ++ '/' :: (c.data ++ '/' :: rest.data)) := by
    unfold trimSlashes
    rw [hdata]
    have h1 : ('/' :: (a.data ++ '/' :: (b.data ++ '/' :: (c.data ++ '/' :: rest.data)))).dropWhile
        (fun x => x = '/') = a.data ++ '/' :: (b.data ++ '/' :: (c.data ++ '/' :: rest.data)) := by
      rw [hax]
      simp [List.dropWhile, hx]
    rw [h1]
    have h2 : (a.data ++ '/' :: (b.data ++ '/' :: (c.data ++ '/' :: rest.data))).reverse =
        lst :: (a.data ++ '/' :: (b.data ++ '/' :: (c.data ++ '/' :: body))).reverse := by
      rw [hrl]; simp
    rw [h2, dropWhile_slash_none _ _ hl, ← h2, List.reverse_reverse]
  unfold pathSeg
  rw [htrim, splitSlash_append, splitSlash_append, splitSlash_append,
    splitSlash_of_slashFree _ ha, splitSlash_of_slashFree _ hb, splitSlash_of_slashFree _ hc,
    splitSlash_of_slashFree _ hr]
  rfl

/-- The effects of `Delete(name)`: those of `Deactivate(name)`, then the removal of
`moduleDir(name)`. -/
theorem Delete_fs (h : Host) (rmErr : List FsOp → String → Option String) (st : State)
    (name : String) :
    (Delete h rmErr st name).1.fs =
      (Deactivate h st name).fs ++ [.RemoveAll (moduleDir st name)] := by
  have e : (Delete h rmErr st name).1.fs = (Deactivate h st name).fs ++
      [.RemoveAll (Join [Join [(Deactivate h st name).dataDir, "modules"], name])] := rfl
  rw [e, Deactivate_dataDir]
  rfl

/-- A path that ends in `suf` has the suffix `suf`. -/
theorem HasSuffix_append (a suf : String) : HasSuffix (a ++ suf) suf = true := by
  unfold HasSuffix
  rw [String.data_append, List.reverse_append]
  exact List.isPrefixOf_iff_prefix.2 (List.prefix_append _ _)

/-- A path that ends in `/deactivate` does not end in `/activate`. -/
theorem not_HasSuffix_activate (a : String) :
    HasSuffix (a ++ "/deactivate") "/activate" = false := by
  unfold HasSuffix
  rw [String.data_append, List.reverse_append]
  simp [List.isPrefixOf]

/-- A path that ends in `/delete` ends neither in `/activate` nor in `/deactivate`. -/
theorem not_HasSuffix_delete (a : String) :
    HasSuffix (a ++ "/delete") "/activate" = false ∧
      HasSuffix (a ++ "/delete") "/deactivate" = false := by
  unfold HasSuffix
  rw [String.data_append, List.reverse_append]
  constructor <;> simp [List.isPrefixOf]

/-- The segment that `pathSeg(path, 2)` takes from `/modules/<name><action>`, the action
being a separator and a word, is the word. -/
theorem pathSeg_modules (name word : String) (hn : '/' ∉ name.data) (hw : '/' ∉ word.data)
    (hw0 : word ≠ "") : pathSeg ("/modules/" ++ name ++ ("/" ++ word)) 2 = word := by
  have e : "/modules/" ++ name ++ ("/" ++ word) =
      "/" ++ "modules" ++ "/" ++ name ++ "/" ++ word := by
    apply String.ext
    simp [String.data_append]
  rw [e]
  exact pathSeg_two "modules" name word (by decide) (by decide) hn hw hw0

/-- The segment that `pathSeg(path, 3)` takes from the address `streamURL id`. -/
theorem pathSeg_streamURL (id : String) (hid : '/' ∉ id.data) :
    pathSeg (streamURL id) 3 = "stream" := by
  have e : streamURL id = "/" ++ "modules" ++ "/" ++ "install" ++ "/" ++ id ++ "/" ++ "stream" := by
    apply String.ext
    simp [streamURL, String.data_append]
  rw [e]
  exact pathSeg_three "modules" "install" id "stream" (by decide) (by decide) (by decide) hid
    (by decide) (by decide)


/-! ## Claims about the manifest loader -/

theorem not_validName_of_upper (s : String) (h : ∃ c ∈ s.data, 'A' ≤ c ∧ c ≤ 'Z') :
    ¬ validName s := by
  rintro ⟨-, -, c, rest, hs, hc, hrest⟩
  obtain ⟨d, hd, hA, hZ⟩ := h
  rw [hs] at hd
  rcases List.mem_cons.1 hd with rfl | hd
  · rcases hc with ⟨h1, -⟩ | ⟨-, h2⟩
    · exact absurd (le_trans h1 hZ) (by decide)
    · exact absurd (le_trans hA h2) (by decide)
  · rcases hrest d hd with ⟨h1, -⟩ | ⟨-, h2⟩ | rfl | rfl
    · exact absurd (le_trans h1 hZ) (by decide)
    · exact absurd (le_trans hA h2) (by decide)
    · exact absurd hZ (by decide)
    · exact absurd hA (by decide)

/-- C1: `nameRe` accepts a string exactly when it has 2 to 64 characters, the first in
`[a-z0-9]` and every later one in `[a-z0-9_-]`; so it rejects a string with an uppercase
letter, with a leading hyphen or underscore, of length 1 and of length 65. (Every accepted
character is ASCII, so the length in characters is the length in bytes.) -/
theorem nameRe_grammar :
    (∀ s : String, nameRe.MatchString s = true ↔
      (2 ≤ s.length ∧ s.length ≤ 64 ∧
        ∃ c rest, s.data = c :: rest ∧ isNameStart c ∧ ∀ d ∈ rest, isNameCont d)) ∧
    (∀ s : String, (∃ c ∈ s.data, 'A' ≤ c ∧ c ≤ 'Z') → nameRe.MatchString s = false) ∧
    (∀ s : String, (s.data.head? = some '-' ∨ s.data.head? = some '_') →
      nameRe.MatchString s = false) ∧
    (∀ s : String, s.length = 1 → nameRe.MatchString s = false) ∧
    (∀ s : String, s.length = 65 → nameRe.MatchString s = false) := by
  have hfalse : ∀ s : String, ¬ validName s → nameRe.MatchString s = false := by
    intro s hs
    cases hm : nameRe.MatchString s with
    | false => rfl
    | true => exact absurd ((nameRe_MatchString_iff s).1 hm) hs
  refine ⟨nameRe_MatchString_iff, ?_, ?_, ?_, ?_⟩
  · intro s h
    exact hfalse s (not_validName_of_upper s h)
  · intro s h
    apply hfalse
    rintro ⟨-, -, c, rest, hs, hc, -⟩
    rw [hs] at h
    simp only [List.head?_cons, Option.some.injEq] at h
    rcases h with rfl | rfl
    · exact absurd hc (by decide)
    · exact absurd hc (by decide)
  · intro s h
    apply hfalse
    rintro ⟨h2, -, -⟩
    omega
  · intro s h
    apply hfalse
    rintro ⟨-, h64, -⟩
    omega

/-- The grammar of C1 at work: `demo-1` is accepted; `Demo`, `-demo`, `_demo`, `a` and a
name of 65 characters are rejected. -/
theorem nameRe_grammar_witness :
    nameRe.MatchString "demo-1" = true ∧ nameRe.MatchString "Demo" = false ∧
    nameRe.MatchString "-demo" = false ∧ nameRe.MatchString "_demo" = false ∧
    nameRe.MatchString "a" = false ∧
    nameRe.MatchString ⟨List.replicate 65 'a'⟩ = false :=
  ⟨(nameRe_grammar.1 "demo-1").2
      ⟨by decide, by decide, 'd', ['e', 'm', 'o', '-', '1'], rfl, by decide, by decide⟩,
    nameRe_grammar.2.1 "Demo" ⟨'D', by decide, by decide, by decide⟩,
    nameRe_grammar.2.2.1 "-demo" (Or.inl rfl),
    nameRe_grammar.2.2.1 "_demo" (Or.inr rfl),
    nameRe_grammar.2.2.2.1 "a" rfl,
    nameRe_grammar.2.2.2.2 ⟨List.replicate 65 'a'⟩ (by simp [String.length])⟩

/-- C2: once `manifest.json` has been read and parsed, `loadManifest` returns the manifest
exactly when the name matches the grammar and the version is not empty; otherwise it
returns no manifest and an error whose message begins with `name` when the name is bad,
and is `version is required` when only the version is empty. -/
theorem loadManifest_validation (h : ManifestHost) (dir data : String) (m : Manifest)
    (hread : h.readFile (Join [dir, "manifest.json"]) = some data)
    (hparse : h.unmarshal data = .ok m) :
    (loadManifest h dir = .ok m ↔ (nameRe.MatchString m.Name = true ∧ m.Version ≠ "")) ∧
    (nameRe.MatchString m.Name = false →
      loadManifest h dir =
        .error ("name must match " ++ nameReString ++ ", got " ++ h.quote m.Name)) ∧
    (nameRe.MatchString m.Name = true → m.Version = "" →
      loadManifest h dir = .error "version is required") ∧
    (∀ m', loadManifest h dir = .ok m' → m' = m) := by
  unfold loadManifest
  rw [hread]
  simp only [hparse]
  cases hn : nameRe.MatchString m.Name <;> by_cases hv : m.Version = "" <;> simp [hn, hv]


/-- C2 on a concrete source tree: the manifest of `demoManifestHost` loads. -/
theorem loadManifest_validation_witness :
    loadManifest demoManifestHost "/src" = .ok demoManifest :=
  (loadManifest_validation demoManifestHost "/src" "demo" demoManifest (by decide) rfl).1.2
    ⟨by decide, by decide⟩


/-! ## Claims about archive extraction -/

theorem unzipFiles_effects (h : ZipHost) (dst : String)
    (hlast : lastElem (Clean dst) ≠ dotdot) (files : List ZipFile) :
    ∀ ops : List FsOp, ∃ new, (unzipFiles h dst files ops).1 = ops ++ new ∧
      ∀ op ∈ new, strictlyInside (Clean dst) op.path = true ∨
        op = .MkdirAll (Clean dst) 0o755 := by
  induction files with
  | nil => intro ops; exact ⟨[], by simp [unzipFiles], by simp⟩
  | cons f rest ih =>
    intro ops
    unfold unzipFiles
    by_cases hg : unzipGuard dst f = true
    · have hin := unzipGuard_inside dst f hlast hg
      have hdir := unzipGuard_dir dst f hlast hg
      have hparent : strictlyInside (Clean dst) (Dir (unzipPath dst f)) = true ∨
          FsOp.MkdirAll (Dir (unzipPath dst f)) 0o755 = .MkdirAll (Clean dst) 0o755 := by
        rcases hdir with hd | hd
        · right; rw [hd]
        · left; exact hd
      simp only [hg, Bool.not_true, Bool.false_eq_true, if_false]
      by_cases hd : f.IsDir = true
      · simp only [hd, if_true]
        obtain ⟨new, hnew, hall⟩ := ih (ops ++ [.MkdirAll (unzipPath dst f) f.Mode])
        refine ⟨.MkdirAll (unzipPath dst f) f.Mode :: new, by rw [hnew]; simp, ?_⟩
        intro op hop
        rcases List.mem_cons.1 hop with rfl | hop
        · left; exact hin
        · exact hall op hop
      · simp only [hd, if_false, Bool.false_eq_true]
        cases hopen : h.openFileErr (ops ++ [.MkdirAll (Dir (unzipPath dst f)) 0o755])
            (unzipPath dst f) with
        | some err =>
          refine ⟨[.MkdirAll (Dir (unzipPath dst f)) 0o755], rfl, ?_⟩
          intro op hop
          rw [List.mem_singleton] at hop
          subst hop
          exact hparent
        | none =>
          cases hdata : f.Data with
          | none =>
            refine ⟨[.MkdirAll (Dir (unzipPath dst f)) 0o755,
              .OpenFile (unzipPath dst f) f.Mode], by simp, ?_⟩
            intro op hop
            simp only [List.mem_cons, List.mem_singleton, List.not_mem_nil, or_false] at hop
            rcases hop with rfl | rfl
            · exact hparent
            · left; exact hin
          | some data =>
            obtain ⟨new, hnew, hall⟩ := ih (ops ++ [.MkdirAll (Dir (unzipPath dst f)) 0o755] ++
              [.OpenFile (unzipPath dst f) f.Mode, .Write (unzipPath dst f) data])
            refine ⟨.MkdirAll (Dir (unzipPath dst f)) 0o755 ::
              .OpenFile (unzipPath dst f) f.Mode :: .Write (unzipPath dst f) data :: new,
              by rw [hnew]; simp, ?_⟩
            intro op hop
            simp only [List.mem_cons] at hop
            rcases hop with rfl | rfl | rfl | hop
            · exact hparent
            · left; exact hin
            · left; exact hin
            · exact hall op hop
    · simp only [hg, Bool.not_false, if_true]
      exact ih ops

theorem unzipFiles_skip (h : ZipHost) (dst : String) (f : ZipFile)
    (hg : unzipGuard dst f = false) (pre rest : List ZipFile) :
    ∀ ops : List FsOp,
      unzipFiles h dst (pre ++ f :: rest) ops = unzipFiles h dst (pre ++ rest) ops := by
  induction pre with
  | nil => intro ops; simp [unzipFiles, hg]
  | cons g pre ih =>
    intro ops
    simp only [List.cons_append]
    unfold unzipFiles
    simp only [ih]

/-- C3, as amended: when the cleaned destination does not end in the element `..` (every
absolute destination, and every destination `zipPath + "_dir"` that the installer passes),
every effect of `unzip` after the creation of the destination itself is on a proper
descendant of the cleaned destination, or is `MkdirAll` of the cleaned destination, which
exists by then; and an entry whose resolved path is not a proper descendant is skipped: the
call goes on as if the entry were not in the archive, with no error of its own. -/
theorem unzip_contained (h : ZipHost) (src dst : String)
    (hlast : lastElem (Clean dst) ≠ dotdot) :
    (∀ op ∈ (unzip h src dst).1.tail,
      strictlyInside (Clean dst) op.path = true ∨ op = .MkdirAll (Clean dst) 0o755) ∧
    (∀ (pre rest : List ZipFile) (f : ZipFile),
      h.openReader src = .ok (pre ++ f :: rest) →
      strictlyInside (Clean dst) (unzipPath dst f) = false →
      unzip h src dst = unzipFiles h dst (pre ++ rest) [.MkdirAll dst 0o755]) := by
  constructor
  · unfold unzip
    cases hr : h.openReader src with
    | error e => simp
    | ok files =>
      obtain ⟨new, hnew, hall⟩ := unzipFiles_effects h dst hlast files [.MkdirAll dst 0o755]
      simp only [hnew, List.singleton_append, List.tail_cons]
      exact hall
  · intro pre rest f hr hout
    have hg : unzipGuard dst f = false := by
      cases hg : unzipGuard dst f with
      | false => rfl
      | true =>
        rw [unzipGuard_inside dst f hlast hg] at hout
        exact absurd hout (by decide)
    unfold unzip
    rw [hr]
    exact unzipFiles_skip h dst f hg pre rest _

/-- C3 at work on an upload: in `/tmp/hf_1.zip_dir` the file `a/b` is written inside the
destination and the entry `../x` is skipped. -/
theorem unzip_contained_witness :
    lastElem (Clean "/tmp/hf_1.zip_dir") ≠ dotdot ∧
    (strictlyInside (Clean "/tmp/hf_1.zip_dir")
        (FsOp.OpenFile "/tmp/hf_1.zip_dir/a/b" 0o644).path = true ∨
      FsOp.OpenFile "/tmp/hf_1.zip_dir/a/b" 0o644 =
        .MkdirAll (Clean "/tmp/hf_1.zip_dir") 0o755) ∧
    unzip (listZipHost [{ Name := "a/b" }, { Name := "../x" }]) "/tmp/hf_1.zip"
        "/tmp/hf_1.zip_dir" =
      unzipFiles (listZipHost [{ Name := "a/b" }, { Name := "../x" }]) "/tmp/hf_1.zip_dir"
        ([{ Name := "a/b" }] ++ []) [.MkdirAll "/tmp/hf_1.zip_dir" 0o755] :=
  ⟨by decide,
    (unzip_contained (listZipHost [{ Name := "a/b" }, { Name := "../x" }]) "/tmp/hf_1.zip"
      "/tmp/hf_1.zip_dir" (by decide)).1 _ (by decide),
    (unzip_contained (listZipHost [{ Name := "a/b" }, { Name := "../x" }]) "/tmp/hf_1.zip"
      "/tmp/hf_1.zip_dir" (by decide)).2 [{ Name := "a/b" }] [] { Name := "../x" } rfl
      (by decide)⟩

/-- C3 as stated fails for the destination `..`: the entry `../x` resolves to `../../x`,
which begins with `../` and so passes the guard; `unzip` writes that file, which is not
inside `..`, and returns no error. -/
theorem unzip_escapes_dotdot :
    unzipPath ".." { Name := "../x" } = "../../x" ∧
    strictlyInside (Clean "..") "../../x" = false ∧
    FsOp.OpenFile "../../x" 0o644 ∈
      (unzip (listZipHost [{ Name := "../x" }]) "up.zip" "..").1.tail ∧
    (unzip (listZipHost [{ Name := "../x" }]) "up.zip" "..").2 = .ok := by
  decide


/-! ## Claims about the task and its event stream -/

/-- C4: the code at the failing input. A subscriber attaches before completion, once the
lines `pre` have been logged; the worker logs the lines `post` and calls `finish`, fewer
than 256 lines in all, so that nothing is dropped from the channel and `finish` returns.
The subscriber is sent the lines `pre` twice, from the buffer and again from the channel,
then the lines `post` and the final line; a subscriber that attaches after completion is
sent every line once, on a failure the error line without the marks, and a line marked
done. When a line was logged before the subscriber attached, or the install failed, the
two streams differ. -/
theorem stream_early_ne_late (id : String) (pre post : List (String × String))
    (err : Option String) (hlen : pre.length + post.length < chanCap)
    (hne : pre ≠ [] ∨ err ≠ none) :
    ∃ t2, (((newTask id).logAll pre).logAll post).finish err = .returns t2 ∧
      (Sub.drain (t2.ch.length + 1) t2
          (Sub.check ((newTask id).logAll pre) (Sub.replay ((newTask id).logAll pre) {}))).2 =
        ⟨.returned, (pre.map mkLine).map Frame.data ++
          ((pre ++ post).map mkLine).map Frame.data ++ [Frame.data (finalLine err)]⟩ ∧
      t2.Stream.2 = ⟨.returned, ((pre ++ post).map mkLine ++ errLines err).map Frame.data ++
        [Frame.data { Done := true }]⟩ ∧
      (Sub.drain (t2.ch.length + 1) t2
          (Sub.check ((newTask id).logAll pre) (Sub.replay ((newTask id).logAll pre) {}))).2 ≠
        t2.Stream.2 := by
  obtain ⟨a1, a2, a3, a4⟩ := logAll_room pre (newTask id) rfl
    (by simp only [newTask, List.length_nil, zero_add]; omega)
  have a1 : ((newTask id).logAll pre).buf = pre.map mkLine := a1
  have a2 : ((newTask id).logAll pre).ch = pre.map mkLine := a2
  have a4 : ((newTask id).logAll pre).done = false := a4
  obtain ⟨b1, b2, b3, b4⟩ := logAll_room post ((newTask id).logAll pre) a3
    (by rw [a2, List.length_map]; omega)
  rw [a1, ← List.map_append] at b1
  rw [a2, ← List.map_append] at b2
  rw [a4] at b4
  obtain ⟨c1, c2, c3, c4⟩ := finishBegin_buf (((newTask id).logAll pre).logAll post) err
  rw [b1] at c1
  rw [b2] at c3
  rw [b3] at c4
  obtain ⟨tb, htb⟩ : ∃ tb, tb = (((newTask id).logAll pre).logAll post).finishBegin err :=
    ⟨_, rfl⟩
  rw [← htb] at c1 c2 c3 c4
  have hroom : tb.ch.length < chanCap := by
    rw [c3, List.length_map, List.length_append]
    exact hlen
  have hfin : (((newTask id).logAll pre).logAll post).finish err = .returns
      { tb with ch := tb.ch ++ [finalLine err], closed := true } := by
    unfold Task.finish
    rw [← htb]
    unfold Task.finishSend
    simp [c4, hroom]
  have hfd : (finalLine err).Done = true := by cases err <;> rfl
  have hs : Sub.check ((newTask id).logAll pre) (Sub.replay ((newTask id).logAll pre) {}) =
      ⟨.live, (pre.map mkLine).map Frame.data⟩ := by
    unfold Sub.replay Sub.check
    simp [a4, a1]
  have hearly : (Sub.drain
      (({ tb with ch := tb.ch ++ [finalLine err], closed := true } : Task).ch.length + 1)
      { tb with ch := tb.ch ++ [finalLine err], closed := true }
      (Sub.check ((newTask id).logAll pre) (Sub.replay ((newTask id).logAll pre) {}))).2 =
      ⟨.returned, (pre.map mkLine).map Frame.data ++
        ((pre ++ post).map mkLine).map Frame.data ++ [Frame.data (finalLine err)]⟩ := by
    rw [hs, drain_final ((pre ++ post).map mkLine) _ _ _ (finalLine err) rfl
      (by intro l hl; obtain ⟨x, -, rfl⟩ := List.mem_map.1 hl; rfl)
      (by show tb.ch ++ _ = _; rw [c3]) hfd
      (by show _ ≤ (tb.ch ++ _).length + 1; rw [c3]; simp)]
    simp
  have hlate : (Task.Stream { tb with ch := tb.ch ++ [finalLine err], closed := true }).2 =
      ⟨.returned, ((pre ++ post).map mkLine ++ errLines err).map Frame.data ++
        [Frame.data { Done := true }]⟩ := by
    rw [Stream_done { tb with ch := tb.ch ++ [finalLine err], closed := true } c2]
    show (⟨SubState.returned, tb.buf.map Frame.data ++ _⟩ : Sub) = _
    rw [c1]
  refine ⟨_, hfin, hearly, hlate, ?_⟩
  rw [hearly, hlate]
  intro heq
  have hsent := congrArg Sub.sent heq
  simp only at hsent
  cases err with
  | none =>
    have hl := congrArg List.length hsent
    simp only [errLines, List.append_nil, List.length_append, List.length_map,
      List.length_singleton] at hl
    have hp : pre = [] := List.length_eq_zero.1 (by omega)
    rcases hne with h | h
    · exact h hp
    · exact h rfl
  | some e =>
    have hl := congrArg List.getLast? hsent
    simp [finalLine] at hl

/-- C4 at the failing input itself: one line is logged, the subscriber attaches, the install
succeeds. The early subscriber is sent the line twice. -/
theorem stream_early_ne_late_witness :
    ([("info", "a")] : List (String × String)).length +
      ([] : List (String × String)).length < chanCap ∧
    (([("info", "a")] : List (String × String)) ≠ [] ∨ (none : Option String) ≠ none) ∧
    ∃ t2, (((newTask "1").logAll [("info", "a")]).logAll []).finish none = .returns t2 ∧
      (Sub.drain (t2.ch.length + 1) t2
          (Sub.check ((newTask "1").logAll [("info", "a")])
            (Sub.replay ((newTask "1").logAll [("info", "a")]) {}))).2 =
        ⟨.returned, (([("info", "a")] : List (String × String)).map mkLine).map Frame.data ++
          (([("info", "a")] ++ []).map mkLine).map Frame.data ++
          [Frame.data (finalLine none)]⟩ ∧
      t2.Stream.2 = ⟨.returned, (([("info", "a")] ++ []).map mkLine ++ errLines none).map
        Frame.data ++ [Frame.data { Done := true }]⟩ ∧
      (Sub.drain (t2.ch.length + 1) t2
          (Sub.check ((newTask "1").logAll [("info", "a")])
            (Sub.replay ((newTask "1").logAll [("info", "a")]) {}))).2 ≠ t2.Stream.2 :=
  ⟨by decide, Or.inl (by decide),
    stream_early_ne_late "1" [("info", "a")] [] none (by decide) (Or.inl (by decide))⟩

/-- C5: the code at the failing input. Whatever was logged, once `finish` has been called
with an error a subscriber that attaches afterwards is sent, last, the line
`{done: true}` with `error` false and an empty text, although the install failed. -/
theorem late_final_line_unmarked (id : String) (lines : List (String × String))
    (e : String) :
    (((newTask id).logAll lines).finish (some e)).state.Stream.2.sent.getLast? =
      some (.data { Text := "", Level := "", Done := true, Error := false }) := by
  have hd : (((newTask id).logAll lines).finish (some e)).state.done = true := by
    unfold Task.finish
    rw [(finishSend_state _ _).2]
    exact (finishBegin_buf _ _).2.1
  rw [Stream_done _ hd]
  simp

/-- C6: a subscriber that attaches once `finish` has marked the task done (whether
`finish` has returned or still waits on the channel) is sent every line appended to the
buffer, in the order appended and each once: the logged lines, dropped from the channel or
not, and on a failure the error line; then one line marked done, the only one; then
`Stream` returns. -/
theorem late_subscriber_replay (id : String) (lines : List (String × String))
    (err : Option String) :
    (((newTask id).logAll lines).finish err).state.buf = lines.map mkLine ++ errLines err ∧
    (((newTask id).logAll lines).finish err).state.Stream.2 =
      ⟨.returned, (lines.map mkLine ++ errLines err).map Frame.data ++
        [Frame.data { Done := true }]⟩ ∧
    (∀ l ∈ lines.map mkLine ++ errLines err, l.Done = false) := by
  have hb : (((newTask id).logAll lines).finish err).state.buf =
      lines.map mkLine ++ errLines err := by
    unfold Task.finish
    rw [(finishSend_state _ _).1, (finishBegin_buf _ _).1, logAll_buf]
    simp [newTask]
  have hd : (((newTask id).logAll lines).finish err).state.done = true := by
    unfold Task.finish
    rw [(finishSend_state _ _).2]
    exact (finishBegin_buf _ _).2.1
  refine ⟨hb, ?_, ?_⟩
  · rw [Stream_done _ hd, hb]
  · intro l hl
    rcases List.mem_append.1 hl with hl | hl
    · obtain ⟨x, -, rfl⟩ := List.mem_map.1 hl
      rfl
    · cases err with
      | none => simp [errLines] at hl
      | some e => simp only [errLines, List.mem_singleton] at hl; rw [hl]

/-- C7: the code at the failing input. With no subscriber, once 256 lines or more have
been logged the channel is full, and `finish`, whose send is not guarded by a `select`,
cannot return: it waits, the task already marked done. -/
theorem finish_blocks_when_full (id : String) (lines : List (String × String))
    (err : Option String) (hfull : chanCap ≤ lines.length) :
    ((newTask id).logAll lines).finish err =
      .blocks (((newTask id).logAll lines).finishBegin err) := by
  obtain ⟨h1, -, h3⟩ := logAll_open lines (newTask id) rfl (by simp [newTask])
  have hlen : ((newTask id).logAll lines).ch.length = chanCap := by
    rw [h3]
    simp only [newTask, List.length_nil, zero_add]
    omega
  obtain ⟨-, -, g3, g4⟩ := finishBegin_buf ((newTask id).logAll lines) err
  unfold Task.finish Task.finishSend
  simp [g3, g4, h1, hlen]

/-- C7 at the failing input itself: 256 lines, no subscriber, a successful install. -/
theorem finish_blocks_when_full_witness :
    chanCap ≤ (List.replicate 256 ("info", "x")).length ∧
    ((newTask "1").logAll (List.replicate 256 ("info", "x"))).finish none =
      .blocks (((newTask "1").logAll (List.replicate 256 ("info", "x"))).finishBegin none) :=
  ⟨le_of_eq (by rw [List.length_replicate]; rfl),
    finish_blocks_when_full "1" _ none (le_of_eq (by rw [List.length_replicate]; rfl))⟩


/-! ## Claims about activation and registration -/

theorem hasEntrypoint_iff (m : Module) :
    hasEntrypoint m = true ↔ ∃ mf, m.Manifest = some mf ∧ mf.Entrypoint ≠ "" := by
  unfold hasEntrypoint
  cases m.Manifest with
  | none => simp
  | some mf => simp

/-- C8: `Activate(name)` returns an error exactly when the name is unknown, or the manifest
declares an entrypoint and the start fails (the entrypoint is missing or the launch is
refused). For an unknown name the state is unchanged; on a start failure the module gets
the status `error` and the message of the error returned; otherwise it gets the status
`active` and an empty error message; the other modules are unchanged in every case. The
module is stored under its own name, as `register` and `LoadFromDB` store it. -/
theorem Activate_spec (h : Host) (st : State) (name : String)
    (hkey : ∀ m, mapGet st.byName name = some m → m.Name = name) :
    ((Activate h st name).2 ≠ none ↔
      (mapGet st.byName name = none ∨
        ∃ m mf, mapGet st.byName name = some m ∧ m.Manifest = some mf ∧
          mf.Entrypoint ≠ "" ∧
          (h.stat st.fs (entryPath st m mf) = false ∨
            ∃ e, h.start (mkCmd h st m mf) = .error e))) ∧
    (mapGet st.byName name = none → (Activate h st name).1 = st) ∧
    (∀ m e, mapGet st.byName name = some m → (Activate h st name).2 = some e →
      ∃ m', mapGet (Activate h st name).1.byName name = some m' ∧
        m'.Status = "error" ∧ m'.ErrorLog = e) ∧
    (∀ m, mapGet st.byName name = some m → (Activate h st name).2 = none →
      ∃ m', mapGet (Activate h st name).1.byName name = some m' ∧
        m'.Status = "active" ∧ m'.ErrorLog = "") ∧
    (∀ n, n ≠ name → mapGet (Activate h st name).1.byName n = mapGet st.byName n) := by
  unfold Activate
  cases hg : mapGet st.byName name with
  | none => simp
  | some m =>
    have hname : m.Name = name := hkey m hg
    simp only
    cases hent : hasEntrypoint m with
    | false =>
      have hno : ¬ ∃ mf, m.Manifest = some mf ∧ mf.Entrypoint ≠ "" := by
        rw [← hasEntrypoint_iff, hent]; simp
      simp only [Bool.false_eq_true, if_false, setActive, mapGet_mapAdjust, if_true, hg,
        Option.map_some']
      refine ⟨?_, by simp, by simp, ?_, ?_⟩
      · constructor
        · intro hc; exact absurd rfl hc
        · rintro (hc | ⟨m1, mf, h1, h2, h3, -⟩)
          · simp at hc
          · rw [Option.some.inj h1] at hno
            exact absurd ⟨mf, h2, h3⟩ hno
      · intro m1 _ _
        exact ⟨_, rfl, rfl, rfl⟩
      · intro n hn
        simp [hn]
    | true =>
      obtain ⟨mf, hmf, hentry⟩ := (hasEntrypoint_iff m).1 hent
      obtain ⟨hsome, hframe⟩ := startProcess_frame h st name m
      obtain ⟨herr, -, -⟩ := startProcess_error h st name m mf hmf hentry
      have hat : ∃ m0, mapGet (startProcess h st name m).1.byName name = some m0 := by
        have := hsome name
        rw [hg] at this
        exact Option.isSome_iff_exists.1 this
      obtain ⟨m0, hm0⟩ := hat
      simp only [if_true]
      rcases hr : startProcess h st name m with ⟨st', eo⟩
      rw [hr] at herr hframe hm0
      simp only at herr hframe hm0
      cases eo with
      | some err =>
        simp only [mapGet_mapAdjust, if_true, hm0, Option.map_some']
        refine ⟨?_, by simp, ?_, by simp, ?_⟩
        · constructor
          · intro _
            right
            exact ⟨m, mf, rfl, hmf, hentry, herr.1 (by simp)⟩
          · intro _; simp
        · intro m1 e _ he
          simp only [Option.some.injEq] at he
          exact ⟨_, rfl, rfl, he⟩
        · intro n hn
          simp only [hn, if_false]
          exact hframe n hn (by rw [hname]; exact hn)
      | none =>
        simp only [setActive, mapGet_mapAdjust, if_true, hm0, Option.map_some']
        refine ⟨?_, by simp, by simp, ?_, ?_⟩
        · constructor
          · intro hc; exact absurd rfl hc
          · rintro (hc | ⟨m1, mf1, h1, h2, h3, h4⟩)
            · simp at hc
            · exfalso
              have e1 : m1 = m := (Option.some.inj h1).symm
              subst e1
              have e2 : mf1 = mf := Option.some.inj (h2.symm.trans hmf)
              subst e2
              exact (herr.2 h4) rfl
        · intro m1 _ _
          exact ⟨_, rfl, rfl, rfl⟩
        · intro n hn
          simp only [hn, if_false]
          exact hframe n hn (by rw [hname]; exact hn)

/-- C8 on the registry `demoState`: activating `demo` on `demoHost` makes it active. -/
theorem Activate_spec_witness :
    (∀ m, mapGet demoState.byName "demo" = some m → m.Name = "demo") ∧
    ∃ m', mapGet (Activate demoHost demoState "demo").1.byName "demo" = some m' ∧
      m'.Status = "active" ∧ m'.ErrorLog = "" :=
  ⟨by intro m hm; simp only [demoState, mapGet, if_true, Option.some.injEq] at hm; rw [← hm]; rfl,
    (Activate_spec demoHost demoState "demo"
      (by intro m hm; simp only [demoState, mapGet, if_true, Option.some.injEq] at hm
          rw [← hm]; rfl)).2.2.2.1 demoModule rfl (by decide)⟩

/-- C9: the code at the failing input. An inactive module with an entrypoint whose process
is launched and exits during the delay, its exit watcher running before `startProcess`
returns: the watcher finds the status `inactive`, not `active`, and does nothing;
`startProcess` returns no error; `Activate` returns no error and leaves the module
`active`, in memory and in the database, with a process handle. -/
theorem Activate_early_exit (h : Host) (st : State) (name : String) (m : Module)
    (mf : Manifest) (pid : Nat)
    (hg : mapGet st.byName name = some m) (hname : m.Name = name)
    (hstatus : m.Status = "inactive") (hmf : m.Manifest = some mf)
    (hentry : mf.Entrypoint ≠ "")
    (hstat : h.stat st.fs (entryPath st m mf) = true)
    (hstart : h.start (mkCmd h st m mf) = .ok pid)
    (hexit : h.exitsDuringDelay pid = true) :
    (Activate h st name).2 = none ∧
    mapGet (Activate h st name).1.byName name =
      some { m with Status := "active", ErrorLog := "",
                    proc := some { mkCmd h st m mf with Pid := some pid } } ∧
    (Activate h st name).1.rows = dbSetStatus st.rows name "active" "" := by
  have hent : hasEntrypoint m = true := (hasEntrypoint_iff m).2 ⟨mf, hmf, hentry⟩
  have hsp : startProcess h st name m =
      ({ st with
          fs := startFs h st m mf
          procs := st.procs ++ [.Start { mkCmd h st m mf with Pid := some pid }]
          byName := mapAdjust st.byName name (fun x =>
            { x with proc := some { mkCmd h st m mf with Pid := some pid } }) }, none) := by
    unfold startProcess
    simp only [hmf, hentry, if_false, hstat, Bool.not_true, Bool.false_eq_true, hstart, hexit,
      if_true]
    unfold exitWatcher
    simp only [hname, mapGet_mapAdjust, if_true, hg, Option.map_some', hstatus]
    simp
  unfold Activate
  simp only [hg, hent, if_true, hsp, setActive, mapGet_mapAdjust, Option.map_some']
  simp

/-- C9 at the failing input itself: on `demoHost` the process of `demo` exits during the
delay, and `Activate` reports success and leaves the module active. -/
theorem Activate_early_exit_witness :
    demoHost.exitsDuringDelay 7 = true ∧
    (Activate demoHost demoState "demo").2 = none ∧
    mapGet (Activate demoHost demoState "demo").1.byName "demo" =
      some { demoModule with
        Status := "active", ErrorLog := "",
        proc := some { mkCmd demoHost demoState demoModule demoManifest with Pid := some 7 } } :=
  ⟨rfl,
    (Activate_early_exit demoHost demoState "demo" demoModule demoManifest 7 rfl rfl rfl rfl
      (by decide) (by decide) rfl rfl).1,
    (Activate_early_exit demoHost demoState "demo" demoModule demoManifest 7 rfl rfl rfl rfl
      (by decide) (by decide) rfl rfl).2.1⟩

/-- C10: the code at the failing input. After every call of `finalize` that returns no
error, the row of the module has the status `inactive`, but the module that `Get` returns
has the empty status: `finalize` builds the module without a status and `register` stores
it as it is. -/
theorem finalize_status_empty (h : Host) (st : State) (src srcType srcURL : String)
    (t : Task) (mf : Manifest) (hload : loadManifest h.mh src = .ok mf)
    (hok : (finalize h st src srcType srcURL t).2.2 = none) :
    (∃ m', Get (finalize h st src srcType srcURL t).1 mf.Name = some m' ∧
      m'.Status = "" ∧ m'.Status ≠ "inactive") ∧
    (∃ row, dbGet (finalize h st src srcType srcURL t).1.rows mf.Name = some row ∧
      row.status = "inactive") := by
  obtain ⟨st', t', heq⟩ := finalize_ok h st src srcType srcURL t mf hload hok
  rw [heq]
  obtain ⟨-, ⟨m', hm', hs⟩, hrow⟩ := finalizeRegister_status h st' mf srcType srcURL t'
  refine ⟨⟨m', hm', hs, ?_⟩, hrow⟩
  rw [hs]
  decide

/-- C10 at a failing input: `demo`, active, is installed again from `/src`; afterwards
its row is `inactive` and the module in the registry has the empty status. -/
theorem finalize_status_empty_witness :
    (finalize demoHost (Activate demoHost demoState "demo").1 "/src" "zip" ""
      (newTask "1")).2.2 = none ∧
    (∃ m', Get (finalize demoHost (Activate demoHost demoState "demo").1 "/src" "zip" ""
        (newTask "1")).1 demoManifest.Name = some m' ∧
      m'.Status = "" ∧ m'.Status ≠ "inactive") ∧
    (∃ row, dbGet (finalize demoHost (Activate demoHost demoState "demo").1 "/src" "zip" ""
        (newTask "1")).1.rows demoManifest.Name = some row ∧
      row.status = "inactive") :=
  ⟨by decide,
    finalize_status_empty demoHost (Activate demoHost demoState "demo").1 "/src" "zip" ""
      (newTask "1") demoManifest rfl (by decide)⟩


/-! ## Claims about the installer and the registry, continued -/

/-- C11: when the manifest is valid and one of its required executables is not found on
the search path, `finalize` returns the error that names the first such executable in the
order of the list, and leaves the state as it was: the registry map with the process
handles of its modules, and the file system (no effect at all, so the destination
directory is untouched). -/
theorem finalize_missing_dep (h : Host) (st : State) (src srcType srcURL : String)
    (t : Task) (mf : Manifest) (hload : loadManifest h.mh src = .ok mf)
    (hmiss : ∃ d ∈ mf.Requires, h.lookPath d = false) :
    ∃ pre dep post, mf.Requires = pre ++ dep :: post ∧ (∀ d ∈ pre, h.lookPath d = true) ∧
      h.lookPath dep = false ∧
      (finalize h st src srcType srcURL t).2.2 =
        some ("требуется " ++ h.mh.quote dep ++ ", но не найден в PATH") ∧
      (finalize h st src srcType srcURL t).1 = st := by
  obtain ⟨pre, dep, post, t', h1, h2, h3, h4⟩ := checkRequires_missing h mf.Requires
    (t.log LvlInfo ("Модуль: " ++ mf.Name ++ " v" ++ mf.Version ++ " — " ++ mf.Description))
    hmiss
  refine ⟨pre, dep, post, h1, h2, h3, ?_, ?_⟩
  · unfold finalize
    simp only [hload, h4]
  · unfold finalize
    simp only [hload, h4]

/-- C11 on `depHost`: `git` is found, `ffmpeg` is not; `finalize` names `ffmpeg`. -/
theorem finalize_missing_dep_witness :
    ∃ pre dep post, depManifest.Requires = pre ++ dep :: post ∧
      (∀ d ∈ pre, depHost.lookPath d = true) ∧ depHost.lookPath dep = false ∧
      (finalize depHost demoState "/src" "zip" "" (newTask "1")).2.2 =
        some ("требуется " ++ depHost.mh.quote dep ++ ", но не найден в PATH") ∧
      (finalize depHost demoState "/src" "zip" "" (newTask "1")).1 = demoState :=
  finalize_missing_dep depHost demoState "/src" "zip" "" (newTask "1") depManifest rfl
    ⟨"ffmpeg", by decide, by decide⟩

/-- C12: in a registry whose modules are stored under their own names, after
`Delete(name)` a `Get` by that name finds nothing, no module of that name is in `All` and
no entry of that name in `NavItems`, and `Get` by any other name gives what it gave
before. -/
theorem Delete_spec (h : Host) (rmErr : List FsOp → String → Option String) (st : State)
    (name : String) (hkeys : WellKeyed st.byName) :
    Get (Delete h rmErr st name).1 name = none ∧
    (∀ m ∈ All (Delete h rmErr st name).1, m.Name ≠ name) ∧
    (∀ i ∈ NavItems (Delete h rmErr st name).1, i.Name ≠ name) ∧
    (∀ n, n ≠ name → Get (Delete h rmErr st name).1 n = Get st n) := by
  obtain ⟨hwk, hframe⟩ := Deactivate_frame h st name hkeys
  have hby : (Delete h rmErr st name).1.byName =
      mapDelete (Deactivate h st name).byName name := rfl
  have hmem : ∀ p ∈ (Delete h rmErr st name).1.byName, p.2.Name ≠ name := by
    intro p hp
    rw [hby] at hp
    unfold mapDelete at hp
    obtain ⟨hp1, hp2⟩ := List.mem_filter.1 hp
    rw [hwk p hp1]
    simpa using hp2
  refine ⟨?_, ?_, ?_, ?_⟩
  · unfold Get
    rw [hby, mapGet_mapDelete]
    simp
  · intro m hm
    unfold All at hm
    rw [mem_sortSlice] at hm
    obtain ⟨p, hp, rfl⟩ := List.mem_map.1 hm
    exact hmem p hp
  · intro i hi
    unfold NavItems at hi
    rw [mem_sortSlice] at hi
    obtain ⟨p, hp, hpi⟩ := List.mem_filterMap.1 hi
    rw [navItemOf_name p.2 i hpi]
    exact hmem p hp
  · intro n hn
    unfold Get
    rw [hby, mapGet_mapDelete]
    simp only [hn, if_false]
    exact hframe n hn

/-- C12 on the registry `demoActive`: after `Delete("demo")` the module is gone. -/
theorem Delete_spec_witness :
    WellKeyed demoActive.byName ∧
    Get (Delete demoHost (fun _ _ => none) demoActive "demo").1 "demo" = none :=
  ⟨by intro p hp; simp only [demoActive, List.mem_singleton] at hp; rw [hp]; rfl,
    (Delete_spec demoHost (fun _ _ => none) demoActive "demo"
      (by intro p hp; simp only [demoActive, List.mem_singleton] at hp; rw [hp]; rfl)).1⟩

/-- C13: the exit watcher of a module. If the registry holds a module of that name with
the status `active`, the watcher gives it, and its row, the status `error` and the message
`process exited unexpectedly`, which is not empty, and leaves the other modules alone; no
other call is involved. If no module of that name is held, or its status is not `active`,
the watcher leaves the state as it is. -/
theorem exitWatcher_spec (st : State) (name : String) :
    (∀ m, mapGet st.byName name = some m → m.Status = "active" →
      mapGet (exitWatcher st name).byName name =
        some { m with Status := "error", ErrorLog := "process exited unexpectedly" } ∧
      (exitWatcher st name).rows =
        dbSetStatus st.rows name "error" "process exited unexpectedly" ∧
      "process exited unexpectedly" ≠ "" ∧
      ∀ k, k ≠ name → mapGet (exitWatcher st name).byName k = mapGet st.byName k) ∧
    (mapGet st.byName name = none → exitWatcher st name = st) ∧
    (∀ m, mapGet st.byName name = some m → m.Status ≠ "active" →
      exitWatcher st name = st) := by
  refine ⟨?_, ?_, ?_⟩
  · intro m hg hs
    refine ⟨?_, ?_, by decide, ?_⟩
    · rw [exitWatcher_get]
      simp [hg, hs]
    · unfold exitWatcher
      simp [hg, hs]
    · intro k hk
      rw [exitWatcher_get]
      simp [hk]
  · intro hg
    unfold exitWatcher
    simp [hg]
  · intro m hg hs
    unfold exitWatcher
    simp [hg, hs]

/-- C13 on the registry `demoActive`: the process of `demo` exits, and `demo` gets the
status `error`. -/
theorem exitWatcher_spec_witness :
    mapGet (exitWatcher demoActive "demo").byName "demo" =
      some { demoModule with Status := "error", ErrorLog := "process exited unexpectedly" } ∧
    exitWatcher demoState "demo" = demoState :=
  ⟨((exitWatcher_spec demoActive "demo").1 { demoModule with Status := "active" } rfl rfl).1,
    (exitWatcher_spec demoState "demo").2.2 demoModule rfl (by decide)⟩

/-- C14: the code at the failing input. From the empty registry: `demo` is installed,
`Activate` fails because the entrypoint is missing (status `error`, with the message of the
error), then `Deactivate` sets the status `inactive` and leaves the message: the module and
its row are `inactive` with a non-empty error message. -/
theorem Deactivate_keeps_error_log :
    (Activate missingHost
      (finalize missingHost emptyState "/src" "zip" "" (newTask "1")).1 "demo").2 =
        some "entrypoint \"run.sh\" not found" ∧
    (Get (Deactivate missingHost (Activate missingHost
        (finalize missingHost emptyState "/src" "zip" "" (newTask "1")).1 "demo").1 "demo")
      "demo").map (fun m => (m.Status, m.ErrorLog)) =
        some ("inactive", "entrypoint \"run.sh\" not found") ∧
    (dbGet (Deactivate missingHost (Activate missingHost
        (finalize missingHost emptyState "/src" "zip" "" (newTask "1")).1 "demo").1 "demo").rows
      "demo").map (fun r => (r.status, r.error_log)) =
        some ("inactive", "entrypoint \"run.sh\" not found") := by
  decide

/-- C16: `NavItems` returns the entries made for the modules of the map, each once (a
reordering of them); an entry is made for a module exactly when its status is `active`, it
has a manifest and the menu is not hidden, with the label the menu label, else the
description, else the name, and the icon the menu icon, else `package`; the entries are in
ascending order of position, and of name where the positions are equal. `NavItems` only
reads the state. -/
theorem NavItems_spec (st : State) :
    (NavItems st).Perm (st.byName.filterMap (fun p => navItemOf p.2)) ∧
    (∀ m i, navItemOf m = some i ↔
      (m.Status = "active" ∧ ∃ mf, m.Manifest = some mf ∧ mf.Menu.Hidden = false ∧
        i.Name = m.Name ∧
        i.Label = (if mf.Menu.Label ≠ "" then mf.Menu.Label
          else if m.Description ≠ "" then m.Description else m.Name) ∧
        i.Icon = (if mf.Menu.Icon ≠ "" then mf.Menu.Icon else "package") ∧
        i.Position = mf.Menu.Position ∧ i.Href = "/modules/" ++ m.Name)) ∧
    List.Sorted (fun a b => a.Position < b.Position ∨
      (a.Position = b.Position ∧ strLess b.Name a.Name = false)) (NavItems st) := by
  refine ⟨?_, navItemOf_iff, NavItems_sorted st⟩
  unfold NavItems sortSlice
  exact List.perm_insertionSort _ _

/-- C17, as amended: the environment that `startProcess` builds is the host environment,
then `MODULE_NAME`, `MODULE_DIR` and `DATA_DIR`, then `PORT` exactly when the port is not
zero, then one entry for every pair of the manifest's map, in the order in which the map
is visited; and when no key of the map holds `=`, the last assignment of each key of the
map is the value of the map. -/
theorem cmdEnv_spec (h : Host) (st : State) (m : Module) (mf : Manifest)
    (hperm : (h.rangeOrder mf.Env).Perm mf.Env)
    (hmap : ∀ k v v', (k, v) ∈ mf.Env → (k, v') ∈ mf.Env → v = v')
    (hkeys : ∀ kv ∈ mf.Env, '=' ∉ kv.1.data) :
    (mkCmd h st m mf).Env =
      h.environ ++
        ["MODULE_NAME=" ++ m.Name, "MODULE_DIR=" ++ moduleDir st m.Name,
          "DATA_DIR=" ++ Join [st.dataDir, "module_data", m.Name]] ++
        (if mf.Port ≠ 0 then ["PORT=" ++ toString mf.Port] else []) ++
        (h.rangeOrder mf.Env).map (fun kv => kv.1 ++ "=" ++ kv.2) ∧
    (∀ k v, (k, v) ∈ mf.Env → envLookup (mkCmd h st m mf).Env k = some v) := by
  have henv : (mkCmd h st m mf).Env =
      h.environ ++
        ["MODULE_NAME=" ++ m.Name, "MODULE_DIR=" ++ moduleDir st m.Name,
          "DATA_DIR=" ++ Join [st.dataDir, "module_data", m.Name]] ++
        (if mf.Port ≠ 0 then ["PORT=" ++ toString mf.Port] else []) ++
        (h.rangeOrder mf.Env).map (fun kv => kv.1 ++ "=" ++ kv.2) := by
    unfold mkCmd cmdEnv
    by_cases hp : mf.Port = 0 <;> simp [hp]
  refine ⟨henv, ?_⟩
  intro k v hkv
  rw [henv]
  apply envLookup_last
  · intro kv hmem
    exact hkeys kv (hperm.mem_iff.1 hmem)
  · intro k' v1 v2 h1 h2
    exact hmap k' v1 v2 (hperm.mem_iff.1 h1) (hperm.mem_iff.1 h2)
  · exact hperm.mem_iff.2 hkv

/-- C17 as amended, on `demoHost`: with the map `PORT ↦ 9` the process is given `PORT=9`,
although the manifest port 4001 is in the list before it. -/
theorem cmdEnv_spec_witness :
    envLookup (mkCmd demoHost demoState demoModule
      { demoManifest with Env := [("PORT", "9")] }).Env "PORT" = some "9" :=
  (cmdEnv_spec demoHost demoState demoModule { demoManifest with Env := [("PORT", "9")] }
    (List.Perm.refl _)
    (by intro k v v' h1 h2
        simp only [List.mem_singleton, Prod.mk.injEq] at h1 h2
        rw [h1.2, h2.2])
    (by intro kv hkv
        simp only [List.mem_singleton] at hkv
        rw [hkv]; decide)).2 "PORT" "9" (List.mem_singleton.2 rfl)

/-- C17 as stated fails for a key that holds `=`: with the map `A ↦ 1`, `A=B ↦ 2` the
list ends with `A=1`, `A=B=2`, and the last assignment of `A` is `B=2`, not `1`. -/
theorem cmdEnv_key_with_eq :
    ("A", "1") ∈ envManifest.Env ∧
    (mkCmd demoHost demoState demoModule envManifest).Env =
      ["PATH=/usr/bin", "MODULE_NAME=demo", "MODULE_DIR=/data/modules/demo",
        "DATA_DIR=/data/module_data/demo", "A=1", "A=B=2"] ∧
    envLookup (mkCmd demoHost demoState demoModule envManifest).Env "A" = some "B=2" := by
  decide


/-! ## Claims about the cold start, the proxy and the install workflows -/

/-- C15: the code at the failing input. The module first in name order is persisted as
active and its start fails (the entrypoint is missing, or the launch is refused).
`LoadFromDB` gives it the status `error` and the message in memory, and then waits for ever
on `db.DB.Exec`: the one connection of the pool is held by the open rows of the query. The
table is unchanged, so the failure is not persisted, and no later module is loaded. -/
theorem LoadFromDB_blocks (h : Host) (st : State) (row : Row) (rest : List Row)
    (mf : Manifest)
    (hfirst : sortSlice (fun a b => strLess a.name b.name) st.rows = row :: rest)
    (hactive : row.status = "active") (hmf : h.mh.unmarshal row.manifest = .ok mf)
    (hentry : mf.Entrypoint ≠ "")
    (hfail : h.stat st.fs (Join [moduleDir st row.name, mf.Entrypoint]) = false ∨
      ∃ e, h.start (mkCmd h { st with byName := mapSet st.byName row.name (loadModule h row) }
        (loadModule h row) mf) = .error e) :
    ∃ st' err, LoadFromDB h st = .blocks st' ∧ st'.rows = st.rows ∧
      (Get st' row.name).map (fun m => (m.Status, m.ErrorLog)) = some ("error", err) ∧
      ∀ n, n ≠ row.name → Get st' n = Get st n := by
  have hM : (loadModule h row).Manifest = some mf := by
    unfold loadModule
    simp only [hmf]
  have hS : (loadModule h row).Status = "active" := hactive
  have hN : (loadModule h row).Name = row.name := rfl
  obtain ⟨herr, -, -⟩ := startProcess_error { h with exitsDuringDelay := fun _ => false }
    { st with byName := mapSet st.byName row.name (loadModule h row) } row.name
    (loadModule h row) mf hM hentry
  have hne : (startProcess { h with exitsDuringDelay := fun _ => false }
      { st with byName := mapSet st.byName row.name (loadModule h row) } row.name
      (loadModule h row)).2 ≠ none := by
    apply herr.2
    rcases hfail with hf | hf
    · left; exact hf
    · right; exact hf
  rcases hr : startProcess { h with exitsDuringDelay := fun _ => false }
      { st with byName := mapSet st.byName row.name (loadModule h row) } row.name
      (loadModule h row) with ⟨st2, eo⟩
  rw [hr] at hne
  cases eo with
  | none => exact absurd rfl hne
  | some err =>
    obtain ⟨hb, hrows⟩ := startProcess_error_state _ _ _ _ err (by rw [hr])
    rw [hr] at hb hrows
    simp only at hb hrows
    refine ⟨{ st2 with byName := mapAdjust st2.byName row.name (fun x =>
      { x with Status := "error", ErrorLog := err }) }, err, ?_, hrows, ?_, ?_⟩
    · unfold LoadFromDB
      rw [hfirst]
      unfold loadRows
      simp only [hS, hN, if_true, hr]
      simp [connFree, maxOpenConns]
    · unfold Get
      simp only [mapGet_mapAdjust, if_true, hb, mapGet_mapSet, Option.map_some', hN]
    · intro n hn
      unfold Get
      simp only [mapGet_mapAdjust, hn, if_false, hb, mapGet_mapSet]

/-- C15 at a failing input: `alpha` and `beta` are persisted as active and no entrypoint
exists. `LoadFromDB` waits after `alpha`: the row of `alpha` is still `active` and `beta`
is not in the registry. -/
theorem LoadFromDB_blocks_witness :
    ∃ st', LoadFromDB missingHost coldState = .blocks st' ∧
      (dbGet st'.rows "alpha").map (fun r => r.status) = some "active" ∧
      (Get st' "alpha").map (fun m => m.Status) = some "error" ∧
      Get st' "beta" = none := by
  obtain ⟨st', err, h1, h2, h3, h4⟩ := LoadFromDB_blocks missingHost coldState
    { demoRow with id := 1, name := "alpha", status := "active", manifest := "demo" }
    [{ demoRow with id := 2, name := "beta", status := "active", manifest := "demo" }]
    demoManifest (by decide) rfl rfl (by decide) (Or.inl rfl)
  refine ⟨st', h1, by rw [h2]; decide, ?_, ?_⟩
  · have := congrArg (Option.map Prod.fst) h3
    simpa [Option.map_map] using this
  · rw [h4 "beta" (by decide)]
    rfl

/-- C18: the code at the failing input. For a path `/module-proxy/<name>/<rest>`, with
`<rest>` one segment, `pathSeg(path, 2)` is `<rest>`, not `<name>`: `moduleProxy` looks up
the module `<rest>`, and when there is none it answers 503 and resolves no target,
whatever the module `<name>` is. -/
theorem moduleProxy_wrong_segment (st : State) (name rest q : String)
    (hn : '/' ∉ name.data) (hr : '/' ∉ rest.data) (hr0 : rest ≠ "")
    (hnone : Get st rest = none) :
    pathSeg ("/module-proxy/" ++ name ++ "/" ++ rest) 2 = rest ∧
    moduleProxy st ("/module-proxy/" ++ name ++ "/" ++ rest) q = .unavailable := by
  have e : "/module-proxy/" = "/" ++ "module-proxy" ++ "/" := by decide
  have hseg : pathSeg ("/module-proxy/" ++ name ++ "/" ++ rest) 2 = rest := by
    rw [e]
    exact pathSeg_two "module-proxy" name rest (by decide) (by decide) hn hr hr0
  refine ⟨hseg, ?_⟩
  unfold moduleProxy
  simp only [hseg, hnone]

/-- C18 at the failing input itself: `demo` is active on port 4001, and the request
`/module-proxy/demo/ping` is answered 503. -/
theorem moduleProxy_wrong_segment_witness :
    (Get demoActive "demo").map (fun m => (m.Status, m.Manifest.map (fun mf => mf.Port))) =
      some ("active", some 4001) ∧
    pathSeg ("/module-proxy/" ++ "demo" ++ "/" ++ "ping") 2 = "ping" ∧
    moduleProxy demoActive ("/module-proxy/" ++ "demo" ++ "/" ++ "ping") "" = .unavailable :=
  ⟨by decide,
    moduleProxy_wrong_segment demoActive "demo" "ping" "" (by decide) (by decide) (by decide)
      (by decide)⟩

/-- C19: for a root that can be listed, `findManifestDir` returns the root when
`manifest.json` exists there; otherwise it returns the first directory of the listing that
holds `manifest.json`; and it fails with `manifest.json not found` exactly when neither the
root nor any directory of the listing holds `manifest.json`. -/
theorem findManifestDir_spec (d : DirHost) (root : String) (entries : List DirEntry)
    (hread : d.readDir root = .ok entries) :
    (d.stat (Join [root, "manifest.json"]) = true → findManifestDir d root = .ok root) ∧
    (d.stat (Join [root, "manifest.json"]) = false →
      ∀ pre e post, entries = pre ++ e :: post →
        (∀ x ∈ pre, x.IsDir = true →
          d.stat (Join [Join [root, x.Name], "manifest.json"]) = false) →
        e.IsDir = true → d.stat (Join [Join [root, e.Name], "manifest.json"]) = true →
        findManifestDir d root = .ok (Join [root, e.Name])) ∧
    (findManifestDir d root = .error "manifest.json not found" ↔
      (d.stat (Join [root, "manifest.json"]) = false ∧
        ∀ e ∈ entries, e.IsDir = true →
          d.stat (Join [Join [root, e.Name], "manifest.json"]) = false)) := by
  refine ⟨?_, ?_, ?_⟩
  · intro hs
    unfold findManifestDir
    simp [hs]
  · intro hs pre e post hsplit hpre hd hse
    unfold findManifestDir
    simp only [hs, Bool.false_eq_true, if_false, hread, hsplit]
    exact findInEntries_first d root pre e post hpre hd hse
  · unfold findManifestDir
    cases hs : d.stat (Join [root, "manifest.json"]) with
    | true =>
      simp only [if_true, Bool.true_eq_false, false_and, iff_false]
      intro hc; cases hc
    | false =>
      simp only [Bool.false_eq_true, if_false, hread, true_and]
      exact findInEntries_not_found d root entries

/-- C19 on the tree of `subdirHost`: the manifest is found in `/tmp/t/mod`. -/
theorem findManifestDir_spec_witness :
    subdirHost.readDir "/tmp/t" = .ok [{ Name := "README.md" },
      { Name := "docs", IsDir := true }, { Name := "mod", IsDir := true }] ∧
    findManifestDir subdirHost "/tmp/t" = .ok (Join ["/tmp/t", "mod"]) :=
  ⟨rfl,
    (findManifestDir_spec subdirHost "/tmp/t" _ rfl).2.1 (by decide)
      [{ Name := "README.md" }, { Name := "docs", IsDir := true }]
      { Name := "mod", IsDir := true } [] rfl
      (by intro x hx hd
          simp only [List.mem_cons, List.mem_singleton, List.not_mem_nil, or_false] at hx
          rcases hx with rfl | rfl
          · exact absurd hd (by decide)
          · decide)
      rfl (by decide)⟩

/-- C20: the code at the failing input. Once the clone has succeeded, `InstallGitHub`
calls `finalize` on the root of the clone, without `findManifestDir`: when `manifest.json`
is not at the root, whatever the subdirectories hold, the task ends with the error
`manifest.json not found in <root>` and no module is registered. `InstallZip`, on a tree
that `findManifestDir` resolves to a subdirectory, calls `finalize` on that directory. -/
theorem InstallGitHub_ignores_subdir (h : Host) (tempDir : String) (st : State)
    (repoURL id : String)
    (hclone : (h.runLog st.fs "" "git"
      ["clone", "--depth=1", repoURL, cloneDir tempDir repoURL]).2 = none)
    (hroot : h.mh.readFile (Join [cloneDir tempDir repoURL, "manifest.json"]) = none) :
    ((InstallGitHub h tempDir st repoURL id).1.byName = st.byName ∧
      (InstallGitHub h tempDir st repoURL id).1.rows = st.rows ∧
      (InstallGitHub h tempDir st repoURL id).2.state.done = true ∧
      (InstallGitHub h tempDir st repoURL id).2.state.buf.getLast? =
        some { Text := "ERROR: manifest.json not found in " ++ cloneDir tempDir repoURL,
               Level := LvlError }) ∧
    (∀ (z : ZipHost) (d : DirHost) (zipPath sub : String),
      (unzip z zipPath (zipPath ++ "_dir")).2 = .ok →
      findManifestDir d (zipPath ++ "_dir") = .ok sub →
      InstallZip h z d st zipPath id =
        finishThen
          (finalize h { st with fs := st.fs ++ (unzip z zipPath (zipPath ++ "_dir")).1 } sub
            "zip" "" (((newTask id).log LvlInfo "Распаковка архива...").log LvlOK
              "Распаковано")).1
          (finalize h { st with fs := st.fs ++ (unzip z zipPath (zipPath ++ "_dir")).1 } sub
            "zip" "" (((newTask id).log LvlInfo "Распаковка архива...").log LvlOK
              "Распаковано")).2.1
          (finalize h { st with fs := st.fs ++ (unzip z zipPath (zipPath ++ "_dir")).1 } sub
            "zip" "" (((newTask id).log LvlInfo "Распаковка архива...").log LvlOK
              "Распаковано")).2.2
          [.RemoveAll (zipPath ++ "_dir"), .Remove zipPath]) := by
  constructor
  · unfold InstallGitHub
    simp only [hclone, finalize_no_manifest _ _ _ _ _ _ hroot]
    obtain ⟨h1, h2, h3⟩ := finishThen_spec
      { st with procs := st.procs ++
          [.Run "" "git" ["clone", "--depth=1", repoURL, cloneDir tempDir repoURL]] }
      ((List.foldl (fun t s => t.log LvlInfo ("  " ++ s))
        ((newTask id).log LvlInfo ("Клонирование: " ++ repoURL))
        (h.runLog st.fs "" "git"
          ["clone", "--depth=1", repoURL, cloneDir tempDir repoURL]).1).log LvlOK
        "Клонировано")
      (some ("manifest.json not found in " ++ cloneDir tempDir repoURL))
      [.RemoveAll (cloneDir tempDir repoURL)]
    refine ⟨h2, h3, ?_, ?_⟩
    · rw [h1]; exact (finish_error_last _ _).2
    · rw [h1]; exact (finish_error_last _ _).1
  · intro z d zipPath sub hu hf
    unfold InstallZip
    simp only [hu, hf]
    rcases finalize h { st with fs := st.fs ++ (unzip z zipPath (zipPath ++ "_dir")).1 } sub
      "zip" "" (((newTask id).log LvlInfo "Распаковка архива...").log LvlOK "Распаковано")
      with ⟨s1, t1, e1⟩
    cases e1 <;> rfl

/-- C20 at a failing input: the clone of `https://github.com/u/repo.git` has no
`manifest.json` at its root; the task ends with the error and the registry is as before. -/
theorem InstallGitHub_ignores_subdir_witness :
    (InstallGitHub demoHost "/tmp" demoState "https://github.com/u/repo.git" "1").1.byName =
      demoState.byName ∧
    (InstallGitHub demoHost "/tmp" demoState "https://github.com/u/repo.git"
      "1").2.state.buf.getLast? =
        some { Text := "ERROR: manifest.json not found in /tmp/hf_clone_repo",
               Level := LvlError } :=
  ⟨(InstallGitHub_ignores_subdir demoHost "/tmp" demoState "https://github.com/u/repo.git"
      "1" rfl (by decide)).1.1,
    (InstallGitHub_ignores_subdir demoHost "/tmp" demoState "https://github.com/u/repo.git"
      "1" rfl (by decide)).1.2.2.2⟩

/-! ## The handlers of the module pages -/

/-- C21: the directory that `Delete` removes is not always inside the modules directory.
In every registry `Delete("")` ends by removing the modules directory itself, which is
not strictly inside itself, and the router hands a `DELETE` request for `/modules/demo` to
`moduleDelete`, which takes the empty name from that path and so removes the modules
directory. In the registry `demoState`, whose data directory is `/data`, `Delete("..")`
removes the data directory, and `Delete("x/../demo")` removes the directory of the module
`demo`, which stays registered; `Delete("demo")` removes `/data/modules/demo`, which is
strictly inside the modules directory. -/
theorem Delete_removes_outside (h : Host) (rmErr : List FsOp → String → Option String)
    (st : State) :
    (Delete h rmErr st "").1.fs.getLast? = some (.RemoveAll (modulesDir st)) ∧
    strictlyInside (modulesDir st) (modulesDir st) = false ∧
    modulesSwitch "DELETE" "/modules/demo" = .delete ∧
    pathSeg "/modules/demo" 2 = "" ∧
    (moduleDelete h rmErr st "/modules/demo").fs.getLast? =
      some (.RemoveAll (modulesDir st)) ∧
    (Delete demoHost (fun _ _ => none) demoState "..").1.fs =
      [.RemoveAll demoState.dataDir] ∧
    "x/../demo" ≠ "demo" ∧
    (Delete demoHost (fun _ _ => none) demoState "x/../demo").1.fs =
      [.RemoveAll (moduleDir demoState "demo")] ∧
    Get (Delete demoHost (fun _ _ => none) demoState "x/../demo").1 "demo" =
      some demoModule ∧
    (Delete demoHost (fun _ _ => none) demoState "demo").1.fs =
      [.RemoveAll "/data/modules/demo"] ∧
    strictlyInside (modulesDir demoState) "/data/modules/demo" = true := by
  have hlast : (Delete h rmErr st "").1.fs.getLast? = some (.RemoveAll (modulesDir st)) := by
    rw [Delete_fs, moduleDir_empty]
    simp
  have hseg : pathSeg "/modules/demo" 2 = "" := by decide
  refine ⟨hlast, strictlyInside_self _, by decide, hseg, ?_, by decide, by decide, by decide,
    by decide, by decide, by decide⟩
  unfold moduleDelete
  rw [hseg]
  exact hlast

/-- C22: the identifier a handler takes from the path it is routed on is the last word of
the path, not the identifier. For a task identifier and a module name without a
separator: the address `/modules/install/<id>/stream` is handed to `moduleInstallStream`,
which takes `stream` from it and answers `task not found` unless a task is called
`stream`; `/modules/<name>/activate`, `/modules/<name>/deactivate` and
`/modules/<name>/delete` are handed to `moduleActivate`, `moduleDeactivate` and
`moduleDelete`, which take `activate`, `deactivate` and `delete` from them and call the
registry with these words as the name. -/
theorem pathSeg_takes_last_word (h : Host) (rmErr : List FsOp → String → Option String)
    (st : State) (tasks : List (String × Task)) (method id name : String)
    (hid : '/' ∉ id.data) (hn : '/' ∉ name.data) :
    (installSwitch (streamURL id) = true ∧
      streamTaskID (streamURL id) = "stream" ∧
      (GetTask tasks "stream" = none → moduleInstallStream tasks (streamURL id) = none)) ∧
    (modulesSwitch method ("/modules/" ++ name ++ "/activate") = .activate ∧
      pathSeg ("/modules/" ++ name ++ "/activate") 2 = "activate" ∧
      moduleActivate h st ("/modules/" ++ name ++ "/activate") = Activate h st "activate") ∧
    (modulesSwitch method ("/modules/" ++ name ++ "/deactivate") = .deactivate ∧
      pathSeg ("/modules/" ++ name ++ "/deactivate") 2 = "deactivate" ∧
      moduleDeactivate h st ("/modules/" ++ name ++ "/deactivate") =
        Deactivate h st "deactivate") ∧
    (modulesSwitch method ("/modules/" ++ name ++ "/delete") = .delete ∧
      pathSeg ("/modules/" ++ name ++ "/delete") 2 = "delete" ∧
      moduleDelete h rmErr st ("/modules/" ++ name ++ "/delete") =
        (Delete h rmErr st "delete").1) := by
  have hs : streamTaskID (streamURL id) = "stream" := pathSeg_streamURL id hid
  have ha : pathSeg ("/modules/" ++ name ++ "/activate") 2 = "activate" :=
    pathSeg_modules name "activate" hn (by decide) (by decide)
  have hd : pathSeg ("/modules/" ++ name ++ "/deactivate") 2 = "deactivate" :=
    pathSeg_modules name "deactivate" hn (by decide) (by decide)
  have hx : pathSeg ("/modules/" ++ name ++ "/delete") 2 = "delete" :=
    pathSeg_modules name "delete" hn (by decide) (by decide)
  refine ⟨⟨?_, hs, ?_⟩, ⟨?_, ha, ?_⟩, ⟨?_, hd, ?_⟩, ⟨?_, hx, ?_⟩⟩
  · exact HasSuffix_append _ _
  · intro hg
    unfold moduleInstallStream
    rw [hs, hg]
  · unfold modulesSwitch
    rw [HasSuffix_append]
    rfl
  · unfold moduleActivate
    rw [ha]
  · unfold modulesSwitch
    rw [not_HasSuffix_activate, HasSuffix_append]
    rfl
  · unfold moduleDeactivate
    rw [hd]
  · unfold modulesSwitch
    rw [(not_HasSuffix_delete _).1, (not_HasSuffix_delete _).2, HasSuffix_append]
    simp
  · unfold moduleDelete
    rw [hx]

/-- C22 for the task `1700000000000000000` and the module `demo` of the registry
`demoState`: the stream of the task is not found although the task is in the map, and
the request to activate `demo` fails because no module is called `activate`. -/
theorem pathSeg_takes_last_word_witness :
    '/' ∉ "1700000000000000000".data ∧ '/' ∉ "demo".data ∧
    streamTaskID (streamURL "1700000000000000000") = "stream" ∧
    moduleInstallStream [("1700000000000000000", newTask "1700000000000000000")]
      (streamURL "1700000000000000000") = none ∧
    pathSeg ("/modules/" ++ "demo" ++ "/activate") 2 = "activate" ∧
    moduleActivate demoHost demoState ("/modules/" ++ "demo" ++ "/activate") =
      Activate demoHost demoState "activate" ∧
    (Activate demoHost demoState "activate").2 =
      some ("module " ++ demoHost.mh.quote "activate" ++ " not found") :=
  ⟨by decide, by decide,
    (pathSeg_takes_last_word demoHost (fun _ _ => none) demoState
      [("1700000000000000000", newTask "1700000000000000000")] "POST"
      "1700000000000000000" "demo" (by decide) (by decide)).1.2.1,
    (pathSeg_takes_last_word demoHost (fun _ _ => none) demoState
      [("1700000000000000000", newTask "1700000000000000000")] "POST"
      "1700000000000000000" "demo" (by decide) (by decide)).1.2.2 (by decide),
    (pathSeg_takes_last_word demoHost (fun _ _ => none) demoState
      [("1700000000000000000", newTask "1700000000000000000")] "POST"
      "1700000000000000000" "demo" (by decide) (by decide)).2.1.2.1,
    (pathSeg_takes_last_word demoHost (fun _ _ => none) demoState
      [("1700000000000000000", newTask "1700000000000000000")] "POST"
      "1700000000000000000" "demo" (by decide) (by decide)).2.1.2.2,
    by decide⟩


end Hopefully
